import Mathlib

/-! SimpleCross: a limit-order matching engine

A shallow embedding of `Price.cpp`, `Order.cpp` and `simple_cross.cpp`.

* A C++ `char` is a Lean `Char` with the same code, a `std::string` is a `String`
  (the unread part of a stream is a `List Char`).
* `uint32_t` and `uint16_t` values are natural numbers; the places where the
  source does machine arithmetic reduce modulo `2 ^ 32` or `2 ^ 16` explicitly.
* An `Order*` is the key (`oid`) of the order in `activeOrders`: the map owns
  the orders and never erases one, so a pointer is dereferenced by a lookup.
* A `std::map` is an association list kept sorted by key, a `std::set` is a
  list kept sorted by its comparator.
* The iterator stored in `Order::book_iter` is modelled by the element it
  designates, i.e. by the order pointer held in the tree node.
-/

namespace Cross

/-! ## Price.hpp / Price.cpp -/

/-- Fixed-point price: `intPart` and `fracPart` are `uint32_t` in the source. -/
structure Price where
  intPart : Nat
  fracPart : Nat
deriving DecidableEq, Repr

/-- Three-way comparison result (`std::strong_ordering`). -/
inductive StrongOrdering where
  | less
  | equal
  | greater
deriving DecidableEq, Repr

/-- The built-in `<=>` on unsigned integers. -/
def natCmp (a b : Nat) : StrongOrdering :=
  if a < b then .less else if a = b then .equal else .greater

/-- The method `Price::operator<=>`. -/
def Price.cmp (p other : Price) : StrongOrdering :=
  if p.intPart ≠ other.intPart then natCmp p.intPart other.intPart
  else natCmp p.fracPart other.fracPart

/-- Rewritten operator `a >= b`, i.e. `(a <=> b) >= 0`. -/
def Price.ge (a b : Price) : Bool := a.cmp b != .less

/-- Rewritten operator `a <= b`, i.e. `(a <=> b) <= 0`. -/
def Price.le (a b : Price) : Bool := a.cmp b != .greater

/-- Rewritten operator `a < b`, i.e. `(a <=> b) < 0`. -/
def Price.lt (a b : Price) : Bool := a.cmp b == .less

/-- The constant `INT_PART_DIGITS`. -/
def INT_PART_DIGITS : Nat := 7

/-- The constant `FRAC_PART_DIGITS`. -/
def FRAC_PART_DIGITS : Nat := 5

/-- Output of `ss << std::setfill('0') << std::setw(w) << n`: the decimal digits of
`n`, padded on the left with `0` up to width `w`. -/
def padLeftZeros (w : Nat) (s : String) : String :=
  String.mk (List.replicate (w - s.length) '0') ++ s

/-- The function `to_string(const Price&)`. -/
def Price.to_string (p : Price) : String :=
  toString p.intPart ++ "." ++ padLeftZeros FRAC_PART_DIGITS (toString p.fracPart)

/-! ## Streams -/

/-- A `std::stringstream`: the characters not yet read and the two state bits
the program looks at. -/
structure SStream where
  buf : List Char
  eofbit : Bool
  failbit : Bool
deriving DecidableEq, Repr

/-- A stream freshly constructed on a string. -/
def SStream.ofString (s : List Char) : SStream := ⟨s, false, false⟩

/-- The member `good()`. -/
def SStream.good (ss : SStream) : Bool := !ss.eofbit && !ss.failbit

/-- The member `setstate(std::ios::failbit)`. -/
def SStream.setFail (ss : SStream) : SStream := { ss with failbit := true }

/-- The classification `isspace` in the "C" locale. -/
def isSpace (c : Char) : Bool :=
  c.toNat = 32 || (9 ≤ c.toNat && c.toNat ≤ 13)

/-- The classification `isdigit`. -/
def isDigit (c : Char) : Bool := 48 ≤ c.toNat && c.toNat ≤ 57

/-- The classification `isalnum` in the "C" locale. -/
def isAlnum (c : Char) : Bool :=
  isDigit c || (65 ≤ c.toNat && c.toNat ≤ 90) || (97 ≤ c.toNat && c.toNat ≤ 122)

/-- Formatted extraction `ss >> str` into an empty `std::string`: fails on a
stream that is not good, skips white space, fails at the end of the input, and
otherwise reads the characters up to the next white space. -/
def SStream.readWord (ss : SStream) : SStream × List Char :=
  if !ss.good then (ss.setFail, [])
  else
    let rest := ss.buf.dropWhile isSpace
    if rest.isEmpty then (⟨[], true, true⟩, [])
    else
      let word := rest.takeWhile (fun c => !isSpace c)
      let after := rest.dropWhile (fun c => !isSpace c)
      (⟨after, after.isEmpty, false⟩, word)

/-- Value of a string of decimal digits, most significant first. -/
def digitsValue (ds : List Char) : Nat :=
  ds.foldl (fun acc c => 10 * acc + (c.toNat - 48)) 0

/-- Extraction `std::istringstream(s) >> result` for an unsigned integer type
with largest value `max`: white space is skipped, one sign is accepted, then the
longest run of decimal digits is read. The extraction fails (`none`) when there
is no digit or the value exceeds `max`; a leading minus negates modulo
`max + 1`. -/
def extractUnsigned (max : Nat) (s : List Char) : Option Nat :=
  let s1 := s.dropWhile isSpace
  let signed : Bool × List Char :=
    match s1 with
    | c :: r => if c = '-' then (true, r) else if c = '+' then (false, r) else (false, s1)
    | [] => (false, s1)
  let ds := signed.2.takeWhile isDigit
  if ds.isEmpty then none
  else
    let v := digitsValue ds
    if v > max then none
    else if signed.1 then some ((max + 1 - v) % (max + 1)) else some v

/-- Largest `uint32_t`. -/
def UINT32_MAX : Nat := 4294967295

/-- Largest `uint16_t`. -/
def UINT16_MAX : Nat := 65535

/-- The manipulator `in >> std::ws`. -/
def SStream.ws (ss : SStream) : SStream :=
  if !ss.good then ss.setFail
  else
    let rest := ss.buf.dropWhile isSpace
    ⟨rest, rest.isEmpty, false⟩

/-- The call `std::getline(in, str, delim)` into an empty string. -/
def SStream.getline (ss : SStream) (delim : Char) : SStream × List Char :=
  if !ss.good then (ss.setFail, [])
  else if ss.buf.isEmpty then (⟨[], true, true⟩, [])
  else
    let str := ss.buf.takeWhile (fun c => c != delim)
    match ss.buf.dropWhile (fun c => c != delim) with
    | [] => (⟨[], true, false⟩, str)
    | _ :: after => (⟨after, false, false⟩, str)

/-- The extraction `operator>>(std::istream&, Price&)`; the price is meaningful
when the returned stream has not failed. -/
def Price.read (ss : SStream) : SStream × Option Price :=
  let r1 := (ss.ws).getline '.'
  let inp := r1.1
  let intPartStr := r1.2
  if inp.failbit then (inp, none)
  else
    let r2 := inp.readWord
    let inp := r2.1
    let fracPartStr := r2.2
    if inp.failbit then (inp, none)
    else if intPartStr.length = 0 then (inp.setFail, none)
    else if intPartStr.head? = some '-' then (inp.setFail, none)
    else if fracPartStr.length ≠ FRAC_PART_DIGITS then (inp.setFail, none)
    else if fracPartStr.head? = some '-' then (inp.setFail, none)
    else if intPartStr.length > INT_PART_DIGITS then (inp.setFail, none)
    else
      match extractUnsigned UINT32_MAX intPartStr with
      | none => (inp.setFail, none)
      | some ip =>
        match extractUnsigned UINT32_MAX fracPartStr with
        | none => (inp.setFail, none)
        | some fp => (inp, some ⟨ip, fp⟩)

/-- The enum `InputParseResult`, carrying the parsed value on success. -/
inductive InputParseResult (α : Type) where
  | Success (value : α)
  | EndOfFile
  | BadInput
deriving DecidableEq, Repr

/-- The template `parse<T>` for an unsigned `T` with largest value `max`. -/
def parseUnsigned (max : Nat) (ss : SStream) : SStream × InputParseResult Nat :=
  if ss.eofbit then (ss, .EndOfFile)
  else
    let r := ss.readWord
    let current := r.2
    let s1 := if current.length ≥ 1 ∧ current.head? = some '-' then r.1.setFail else r.1
    match extractUnsigned max current with
    | none => (s1.setFail, .BadInput)
    | some v => if s1.failbit then (s1, .BadInput) else (s1, .Success v)

/-- The template `parse<T>` for `std::string`. -/
def parseString (ss : SStream) : SStream × InputParseResult String :=
  if ss.eofbit then (ss, .EndOfFile)
  else
    let r := ss.readWord
    if r.1.failbit then (r.1, .BadInput) else (r.1, .Success (String.mk r.2))

/-- The template `parse<T>` for `Price`. -/
def parsePrice (ss : SStream) : SStream × InputParseResult Price :=
  if ss.eofbit then (ss, .EndOfFile)
  else
    match Price.read ss with
    | (s1, some p) => if s1.failbit then (s1, .BadInput) else (s1, .Success p)
    | (s1, none) => (s1, .BadInput)

/-- The specialisation `parse<char>`. -/
def parseChar (ss : SStream) : SStream × InputParseResult Char :=
  if ss.eofbit then (ss, .EndOfFile)
  else
    let r := ss.readWord
    if r.1.failbit then (r.1, .BadInput)
    else
      match r.2 with
      | [c] => (r.1, .Success c)
      | _ => (r.1, .BadInput)

/-- The function `reachedEnd`. -/
def reachedEnd (ss : SStream) : Bool :=
  if ss.eofbit then true else ss.buf.all isSpace

/-! ## Order.hpp / Order.cpp -/

/-- The enum `OrderSide`. -/
inductive OrderSide where
  | Buy
  | Sell
deriving DecidableEq, Repr

/-- The alias `OID` (`uint32_t`); order ids are written as `Nat` below so that
linear arithmetic applies to them directly. -/
abbrev OID := Nat

/-- The struct `Order`; `quantity` is a `uint16_t`. -/
structure Order where
  oid : Nat
  symbol : String
  side : OrderSide
  quantity : Nat
  price : Price
  book_iter : Option Nat
deriving DecidableEq, Repr

/-- The constructor `Order::Order`; `book_iter` is default-initialised to `std::nullopt`. -/
def Order.new (oid : Nat) (symbol : String) (side : OrderSide) (quantity : Nat) (price : Price) :
    Order :=
  ⟨oid, symbol, side, quantity, price, none⟩

/-- The method `Order::operator<=>`. -/
def Order.cmp (o other : Order) : StrongOrdering :=
  if o.price ≠ other.price then
    (if o.side = OrderSide.Buy then other.price.cmp o.price else o.price.cmp other.price)
  else natCmp o.oid other.oid

/-- Rewritten operator `a < b` on orders. -/
def Order.lt (a b : Order) : Bool := a.cmp b == .less

/-! ## Containers -/

/-- The member `std::map::find`, as an optional value. -/
def mapFind {κ ν : Type} [DecidableEq κ] : List (κ × ν) → κ → Option ν
  | [], _ => none
  | (k', v) :: m, k => if k' = k then some v else mapFind m k

/-- Insertion of a new key into a `std::map` (by `emplace` or `operator[]`);
an existing key keeps its value. -/
def mapEmplace {κ ν : Type} (lt : κ → κ → Bool) (k : κ) (v : ν) : List (κ × ν) → List (κ × ν)
  | [] => [(k, v)]
  | (k', v') :: m =>
    if lt k k' then (k, v) :: (k', v') :: m
    else if lt k' k then (k', v') :: mapEmplace lt k v m
    else (k', v') :: m

/-- Assignment through a reference to the value stored under `k`. -/
def mapModify {κ ν : Type} [DecidableEq κ] (k : κ) (f : ν → ν) : List (κ × ν) → List (κ × ν)
  | [] => []
  | (k', v) :: m => if k' = k then (k', f v) :: m else (k', v) :: mapModify k f m

/-- The member `std::set::insert` for a set ordered by `lt`: nothing is inserted
when an equivalent element is present. -/
def setInsert {α : Type} (lt : α → α → Bool) (x : α) : List α → List α
  | [] => [x]
  | y :: ys =>
    if lt x y then x :: y :: ys
    else if lt y x then y :: setInsert lt x ys
    else y :: ys

/-- The iterator returned by `std::set::insert`, as the element it designates: the
inserted element, or the equivalent element that prevented the insertion. -/
def setInsertIter {α : Type} (lt : α → α → Bool) (x : α) : List α → α
  | [] => x
  | y :: ys =>
    if lt x y then x
    else if lt y x then setInsertIter lt x ys
    else y

/-- Key order of `std::map<OID, Order>`. -/
def oidLt (a b : Nat) : Bool := decide (a < b)

/-- The comparison `std::string::operator<` on the characters of two strings:
lexicographic by character code, a proper initial segment being smaller. -/
def strLt : List Char → List Char → Bool
  | [], [] => false
  | [], _ :: _ => true
  | _ :: _, [] => false
  | a :: as, b :: bs =>
    if a.toNat < b.toNat then true
    else if b.toNat < a.toNat then false
    else strLt as bs

/-- Key order of `std::map<std::string, OrderBook>`. -/
def symbolLt (a b : String) : Bool := strLt a.data b.data

/-! ## simple_cross.hpp -/

/-- The struct `OrderBook`: both sets hold order pointers. -/
structure OrderBook where
  buys : List Nat
  sells : List Nat
deriving DecidableEq, Repr

/-- The class `SimpleCross`. -/
structure SimpleCross where
  activeOrders : List (Nat × Order)
  books : List (String × OrderBook)
deriving DecidableEq, Repr

/-- A freshly constructed engine. -/
def SimpleCross.empty : SimpleCross := ⟨[], []⟩

/-- The comparator `OrderBook::OrderPtrComparator`: both pointers are dereferenced. -/
def OrderPtrComparator (activeOrders : List (Nat × Order)) (lhs rhs : Nat) : Bool :=
  match mapFind activeOrders lhs, mapFind activeOrders rhs with
  | some a, some b => a.lt b
  | _, _ => false

/-- The type `results_t`. -/
abbrev results_t := List String

/-- Subtraction `a -= b` on `uint16_t`. -/
def sub16 (a b : Nat) : Nat := (a + 65536 - b % 65536) % 65536

/-- A fill line: `"F " + to_string(oid) + " " + symbol + " " + to_string(qty) + " " + to_string(price)`. -/
def fillLine (oid : Nat) (symbol : String) (filledQty : Nat) (price : Price) : String :=
  "F " ++ toString oid ++ " " ++ symbol ++ " " ++ toString filledQty ++ " " ++ price.to_string

/-- State of the matching loop of `action`: the order table, the set behind the
reference `oppositeOrders`, and the output list. -/
structure CrossState where
  activeOrders : List (Nat × Order)
  oppositeOrders : List Nat
  outputs : results_t
deriving DecidableEq, Repr

/-- The test `(order.side == Buy && order.price >= match.price) ||
(order.side == Sell && order.price <= match.price)`. -/
def canExecute (order m : Order) : Bool :=
  (order.side == OrderSide.Buy && order.price.ge m.price) ||
    (order.side == OrderSide.Sell && order.price.le m.price)

/-- One execution of the body of the `while` loop of `action` (lines 381-405),
entered with the loop condition true; `none` is the `break`. A pointer that
refers to no order ends the loop, and dereferencing an empty `book_iter` (undefined
in the source) erases nothing; `Inv` shows that neither happens in a reachable
state. -/
def crossBody (oid : Nat) (st : CrossState) : Option CrossState :=
  match st.oppositeOrders.head?, mapFind st.activeOrders oid with
  | some mp, some order =>
    match mapFind st.activeOrders mp with
    | some m =>
      if canExecute order m then
        let filledQty := min order.quantity m.quantity
        let outputs := st.outputs ++
          [fillLine order.oid order.symbol filledQty m.price,
           fillLine m.oid m.symbol filledQty m.price]
        let ao1 := mapModify oid (fun o => { o with quantity := sub16 o.quantity filledQty })
          st.activeOrders
        match mapFind ao1 mp with
        | some m1 =>
          if m1.quantity = filledQty then
            let ao2 := mapModify mp (fun o => { o with quantity := 0, book_iter := none }) ao1
            let opp := match m1.book_iter with
              | some it => st.oppositeOrders.erase it
              | none => st.oppositeOrders
            some ⟨ao2, opp, outputs⟩
          else
            let ao2 := mapModify mp
              (fun o => { o with quantity := sub16 o.quantity filledQty }) ao1
            some ⟨ao2, st.oppositeOrders, outputs⟩
        | none => none
      else none
    | none => none
  | _, _ => none

/-- The loop condition `order.quantity > 0 && !oppositeOrders.empty()`. -/
def crossCond (oid : Nat) (st : CrossState) : Bool :=
  match mapFind st.activeOrders oid with
  | some order => decide (order.quantity > 0) && !st.oppositeOrders.isEmpty
  | none => false

/-- The `while` loop of `action` (lines 379-409), run for at most `fuel` iterations. -/
def crossLoop (oid : Nat) : Nat → CrossState → CrossState
  | 0, st => st
  | fuel + 1, st =>
    if crossCond oid st then
      match crossBody oid st with
      | some st1 => crossLoop oid fuel st1
      | none => st
    else st

/-- Value behind the reference `books[symbol]` once the entry exists. -/
def bookAt (books : List (String × OrderBook)) (symbol : String) : OrderBook :=
  (mapFind books symbol).getD ⟨[], []⟩

/-- Lines 363-421 of `action`: place the parsed order. The loop gets one unit of
fuel more than the opposite side has entries, which is enough for it to end by
its own exit (`crossLoop_fuel_enough`). -/
def place (s : SimpleCross) (oid : Nat) (symbol : String) (side : OrderSide) (quantity : Nat)
    (price : Price) : results_t × SimpleCross :=
  match mapFind s.activeOrders oid with
  | some _ => (["E " ++ toString oid ++ " Duplicate order id"], s)
  | none =>
    let ao := mapEmplace oidLt oid (Order.new oid symbol side quantity price) s.activeOrders
    let books := mapEmplace symbolLt symbol (⟨[], []⟩ : OrderBook) s.books
    let bookForSymbol := bookAt books symbol
    let oppositeOrders :=
      if side = OrderSide.Buy then bookForSymbol.sells else bookForSymbol.buys
    let st := crossLoop oid (oppositeOrders.length + 1) ⟨ao, oppositeOrders, []⟩
    let books1 := mapModify symbol (fun b =>
      if side = OrderSide.Buy then { b with sells := st.oppositeOrders }
      else { b with buys := st.oppositeOrders }) books
    match mapFind st.activeOrders oid with
    | some order =>
      if order.quantity > 0 then
        if order.side = OrderSide.Buy then
          let book_iter := setInsertIter (OrderPtrComparator st.activeOrders) oid
            (bookAt books1 symbol).buys
          (st.outputs,
            ⟨mapModify oid (fun o => { o with book_iter := some book_iter }) st.activeOrders,
             mapModify symbol (fun b =>
              { b with buys := setInsert (OrderPtrComparator st.activeOrders) oid b.buys })
              books1⟩)
        else
          let book_iter := setInsertIter (OrderPtrComparator st.activeOrders) oid
            (bookAt books1 symbol).sells
          (st.outputs,
            ⟨mapModify oid (fun o => { o with book_iter := some book_iter }) st.activeOrders,
             mapModify symbol (fun b =>
              { b with sells := setInsert (OrderPtrComparator st.activeOrders) oid b.sells })
              books1⟩)
      else (st.outputs, ⟨st.activeOrders, books1⟩)
    | none => (st.outputs, ⟨st.activeOrders, books1⟩)

/-- Lines 446-468 of `action`: cancel the order with the parsed id. -/
def cancel (s : SimpleCross) (oid : Nat) : results_t × SimpleCross :=
  match mapFind s.activeOrders oid with
  | none => ([], s)
  | some order =>
    if order.quantity = 0 then (["E Already filled order " ++ toString oid], s)
    else
      match order.book_iter with
      | some it =>
        let books := mapEmplace symbolLt order.symbol (⟨[], []⟩ : OrderBook) s.books
        let books1 := mapModify order.symbol (fun b =>
          if order.side = OrderSide.Buy then { b with buys := b.buys.erase it }
          else { b with sells := b.sells.erase it }) books
        let ao := mapModify oid (fun o => { o with book_iter := none }) s.activeOrders
        (["X " ++ toString oid], ⟨ao, books1⟩)
      | none => (["E Already canceled order " ++ toString oid], s)

/-- A book line: `"P " + to_string(oid) + " " + symbol + " S " + ...`. -/
def bookLine (o : Order) (sideText : String) : String :=
  "P " ++ toString o.oid ++ " " ++ o.symbol ++ sideText ++ toString o.quantity ++ " " ++
    o.price.to_string

/-- Lines for a list of order pointers, in the order given. -/
def bookLines (activeOrders : List (Nat × Order)) (sideText : String) (ptrs : List Nat) :
    results_t :=
  ptrs.filterMap (fun p => (mapFind activeOrders p).map (fun o => bookLine o sideText))

/-- Lines 475-485 of `action`: print the books. -/
def snapshot (s : SimpleCross) : results_t :=
  s.books.flatMap (fun sb =>
    bookLines s.activeOrders " S " sb.2.sells.reverse ++ bookLines s.activeOrders " B " sb.2.buys)

/-- The constant `MAX_SYMBOL_SIZE`. -/
def MAX_SYMBOL_SIZE : Nat := 8

/-- The branch `action == 'O'` of `action` up to the end of parsing (lines 264-361),
followed by the placement. -/
def actionO (s : SimpleCross) (ss : SStream) : results_t × SimpleCross :=
  match parseUnsigned UINT32_MAX ss with
  | (_, .BadInput) => (["E OID is malformed"], s)
  | (_, .EndOfFile) => (["E Expected OID in input"], s)
  | (ss, .Success oid) =>
    if oid = 0 then (["E Expected positive OID"], s)
    else
      match parseString ss with
      | (_, .BadInput) => (["E Symbol is malformed"], s)
      | (_, .EndOfFile) => (["E Expected symbol in input"], s)
      | (ss, .Success symbol) =>
        if symbol.length > MAX_SYMBOL_SIZE then (["E Symbol size exceeds max symbol size"], s)
        else if symbol.data.any (fun c => !isAlnum c) then (["E Symbol is not alphanumeric"], s)
        else
          match parseChar ss with
          | (_, .BadInput) => (["E Side is malformed"], s)
          | (_, .EndOfFile) => (["E Expected side in input"], s)
          | (ss, .Success sideCh) =>
            if sideCh ≠ 'B' ∧ sideCh ≠ 'S' then (["E Side must be either 'B' or 'S'"], s)
            else
              let side := if sideCh = 'B' then OrderSide.Buy else OrderSide.Sell
              match parseUnsigned UINT16_MAX ss with
              | (_, .BadInput) => (["E Quantity is malformed"], s)
              | (_, .EndOfFile) => (["E Expected quantity in input"], s)
              | (ss, .Success quantity) =>
                if quantity = 0 then (["E Expected positive quantity in input"], s)
                else
                  match parsePrice ss with
                  | (_, .BadInput) => (["E Price is malformed"], s)
                  | (_, .EndOfFile) => (["E Expected price in input"], s)
                  | (ss, .Success price) =>
                    if !reachedEnd ss then (["E Expected end of input"], s)
                    else place s oid symbol side quantity price

/-- The branch `action == 'X'` of `action` (lines 424-468). -/
def actionX (s : SimpleCross) (ss : SStream) : results_t × SimpleCross :=
  match parseUnsigned UINT32_MAX ss with
  | (_, .BadInput) => (["E OID is malformed"], s)
  | (_, .EndOfFile) => (["E Expected OID in input"], s)
  | (ss, .Success oid) =>
    if oid = 0 then (["E Expected positive OID"], s)
    else if !reachedEnd ss then (["E Expected end of input"], s)
    else cancel s oid

/-- The method `SimpleCross::action`: the output lines and the engine afterwards. -/
def SimpleCross.action (s : SimpleCross) (line : String) : results_t × SimpleCross :=
  if line.length = 0 then ([""], s)
  else
    match parseChar (SStream.ofString line.data) with
    | (_, .BadInput) => (["E Action is malformed"], s)
    | (_, .EndOfFile) => (["E Expected action in input"], s)
    | (ss, .Success action) =>
      if action = 'O' then actionO s ss
      else if action = 'X' then actionX s ss
      else if action = 'P' then
        if !reachedEnd ss then (["E Expected end of input"], s)
        else (snapshot s, s)
      else (["E Unknown action " ++ String.mk [action]], s)

/-- The engine after feeding the lines of a session, in order, to a fresh engine. -/
def runLines (lines : List String) : SimpleCross :=
  lines.foldl (fun s l => (s.action l).2) SimpleCross.empty

/-- Outputs of a whole session, as printed by `readActions`. -/
def sessionOutput : SimpleCross → List String → results_t
  | _, [] => []
  | s, l :: ls => (s.action l).1 ++ sessionOutput (s.action l).2 ls

/-! ## Requests

The parsing part of `action` reads no engine state, so a line determines a
request; `parseLine` is that part alone and `perform` is what `action` does
with the request (`action_eq_perform`). -/

/-- What a line asks for. -/
inductive Request where
  | blank
  | error (msg : String)
  | place (oid : Nat) (symbol : String) (side : OrderSide) (quantity : Nat) (price : Price)
  | cancel (oid : Nat)
  | print
deriving DecidableEq, Repr

/-- The parsing steps of the branch `action == 'O'`. -/
def parseO (ss : SStream) : Request :=
  match parseUnsigned UINT32_MAX ss with
  | (_, .BadInput) => .error "E OID is malformed"
  | (_, .EndOfFile) => .error "E Expected OID in input"
  | (ss, .Success oid) =>
    if oid = 0 then .error "E Expected positive OID"
    else
      match parseString ss with
      | (_, .BadInput) => .error "E Symbol is malformed"
      | (_, .EndOfFile) => .error "E Expected symbol in input"
      | (ss, .Success symbol) =>
        if symbol.length > MAX_SYMBOL_SIZE then .error "E Symbol size exceeds max symbol size"
        else if symbol.data.any (fun c => !isAlnum c) then .error "E Symbol is not alphanumeric"
        else
          match parseChar ss with
          | (_, .BadInput) => .error "E Side is malformed"
          | (_, .EndOfFile) => .error "E Expected side in input"
          | (ss, .Success sideCh) =>
            if sideCh ≠ 'B' ∧ sideCh ≠ 'S' then .error "E Side must be either 'B' or 'S'"
            else
              let side := if sideCh = 'B' then OrderSide.Buy else OrderSide.Sell
              match parseUnsigned UINT16_MAX ss with
              | (_, .BadInput) => .error "E Quantity is malformed"
              | (_, .EndOfFile) => .error "E Expected quantity in input"
              | (ss, .Success quantity) =>
                if quantity = 0 then .error "E Expected positive quantity in input"
                else
                  match parsePrice ss with
                  | (_, .BadInput) => .error "E Price is malformed"
                  | (_, .EndOfFile) => .error "E Expected price in input"
                  | (ss, .Success price) =>
                    if !reachedEnd ss then .error "E Expected end of input"
                    else .place oid symbol side quantity price

/-- The parsing steps of the branch `action == 'X'`. -/
def parseX (ss : SStream) : Request :=
  match parseUnsigned UINT32_MAX ss with
  | (_, .BadInput) => .error "E OID is malformed"
  | (_, .EndOfFile) => .error "E Expected OID in input"
  | (ss, .Success oid) =>
    if oid = 0 then .error "E Expected positive OID"
    else if !reachedEnd ss then .error "E Expected end of input"
    else .cancel oid

/-- The parsing steps of `action`. -/
def parseLine (line : String) : Request :=
  if line.length = 0 then .blank
  else
    match parseChar (SStream.ofString line.data) with
    | (_, .BadInput) => .error "E Action is malformed"
    | (_, .EndOfFile) => .error "E Expected action in input"
    | (ss, .Success action) =>
      if action = 'O' then parseO ss
      else if action = 'X' then parseX ss
      else if action = 'P' then
        if !reachedEnd ss then .error "E Expected end of input" else .print
      else .error ("E Unknown action " ++ String.mk [action])

/-- What `action` does once the line is parsed. -/
def perform (s : SimpleCross) : Request → results_t × SimpleCross
  | .blank => ([""], s)
  | .error msg => ([msg], s)
  | .place oid symbol side quantity price => place s oid symbol side quantity price
  | .cancel oid => cancel s oid
  | .print => (snapshot s, s)

/-! ## Specification vocabulary -/

/-- A strict total order given by a boolean comparison. -/
structure StrictTotal {κ : Type} (lt : κ → κ → Bool) : Prop where
  irrefl : ∀ a, lt a a = false
  trans : ∀ a b c, lt a b = true → lt b c = true → lt a c = true
  tri : ∀ a b, lt a b = false → lt b a = false → a = b

/-- The keys of a map are strictly increasing. -/
def KeysSorted {κ ν : Type} (lt : κ → κ → Bool) (m : List (κ × ν)) : Prop :=
  (m.map Prod.fst).Pairwise (fun a b => lt a b = true)

/-- Lexicographic order on `(intPart, fracPart)`. -/
def Price.Lt (p q : Price) : Prop :=
  p.intPart < q.intPart ∨ (p.intPart = q.intPart ∧ p.fracPart < q.fracPart)

/-- The other side. -/
def OrderSide.opposite : OrderSide → OrderSide
  | .Buy => .Sell
  | .Sell => .Buy

/-- The set of a book on one side. -/
def OrderBook.sideSet (b : OrderBook) : OrderSide → List Nat
  | .Buy => b.buys
  | .Sell => b.sells

/-- The resting orders of `symbol` on `side`, best first (empty when the symbol has no book). -/
def restingOn (s : SimpleCross) (symbol : String) (side : OrderSide) : List Nat :=
  (bookAt s.books symbol).sideSet side

/-- Crossability test of the specification: a Buy order crosses if its price is at
least the best price, a Sell order if its price is at most the best price. -/
def crossable (side : OrderSide) (price best : Price) : Bool :=
  match side with
  | .Buy => price.ge best
  | .Sell => price.le best

/-- One match: the resting order, the quantity filled and the execution price. -/
structure Fill where
  resting : Nat
  qty : Nat
  price : Price
deriving DecidableEq, Repr

/-- Matching algorithm of the specification (section 4.3, step 3) as a function of
the state before the call: an incoming order of the given side and limit price
with `rem` shares left walks the opposite side `opp` best first; while shares
are left and the best resting order is crossable, it fills
`min rem (resting quantity)` at the resting order's price. -/
def matchList (activeOrders : List (Nat × Order)) (side : OrderSide) (price : Price) :
    Nat → List Nat → List Fill
  | _, [] => []
  | rem, p :: ps =>
    match mapFind activeOrders p with
    | none => []
    | some m =>
      if 0 < rem ∧ crossable side price m.price = true then
        ⟨p, min rem m.quantity, m.price⟩ ::
          matchList activeOrders side price (rem - min rem m.quantity) ps
      else []

/-- What is left of the opposite side after the matches of `matchList`: the
resting orders that were filled completely are gone. -/
def bookAfter (activeOrders : List (Nat × Order)) (side : OrderSide) (price : Price) :
    Nat → List Nat → List Nat
  | _, [] => []
  | rem, p :: ps =>
    match mapFind activeOrders p with
    | none => p :: ps
    | some m =>
      if 0 < rem ∧ crossable side price m.price = true ∧ m.quantity ≤ rem then
        bookAfter activeOrders side price (rem - m.quantity) ps
      else p :: ps

/-- The two output lines of a match: the incoming order's line, then the resting order's. -/
def Fill.lines (oid : Nat) (symbol : String) (f : Fill) : List String :=
  [fillLine oid symbol f.qty f.price, fillLine f.resting symbol f.qty f.price]

/-- Sum of the filled quantities. -/
def fillTotal (fills : List Fill) : Nat := (fills.map Fill.qty).sum

/-- The quantity filled on the resting order `k`, if it was matched. -/
def fillFor : List Fill → Nat → Option Nat
  | [], _ => none
  | f :: fs, k => if f.resting = k then some f.qty else fillFor fs k

/-- A resting order after a fill of `f` shares: it leaves the book when nothing is left. -/
def Order.afterFill (o : Order) (f : Nat) : Order :=
  if o.quantity = f then { o with quantity := 0, book_iter := none }
  else { o with quantity := o.quantity - f }

/-- The order stored under `k` after the matches `fills` of the incoming order `oid`. -/
def orderAfter (fills : List Fill) (oid : Nat) (k : Nat) (o : Order) : Order :=
  if k = oid then { o with quantity := o.quantity - fillTotal fills }
  else
    match fillFor fills k with
    | some f => o.afterFill f
    | none => o

/-- Well-formedness of an engine state. -/
structure Inv (s : SimpleCross) : Prop where
  booksSorted : KeysSorted symbolLt s.books
  ordersSorted : KeysSorted oidLt s.activeOrders
  oidKey : ∀ k o, mapFind s.activeOrders k = some o → o.oid = k ∧ o.quantity ≤ UINT16_MAX
  oidPos : ∀ k o, mapFind s.activeOrders k = some o → 0 < k ∧ k ≤ UINT32_MAX
  entry : ∀ sym b side p, mapFind s.books sym = some b → p ∈ b.sideSet side →
    ∃ o, mapFind s.activeOrders p = some o ∧ o.symbol = sym ∧ o.side = side ∧
      0 < o.quantity ∧ o.book_iter = some p
  sorted : ∀ sym b side, mapFind s.books sym = some b →
    (b.sideSet side).Pairwise (fun p q => OrderPtrComparator s.activeOrders p q = true)
  resting : ∀ k o it, mapFind s.activeOrders k = some o → o.book_iter = some it →
    k ∈ restingOn s o.symbol o.side

/-- A state is reachable when some session of input lines leads to it from a fresh engine. -/
def Reachable (s : SimpleCross) : Prop := ∃ lines : List String, s = runLines lines

/-- Hypotheses on the state of the matching loop: the incoming order `oid` is in
the table with `rem` shares left and is not in the opposite set `ps`, whose
entries are distinct resting orders of the same symbol. -/
structure LoopOK (oid : Nat) (sym : String) (side : OrderSide) (price : Price) (rem : Nat)
    (ao : List (Nat × Order)) (ps : List Nat) : Prop where
  order : ∃ o, mapFind ao oid = some o ∧ o.oid = oid ∧ o.symbol = sym ∧ o.side = side ∧
    o.price = price ∧ o.quantity = rem
  remLe : rem ≤ UINT16_MAX
  notMem : oid ∉ ps
  nodup : ps.Nodup
  entry : ∀ p ∈ ps, ∃ m, mapFind ao p = some m ∧ m.oid = p ∧ m.symbol = sym ∧
    0 < m.quantity ∧ m.quantity ≤ UINT16_MAX ∧ m.book_iter = some p

/-- A book with the set of one side replaced. -/
def OrderBook.withSide (b : OrderBook) (side : OrderSide) (l : List Nat) : OrderBook :=
  match side with
  | .Buy => { b with buys := l }
  | .Sell => { b with sells := l }

/-- The end of the placement (lines 411-421 of `action`), after the matching loop
has ended in state `st`; `books` already holds the book of the symbol. -/
def placeFinish (oid : Nat) (sym : String) (side : OrderSide) (st : CrossState)
    (books : List (String × OrderBook)) : results_t × SimpleCross :=
  match mapFind st.activeOrders oid with
  | some order =>
    if order.quantity > 0 then
      let book_iter := setInsertIter (OrderPtrComparator st.activeOrders) oid
        ((bookAt (mapModify sym (fun b => b.withSide side.opposite st.oppositeOrders)
          books) sym).sideSet order.side)
      (st.outputs,
        ⟨mapModify oid (fun o => { o with book_iter := some book_iter }) st.activeOrders,
         mapModify sym (fun b => b.withSide order.side
            (setInsert (OrderPtrComparator st.activeOrders) oid (b.sideSet order.side)))
          (mapModify sym (fun b => b.withSide side.opposite st.oppositeOrders) books)⟩)
    else
      (st.outputs, ⟨st.activeOrders,
        mapModify sym (fun b => b.withSide side.opposite st.oppositeOrders) books⟩)
  | none =>
    (st.outputs, ⟨st.activeOrders,
      mapModify sym (fun b => b.withSide side.opposite st.oppositeOrders) books⟩)

/-- The fields of an order that its position in a book depends on. -/
def Order.sortKey (o : Order) : Nat × OrderSide × Price := (o.oid, o.side, o.price)

/-- The matches of a placement as the specification computes them from the state
before the call. -/
def placeFills (s : SimpleCross) (sym : String) (side : OrderSide) (q : Nat) (price : Price) :
    List Fill :=
  matchList s.activeOrders side price q (restingOn s sym side.opposite)

/-- What is left of the incoming order after its matches. -/
def placeRemaining (s : SimpleCross) (sym : String) (side : OrderSide) (q : Nat)
    (price : Price) : Nat :=
  q - fillTotal (placeFills s sym side q price)

/-- The facts that relate the state `t` after placing the order `oid` to the state `s` before. -/
structure PlaceFacts (s t : SimpleCross) (oid : Nat) (sym : String) (side : OrderSide) (q : Nat)
    (price : Price) : Prop where
  orders : ∀ k, mapFind t.activeOrders k =
    if k = oid then
      some ⟨oid, sym, side, placeRemaining s sym side q price, price,
        if 0 < placeRemaining s sym side q price then some oid else none⟩
    else (mapFind s.activeOrders k).map (orderAfter (placeFills s sym side q price) oid k)
  books : ∀ sym', mapFind t.books sym' =
    if sym' = sym then
      some (((bookAt s.books sym).withSide side.opposite
          (bookAfter s.activeOrders side price q (restingOn s sym side.opposite))).withSide side
        (if 0 < placeRemaining s sym side q price then
          setInsert (OrderPtrComparator t.activeOrders) oid (restingOn s sym side)
         else restingOn s sym side))
    else mapFind s.books sym'
  ordersSorted : KeysSorted oidLt t.activeOrders
  booksSorted : KeysSorted symbolLt t.books

/-- The first four lines of the example session of the source. -/
def sessionA : List String :=
  ["O 10000 IBM B 10 100.00000", "O 10001 IBM B 10 99.00000", "O 10002 IBM S 5 101.00000"]

/-- The example session of the source up to the second sell order at 102. -/
def sessionB : List String :=
  ["O 10000 IBM B 10 100.00000", "O 10001 IBM B 10 99.00000", "O 10002 IBM S 5 101.00000",
   "O 10003 IBM S 5 100.00000", "O 10004 IBM S 5 100.00000", "X 10002",
   "O 10005 IBM B 10 99.00000", "O 10006 IBM B 10 100.00000", "O 10007 IBM S 10 101.00000",
   "O 10008 IBM S 10 102.00000", "O 10008 IBM S 10 102.00000", "O 10009 IBM S 10 102.00000"]

/-- The quantity of the order stored under `p` (0 when there is none). -/
def quantityOf (s : SimpleCross) (p : Nat) : Nat :=
  ((mapFind s.activeOrders p).map Order.quantity).getD 0

/-- The orders designated by a list of order pointers, in the order of the list. -/
def ordersOf (activeOrders : List (Nat × Order)) (ptrs : List Nat) : List Order :=
  ptrs.filterMap (mapFind activeOrders)

/-- The books as the snapshot walks them: for each symbol of `books`, in the order of
the map, the orders of the sell set from its last entry to its first, and the
orders of the buy set from its first entry to its last. -/
def snapshotGroups (s : SimpleCross) : List (String × List Order × List Order) :=
  s.books.map (fun sb =>
    (sb.1, ordersOf s.activeOrders sb.2.sells.reverse, ordersOf s.activeOrders sb.2.buys))

/-- All orders the snapshot walks over, in its order. -/
def snapshotOrders (s : SimpleCross) : List Order :=
  (snapshotGroups s).flatMap (fun g => g.2.1 ++ g.2.2)

/-- The side text of a book line for an order of the given side. -/
def sideText : OrderSide → String
  | .Sell => " S "
  | .Buy => " B "

/-- The books are not crossed: every resting buy order of a symbol has a price
below that of every resting sell order of the symbol. -/
def Uncrossed (s : SimpleCross) : Prop :=
  ∀ sym p q a c, p ∈ restingOn s sym OrderSide.Buy → q ∈ restingOn s sym OrderSide.Sell →
    mapFind s.activeOrders p = some a → mapFind s.activeOrders q = some c →
    Price.Lt a.price c.price

/-- The state in which the matching loop of a placement starts (lines 363-378 of
`action`): the order table with the incoming order, the opposite side of the book
of its symbol, and no output. -/
def placeStart (s : SimpleCross) (oid : Nat) (sym : String) (side : OrderSide) (q : Nat)
    (price : Price) : CrossState :=
  ⟨mapEmplace oidLt oid (Order.new oid sym side q price) s.activeOrders,
   (bookAt (mapEmplace symbolLt sym (⟨[], []⟩ : OrderBook) s.books) sym).sideSet side.opposite,
   []⟩

/-! # Theorems -/

/-! ## Containers -/

theorem mapFind_mapModify {κ ν : Type} [DecidableEq κ] (k : κ) (f : ν → ν) (m : List (κ × ν))
    (k' : κ) :
    mapFind (mapModify k f m) k' = if k' = k then (mapFind m k).map f else mapFind m k' := by
  induction m with
  | nil => simp [mapModify, mapFind]
  | cons hd tl ih =>
    obtain ⟨a, v⟩ := hd
    by_cases h : a = k
    · subst h
      by_cases h' : a = k'
      · subst h'; simp [mapModify, mapFind]
      · have h'' : ¬ k' = a := fun e => h' e.symm
        simp [mapModify, mapFind, h', h'']
    · by_cases h' : a = k'
      · subst h'
        simp [mapModify, mapFind, h]
      · simp only [mapModify, mapFind, h, h', if_false, ih]

theorem mapModify_keys {κ ν : Type} [DecidableEq κ] (k : κ) (f : ν → ν) (m : List (κ × ν)) :
    (mapModify k f m).map Prod.fst = m.map Prod.fst := by
  induction m with
  | nil => rfl
  | cons hd tl ih =>
    obtain ⟨a, v⟩ := hd
    by_cases h : a = k
    · simp [mapModify, h]
    · simp [mapModify, h, ih]

theorem mapModify_of_none {κ ν : Type} [DecidableEq κ] (k : κ) (f : ν → ν) (m : List (κ × ν))
    (h : mapFind m k = none) : mapModify k f m = m := by
  induction m with
  | nil => rfl
  | cons hd tl ih =>
    obtain ⟨a, v⟩ := hd
    by_cases h' : a = k
    · simp [mapFind, h'] at h
    · simp only [mapFind, h', if_false] at h
      simp [mapModify, h', ih h]

theorem mapFind_mem {κ ν : Type} [DecidableEq κ] (m : List (κ × ν)) (k : κ) (v : ν)
    (h : mapFind m k = some v) : (k, v) ∈ m := by
  induction m with
  | nil => simp [mapFind] at h
  | cons hd tl ih =>
    obtain ⟨a, w⟩ := hd
    by_cases h' : a = k
    · simp [mapFind, h'] at h
      simp [h', h]
    · simp only [mapFind, h', if_false] at h
      exact List.mem_cons_of_mem _ (ih h)

theorem mapFind_none_of_not_key {κ ν : Type} [DecidableEq κ] (m : List (κ × ν)) (k : κ)
    (h : k ∉ m.map Prod.fst) : mapFind m k = none := by
  induction m with
  | nil => rfl
  | cons hd tl ih =>
    obtain ⟨a, w⟩ := hd
    simp only [List.map_cons, List.mem_cons, not_or] at h
    have h1 : ¬ a = k := fun e => h.1 e.symm
    simp only [mapFind, h1, if_false]
    exact ih h.2

theorem mapFind_of_mem {κ ν : Type} [DecidableEq κ] {lt : κ → κ → Bool} (hlt : StrictTotal lt)
    (m : List (κ × ν)) (hs : KeysSorted lt m) (k : κ) (v : ν) (h : (k, v) ∈ m) :
    mapFind m k = some v := by
  induction m with
  | nil => simp at h
  | cons hd tl ih =>
    obtain ⟨a, w⟩ := hd
    simp only [KeysSorted, List.map_cons, List.pairwise_cons] at hs
    rcases List.mem_cons.1 h with h1 | h1
    · simp only [Prod.mk.injEq] at h1
      simp [mapFind, h1.1, h1.2]
    · have hk : k ∈ tl.map Prod.fst := List.mem_map.2 ⟨(k, v), h1, rfl⟩
      have hak : lt a k = true := hs.1 k hk
      have hne : ¬ a = k := by
        intro e
        rw [e, hlt.irrefl] at hak
        exact Bool.noConfusion hak
      simp only [mapFind, hne, if_false]
      exact ih hs.2 h1

theorem mapFind_mapEmplace_of_none {κ ν : Type} [DecidableEq κ] {lt : κ → κ → Bool}
    (hlt : StrictTotal lt) (k : κ) (v : ν) (m : List (κ × ν)) (h : mapFind m k = none) (k' : κ) :
    mapFind (mapEmplace lt k v m) k' = if k' = k then some v else mapFind m k' := by
  induction m with
  | nil =>
    by_cases hk : k = k'
    · subst hk; simp [mapEmplace, mapFind]
    · have hk' : ¬ k' = k := fun e => hk e.symm
      simp [mapEmplace, mapFind, hk, hk']
  | cons hd tl ih =>
    obtain ⟨a, w⟩ := hd
    have hak : ¬ a = k := by
      intro e
      simp [mapFind, e] at h
    simp only [mapFind, hak, if_false] at h
    simp only [mapEmplace]
    by_cases h1 : lt k a = true
    · simp only [h1, if_true]
      by_cases hk : k = k'
      · subst hk; simp [mapFind]
      · have hk' : ¬ k' = k := fun e => hk e.symm
        simp [mapFind, hk, hk']
    · simp only [h1]
      by_cases h2 : lt a k = true
      · simp only [h2, if_true, Bool.false_eq_true, if_false]
        by_cases ha : a = k'
        · have hk' : ¬ k' = k := fun e => hak (ha.trans e)
          simp [mapFind, ha, hk']
        · simp only [mapFind, ha, if_false]
          exact ih h
      · exfalso
        exact hak (hlt.tri a k (by simpa using h2) (by simpa using h1))

theorem mapEmplace_of_some {κ ν : Type} [DecidableEq κ] {lt : κ → κ → Bool}
    (hlt : StrictTotal lt) (k : κ) (v : ν) (m : List (κ × ν)) (hs : KeysSorted lt m) (v0 : ν)
    (h : mapFind m k = some v0) : mapEmplace lt k v m = m := by
  induction m with
  | nil => simp [mapFind] at h
  | cons hd tl ih =>
    obtain ⟨a, w⟩ := hd
    simp only [KeysSorted, List.map_cons, List.pairwise_cons] at hs
    simp only [mapEmplace]
    by_cases hak : a = k
    · subst hak
      simp [hlt.irrefl]
    · simp only [mapFind, hak, if_false] at h
      have hmem : k ∈ tl.map Prod.fst := List.mem_map.2 ⟨(k, v0), mapFind_mem _ _ _ h, rfl⟩
      have h2 : lt a k = true := hs.1 k hmem
      have h1 : lt k a = false := by
        cases hka : lt k a
        · rfl
        · have := hlt.trans k a k hka h2
          rw [hlt.irrefl] at this
          exact Bool.noConfusion this
      simp only [h1, h2, if_true, Bool.false_eq_true, if_false]
      rw [ih hs.2 h]

theorem mapEmplace_keys_mem {κ ν : Type} {lt : κ → κ → Bool} (k : κ) (v : ν)
    (m : List (κ × ν)) (x : κ) (hx : x ∈ (mapEmplace lt k v m).map Prod.fst) :
    x = k ∨ x ∈ m.map Prod.fst := by
  induction m with
  | nil => simpa [mapEmplace] using hx
  | cons hd tl ih =>
    obtain ⟨a, w⟩ := hd
    simp only [mapEmplace] at hx
    split at hx
    · simpa using hx
    · split at hx
      · simp only [List.map_cons, List.mem_cons] at hx ⊢
        rcases hx with hx | hx
        · exact Or.inr (Or.inl hx)
        · rcases ih hx with h | h
          · exact Or.inl h
          · exact Or.inr (Or.inr h)
      · exact Or.inr hx

theorem mapEmplace_sorted {κ ν : Type} {lt : κ → κ → Bool} (hlt : StrictTotal lt) (k : κ) (v : ν)
    (m : List (κ × ν)) (hs : KeysSorted lt m) : KeysSorted lt (mapEmplace lt k v m) := by
  induction m with
  | nil => simp [mapEmplace, KeysSorted]
  | cons hd tl ih =>
    obtain ⟨a, w⟩ := hd
    have hs' := hs
    simp only [KeysSorted, List.map_cons, List.pairwise_cons] at hs
    simp only [mapEmplace]
    by_cases h1 : lt k a = true
    · simp only [h1, if_true]
      simp only [KeysSorted, List.map_cons, List.pairwise_cons]
      refine ⟨?_, hs⟩
      intro x hx
      rcases List.mem_cons.1 hx with hx | hx
      · rw [hx]; exact h1
      · exact hlt.trans k a x h1 (hs.1 x hx)
    · simp only [h1]
      by_cases h2 : lt a k = true
      · simp only [h2, if_true, Bool.false_eq_true, if_false]
        simp only [KeysSorted, List.map_cons, List.pairwise_cons]
        refine ⟨?_, ih hs.2⟩
        intro x hx
        rcases mapEmplace_keys_mem k v tl x hx with hx | hx
        · rw [hx]; exact h2
        · exact hs.1 x hx
      · simp only [h2, Bool.false_eq_true, if_false]
        exact hs'

theorem mapModify_sorted {κ ν : Type} [DecidableEq κ] {lt : κ → κ → Bool} (k : κ) (f : ν → ν)
    (m : List (κ × ν)) (hs : KeysSorted lt m) : KeysSorted lt (mapModify k f m) := by
  unfold KeysSorted
  rw [mapModify_keys]
  exact hs

theorem oidLt_strictTotal : StrictTotal oidLt where
  irrefl := by intro a; simp [oidLt]
  trans := by
    intro a b c h1 h2
    have h1' : a < b := of_decide_eq_true h1
    have h2' : b < c := of_decide_eq_true h2
    exact decide_eq_true (Nat.lt_trans h1' h2')
  tri := by
    intro a b h1 h2
    have h1' : ¬ a < b := of_decide_eq_false h1
    have h2' : ¬ b < a := of_decide_eq_false h2
    exact Nat.le_antisymm (Nat.not_lt.1 h2') (Nat.not_lt.1 h1')

theorem strLt_irrefl (a : List Char) : strLt a a = false := by
  induction a with
  | nil => rfl
  | cons c cs ih => simp [strLt, ih]

theorem strLt_trans (a : List Char) : ∀ b c, strLt a b = true → strLt b c = true →
    strLt a c = true := by
  induction a with
  | nil =>
    intro b c h1 h2
    cases b with
    | nil => simp [strLt] at h1
    | cons y ys =>
      cases c with
      | nil => simp [strLt] at h2
      | cons z zs => simp [strLt]
  | cons x xs ih =>
    intro b c h1 h2
    cases b with
    | nil => simp [strLt] at h1
    | cons y ys =>
      cases c with
      | nil => simp [strLt] at h2
      | cons z zs =>
        simp only [strLt] at h1 h2 ⊢
        by_cases hxy : x.toNat < y.toNat
        · by_cases hyz : y.toNat < z.toNat
          · have : x.toNat < z.toNat := by omega
            simp [this]
          · simp only [hyz, if_false] at h2
            by_cases hzy : z.toNat < y.toNat
            · simp [hzy] at h2
            · have : x.toNat < z.toNat := by omega
              simp [this]
        · simp only [hxy, if_false] at h1
          by_cases hyx : y.toNat < x.toNat
          · simp [hyx] at h1
          · simp only [hyx, if_false] at h1
            by_cases hyz : y.toNat < z.toNat
            · have : x.toNat < z.toNat := by omega
              simp [this]
            · simp only [hyz, if_false] at h2
              by_cases hzy : z.toNat < y.toNat
              · simp [hzy] at h2
              · simp only [hzy, if_false] at h2
                have h3 : ¬ x.toNat < z.toNat := by omega
                have h4 : ¬ z.toNat < x.toNat := by omega
                simp only [h3, h4, if_false]
                exact ih ys zs h1 h2

theorem strLt_tri (a : List Char) : ∀ b, strLt a b = false → strLt b a = false → a = b := by
  induction a with
  | nil =>
    intro b h1 h2
    cases b with
    | nil => rfl
    | cons y ys => simp [strLt] at h1
  | cons x xs ih =>
    intro b h1 h2
    cases b with
    | nil => simp [strLt] at h2
    | cons y ys =>
      simp only [strLt] at h1 h2
      by_cases hxy : x.toNat < y.toNat
      · simp [hxy] at h1
      · by_cases hyx : y.toNat < x.toNat
        · simp [hyx] at h2
        · simp only [hxy, hyx, if_false] at h1 h2
          have hc : x = y := by
            apply Char.ext
            apply UInt32.ext
            simp only [Char.toNat] at hxy hyx
            omega
          rw [hc, ih ys h1 h2]

theorem symbolLt_strictTotal : StrictTotal symbolLt where
  irrefl := fun a => strLt_irrefl a.data
  trans := fun a b c => strLt_trans a.data b.data c.data
  tri := by
    intro a b h1 h2
    have := strLt_tri a.data b.data h1 h2
    cases a; cases b; simp_all

/-! ## Comparisons -/

theorem natCmp_less (a b : Nat) : natCmp a b = .less ↔ a < b := by
  unfold natCmp; split
  · simp [*]
  · split <;> simp [*]

theorem natCmp_greater (a b : Nat) : natCmp a b = .greater ↔ b < a := by
  unfold natCmp; split
  · simp; omega
  · split
    · simp; omega
    · simp; omega

theorem price_ext_iff (p q : Price) : p = q ↔ p.intPart = q.intPart ∧ p.fracPart = q.fracPart := by
  cases p; cases q; simp

theorem price_lt_iff (p q : Price) : p.lt q = true ↔ Price.Lt p q := by
  unfold Price.lt Price.cmp Price.Lt
  by_cases h : p.intPart = q.intPart
  · simp [h, natCmp_less]
  · simp only [ne_eq, h, not_false_eq_true, if_true, beq_iff_eq, natCmp_less, false_and, or_false]

theorem price_ge_iff (p q : Price) : p.ge q = true ↔ ¬ Price.Lt p q := by
  rw [← price_lt_iff]
  unfold Price.ge Price.lt
  cases p.cmp q <;> decide

theorem price_le_iff (p q : Price) : p.le q = true ↔ ¬ Price.Lt q p := by
  unfold Price.le Price.cmp Price.Lt
  by_cases h : p.intPart = q.intPart
  · have h' : q.intPart = p.intPart := h.symm
    simp only [ne_eq, h, not_true_eq_false, if_false, bne_iff_ne, natCmp_greater, lt_self_iff_false,
      true_and, false_or]
  · have h' : ¬ q.intPart = p.intPart := fun e => h e.symm
    simp only [ne_eq, h, not_false_eq_true, if_true, bne_iff_ne, natCmp_greater, h', false_and,
      or_false]

theorem order_lt_iff (a b : Order) : a.lt b = true ↔
    (a.price ≠ b.price ∧ (if a.side = OrderSide.Buy then Price.Lt b.price a.price
      else Price.Lt a.price b.price)) ∨ (a.price = b.price ∧ a.oid < b.oid) := by
  unfold Order.lt Order.cmp
  by_cases h : a.price = b.price
  · simp [h, natCmp_less]
  · simp only [ne_eq, h, not_false_eq_true, if_true, true_and, false_and, or_false]
    split
    · rw [← price_lt_iff]; rfl
    · rw [← price_lt_iff]; rfl

theorem order_lt_irrefl (a : Order) : a.lt a = false := by
  cases h : a.lt a
  · rfl
  · rw [order_lt_iff] at h
    simp at h

theorem order_lt_iff_lex (a b : Order) : a.lt b = true ↔
    (a.side = OrderSide.Buy ∧ (b.price.intPart < a.price.intPart ∨
      (a.price.intPart = b.price.intPart ∧ (b.price.fracPart < a.price.fracPart ∨
        (a.price.fracPart = b.price.fracPart ∧ a.oid < b.oid))))) ∨
    (a.side = OrderSide.Sell ∧ (a.price.intPart < b.price.intPart ∨
      (a.price.intPart = b.price.intPart ∧ (a.price.fracPart < b.price.fracPart ∨
        (a.price.fracPart = b.price.fracPart ∧ a.oid < b.oid))))) := by
  rw [order_lt_iff]
  obtain ⟨ao, asym, aside, aq, ⟨ai, af⟩, ait⟩ := a
  obtain ⟨bo, bsym, bside, bq, ⟨bi, bf⟩, bit⟩ := b
  simp only [ne_eq, Price.mk.injEq, Price.Lt]
  cases aside
  · simp only [if_true, true_and, reduceCtorEq, false_and, or_false]
    constructor
    · rintro (⟨h1, h2⟩ | ⟨⟨h1, h2⟩, h3⟩)
      · rcases h2 with h2 | ⟨h2, h3⟩
        · exact Or.inl h2
        · exact Or.inr ⟨h2.symm, Or.inl h3⟩
      · exact Or.inr ⟨h1, Or.inr ⟨h2, h3⟩⟩
    · rintro (h | ⟨h1, h2 | ⟨h2, h3⟩⟩)
      · exact Or.inl ⟨by omega, Or.inl h⟩
      · exact Or.inl ⟨by omega, Or.inr ⟨h1.symm, h2⟩⟩
      · exact Or.inr ⟨⟨h1, h2⟩, h3⟩
  · simp only [reduceCtorEq, if_false, true_and, false_and, false_or]
    constructor
    · rintro (⟨h1, h2⟩ | ⟨⟨h1, h2⟩, h3⟩)
      · rcases h2 with h2 | ⟨h2, h3⟩
        · exact Or.inl h2
        · exact Or.inr ⟨h2, Or.inl h3⟩
      · exact Or.inr ⟨h1, Or.inr ⟨h2, h3⟩⟩
    · rintro (h | ⟨h1, h2 | ⟨h2, h3⟩⟩)
      · exact Or.inl ⟨by omega, Or.inl h⟩
      · exact Or.inl ⟨by omega, Or.inr ⟨h1, h2⟩⟩
      · exact Or.inr ⟨⟨h1, h2⟩, h3⟩

theorem order_lt_trans (a b c : Order) (hab : a.side = b.side)
    (h1 : a.lt b = true) (h2 : b.lt c = true) : a.lt c = true := by
  rw [order_lt_iff_lex] at *
  rw [← hab] at h2
  rcases h1 with ⟨hs, h1⟩ | ⟨hs, h1⟩
  · rcases h2 with ⟨_, h2⟩ | ⟨hs2, _⟩
    · exact Or.inl ⟨hs, by omega⟩
    · rw [hs] at hs2; cases hs2
  · rcases h2 with ⟨hs2, _⟩ | ⟨_, h2⟩
    · rw [hs] at hs2; cases hs2
    · exact Or.inr ⟨hs, by omega⟩

theorem order_lt_asymm (a b : Order) (hab : a.side = b.side)
    (h1 : a.lt b = true) : b.lt a = false := by
  cases h2 : b.lt a
  · rfl
  · have := order_lt_trans a b a hab h1 h2
    rw [order_lt_irrefl] at this
    exact Bool.noConfusion this

theorem order_lt_tri (a b : Order) (hab : a.side = b.side)
    (h1 : a.lt b = false) (h2 : b.lt a = false) : a.price = b.price ∧ a.oid = b.oid := by
  have h1' : ¬ a.lt b = true := by simp [h1]
  have h2' : ¬ b.lt a = true := by simp [h2]
  rw [order_lt_iff_lex] at h1' h2'
  rw [← hab] at h2'
  rw [price_ext_iff]
  cases hs : a.side
  · simp only [hs, true_and, reduceCtorEq, false_and, or_false] at h1' h2'
    omega
  · simp only [hs, true_and, reduceCtorEq, false_and, false_or] at h1' h2'
    omega

theorem sub16_eq (a b : Nat) (hb : b ≤ a) (ha : a ≤ UINT16_MAX) : sub16 a b = a - b := by
  unfold sub16
  unfold UINT16_MAX at ha
  rw [Nat.mod_eq_of_lt (by omega : b < 65536)]
  omega

/-! ## The matching loop -/

theorem canExecute_eq (order m : Order) : canExecute order m = crossable order.side order.price m.price := by
  unfold canExecute crossable
  cases order.side <;> simp

theorem crossLoop_of_cond_false (oid : Nat) (fuel : Nat) (st : CrossState)
    (h : crossCond oid st = false) : crossLoop oid fuel st = st := by
  cases fuel with
  | zero => rfl
  | succ n => simp [crossLoop, h]

theorem crossLoop_of_body_none (oid : Nat) (fuel : Nat) (st : CrossState)
    (h : crossBody oid st = none) : crossLoop oid fuel st = st := by
  cases fuel with
  | zero => rfl
  | succ n =>
    simp only [crossLoop, h]
    split <;> rfl

theorem crossLoop_step (oid : Nat) (fuel : Nat) (st st1 : CrossState)
    (hc : crossCond oid st = true) (h : crossBody oid st = some st1) :
    crossLoop oid (fuel + 1) st = crossLoop oid fuel st1 := by
  simp [crossLoop, hc, h]

theorem crossBody_not_crossable (oid : Nat) (ao : List (Nat × Order)) (p : Nat) (ps : List Nat)
    (out : results_t) (order m : Order) (ho : mapFind ao oid = some order)
    (hm : mapFind ao p = some m) (hx : crossable order.side order.price m.price = false) :
    crossBody oid ⟨ao, p :: ps, out⟩ = none := by
  simp [crossBody, ho, hm, canExecute_eq, hx]

theorem crossBody_full (oid : Nat) (ao : List (Nat × Order)) (p : Nat) (ps : List Nat)
    (out : results_t) (order m : Order) (ho : mapFind ao oid = some order)
    (hm : mapFind ao p = some m) (hne : p ≠ oid)
    (hx : crossable order.side order.price m.price = true) (hq : m.quantity ≤ order.quantity)
    (hit : m.book_iter = some p) :
    crossBody oid ⟨ao, p :: ps, out⟩ = some
      ⟨mapModify p (fun o => { o with quantity := 0, book_iter := none })
        (mapModify oid (fun o => { o with quantity := sub16 o.quantity m.quantity }) ao),
       ps,
       out ++ [fillLine order.oid order.symbol m.quantity m.price,
         fillLine m.oid m.symbol m.quantity m.price]⟩ := by
  have hmin : min order.quantity m.quantity = m.quantity := Nat.min_eq_right hq
  simp [crossBody, ho, hm, canExecute_eq, hx, mapFind_mapModify, hne, hmin, hit]

theorem crossBody_part (oid : Nat) (ao : List (Nat × Order)) (p : Nat) (ps : List Nat)
    (out : results_t) (order m : Order) (ho : mapFind ao oid = some order)
    (hm : mapFind ao p = some m) (hne : p ≠ oid)
    (hx : crossable order.side order.price m.price = true) (hq : order.quantity < m.quantity) :
    crossBody oid ⟨ao, p :: ps, out⟩ = some
      ⟨mapModify p (fun o => { o with quantity := sub16 o.quantity order.quantity })
        (mapModify oid (fun o => { o with quantity := sub16 o.quantity order.quantity }) ao),
       p :: ps,
       out ++ [fillLine order.oid order.symbol order.quantity m.price,
         fillLine m.oid m.symbol order.quantity m.price]⟩ := by
  have hmin : min order.quantity m.quantity = order.quantity := Nat.min_eq_left (Nat.le_of_lt hq)
  have hne' : ¬ m.quantity = order.quantity := by omega
  simp [crossBody, ho, hm, canExecute_eq, hx, mapFind_mapModify, hne, hmin, hne']

theorem matchList_congr (ao ao' : List (Nat × Order)) (side : OrderSide) (price : Price) :
    ∀ (ps : List Nat) (rem : Nat), (∀ q ∈ ps, mapFind ao' q = mapFind ao q) →
      matchList ao' side price rem ps = matchList ao side price rem ps := by
  intro ps
  induction ps with
  | nil => intro rem _; rfl
  | cons p ps ih =>
    intro rem h
    have hp := h p (List.mem_cons_self _ _)
    have ih' := fun r => ih r (fun q hq => h q (List.mem_cons_of_mem _ hq))
    simp only [matchList, hp]
    cases mapFind ao p with
    | none => rfl
    | some m => simp only [ih']

theorem bookAfter_congr (ao ao' : List (Nat × Order)) (side : OrderSide) (price : Price) :
    ∀ (ps : List Nat) (rem : Nat), (∀ q ∈ ps, mapFind ao' q = mapFind ao q) →
      bookAfter ao' side price rem ps = bookAfter ao side price rem ps := by
  intro ps
  induction ps with
  | nil => intro rem _; rfl
  | cons p ps ih =>
    intro rem h
    have hp := h p (List.mem_cons_self _ _)
    have ih' := fun r => ih r (fun q hq => h q (List.mem_cons_of_mem _ hq))
    simp only [bookAfter, hp]
    cases mapFind ao p with
    | none => rfl
    | some m => simp only [ih']

theorem fillFor_matchList_mem (ao : List (Nat × Order)) (side : OrderSide) (price : Price)
    (k : Nat) : ∀ (ps : List Nat) (rem : Nat) (f : Nat),
      fillFor (matchList ao side price rem ps) k = some f → k ∈ ps := by
  intro ps
  induction ps with
  | nil => intro rem f h; simp [matchList, fillFor] at h
  | cons p ps ih =>
    intro rem f h
    simp only [matchList] at h
    split at h
    · simp [fillFor] at h
    · split at h
      · simp only [fillFor] at h
        split at h
        · rename_i hpk; simp [← hpk]
        · exact List.mem_cons_of_mem _ (ih _ _ h)
      · simp [fillFor] at h

theorem fillFor_matchList_none (ao : List (Nat × Order)) (side : OrderSide) (price : Price)
    (k : Nat) (ps : List Nat) (rem : Nat) (h : k ∉ ps) :
    fillFor (matchList ao side price rem ps) k = none := by
  cases hf : fillFor (matchList ao side price rem ps) k with
  | none => rfl
  | some f => exact absurd (fillFor_matchList_mem ao side price k ps rem f hf) h

theorem orderAfter_nil (oid k : Nat) (o : Order) : orderAfter [] oid k o = o := by
  unfold orderAfter
  split
  · simp [fillTotal]
  · simp [fillFor]

theorem matchList_zero (ao : List (Nat × Order)) (side : OrderSide) (price : Price)
    (ps : List Nat) : matchList ao side price 0 ps = [] := by
  cases ps with
  | nil => rfl
  | cons p ps =>
    simp only [matchList]
    split <;> simp

theorem bookAfter_zero (ao : List (Nat × Order)) (side : OrderSide) (price : Price)
    (ps : List Nat) : bookAfter ao side price 0 ps = ps := by
  cases ps with
  | nil => rfl
  | cons p ps =>
    simp only [bookAfter]
    split <;> simp

theorem crossLoop_spec (oid : Nat) (sym : String) (side : OrderSide) (price : Price) :
    ∀ (ps : List Nat) (rem : Nat) (ao : List (Nat × Order)) (out : results_t) (fuel : Nat),
      LoopOK oid sym side price rem ao ps → ps.length + 1 ≤ fuel →
      (crossLoop oid fuel ⟨ao, ps, out⟩).outputs =
          out ++ (matchList ao side price rem ps).flatMap (Fill.lines oid sym) ∧
        (crossLoop oid fuel ⟨ao, ps, out⟩).oppositeOrders = bookAfter ao side price rem ps ∧
        (∀ k, mapFind (crossLoop oid fuel ⟨ao, ps, out⟩).activeOrders k =
          (mapFind ao k).map (orderAfter (matchList ao side price rem ps) oid k)) ∧
        (crossLoop oid fuel ⟨ao, ps, out⟩).activeOrders.map Prod.fst = ao.map Prod.fst ∧
        (crossCond oid (crossLoop oid fuel ⟨ao, ps, out⟩) = false ∨
          crossBody oid (crossLoop oid fuel ⟨ao, ps, out⟩) = none) := by
  intro ps
  induction ps with
  | nil =>
    intro rem ao out fuel hok hfuel
    have hc : crossCond oid ⟨ao, [], out⟩ = false := by
      unfold crossCond
      split <;> simp
    rw [crossLoop_of_cond_false oid fuel _ hc]
    refine ⟨by simp [matchList], rfl, ?_, rfl, Or.inl hc⟩
    intro k
    simp only [matchList]
    cases mapFind ao k with
    | none => rfl
    | some o => simp [orderAfter_nil]
  | cons p ps ih =>
    intro rem ao out fuel hok hfuel
    obtain ⟨order, ho, hoid, hsym, hside, hprice, hqty⟩ := hok.order
    obtain ⟨m, hm, hmoid, hmsym, hmpos, hmle, hmit⟩ := hok.entry p (List.mem_cons_self _ _)
    have hpne : p ≠ oid := fun e => hok.notMem (e ▸ List.mem_cons_self _ _)
    by_cases hrem : rem = 0
    · -- nothing left in the incoming order
      have hc : crossCond oid ⟨ao, p :: ps, out⟩ = false := by
        simp [crossCond, ho, hqty, hrem]
      rw [crossLoop_of_cond_false oid fuel _ hc]
      subst hrem
      rw [matchList_zero, bookAfter_zero]
      refine ⟨by simp, rfl, ?_, rfl, Or.inl hc⟩
      intro k
      cases mapFind ao k with
      | none => rfl
      | some o => simp [orderAfter_nil]
    · have hrpos : 0 < rem := Nat.pos_of_ne_zero hrem
      have hc : crossCond oid ⟨ao, p :: ps, out⟩ = true := by
        simp [crossCond, ho, hqty, hrpos]
      by_cases hx : crossable side price m.price = true
      · by_cases hq : m.quantity ≤ rem
        · -- the resting order is filled completely
          obtain ⟨fuel', rfl⟩ : ∃ n, fuel = n + 1 := ⟨fuel - 1, by omega⟩
          have hbody := crossBody_full oid ao p ps out order m ho hm hpne
            (by rw [hside, hprice]; exact hx) (by rw [hqty]; exact hq) hmit
          rw [crossLoop_step oid fuel' _ _ hc hbody]
          have hfind2 : ∀ k, mapFind
              (mapModify p (fun o => { o with quantity := 0, book_iter := none })
                (mapModify oid (fun o => { o with quantity := sub16 o.quantity m.quantity }) ao)) k
              = if k = p then some { m with quantity := 0, book_iter := none }
                else if k = oid then some { order with quantity := rem - m.quantity }
                else mapFind ao k := by
            intro k
            simp only [mapFind_mapModify]
            by_cases hkp : k = p
            · subst hkp; simp [hpne, hm]
            · by_cases hko : k = oid
              · subst hko
                simp only [hkp, if_false, if_true, ho, Option.map_some']
                rw [hqty, sub16_eq rem m.quantity hq hok.remLe]
              · simp [hkp, hko]
          have hok' : LoopOK oid sym side price (rem - m.quantity)
              (mapModify p (fun o => { o with quantity := 0, book_iter := none })
                (mapModify oid (fun o => { o with quantity := sub16 o.quantity m.quantity }) ao))
              ps := by
            refine ⟨⟨{ order with quantity := rem - m.quantity }, ?_, hoid, hsym, hside, hprice,
              rfl⟩, ?_, ?_, ?_, ?_⟩
            · rw [hfind2]; simp [hpne.symm]
            · have := hok.remLe; omega
            · exact fun h => hok.notMem (List.mem_cons_of_mem _ h)
            · exact (List.nodup_cons.1 hok.nodup).2
            · intro q hq'
              have hqp : q ≠ p := fun e => (List.nodup_cons.1 hok.nodup).1 (e ▸ hq')
              have hqo : q ≠ oid := fun e => hok.notMem (e ▸ List.mem_cons_of_mem _ hq')
              rw [hfind2]
              simp only [hqp, hqo, if_false]
              exact hok.entry q (List.mem_cons_of_mem _ hq')
          have hagree : ∀ q ∈ ps, mapFind
              (mapModify p (fun o => { o with quantity := 0, book_iter := none })
                (mapModify oid (fun o => { o with quantity := sub16 o.quantity m.quantity }) ao)) q
              = mapFind ao q := by
            intro q hq'
            have hqp : q ≠ p := fun e => (List.nodup_cons.1 hok.nodup).1 (e ▸ hq')
            have hqo : q ≠ oid := fun e => hok.notMem (e ▸ List.mem_cons_of_mem _ hq')
            rw [hfind2]; simp [hqp, hqo]
          obtain ⟨h1, h2, h3, h4, h5⟩ := ih (rem - m.quantity) _
            (out ++ [fillLine order.oid order.symbol m.quantity m.price,
              fillLine m.oid m.symbol m.quantity m.price]) fuel' hok'
            (by simp only [List.length_cons] at hfuel; omega)
          rw [matchList_congr _ _ _ _ _ _ hagree] at h1 h3
          rw [bookAfter_congr _ _ _ _ _ _ hagree] at h2
          have hmin : min rem m.quantity = m.quantity := Nat.min_eq_right hq
          have hml : matchList ao side price rem (p :: ps) =
              ⟨p, m.quantity, m.price⟩ :: matchList ao side price (rem - m.quantity) ps := by
            simp [matchList, hm, hrpos, hx, hmin]
          have hba : bookAfter ao side price rem (p :: ps) =
              bookAfter ao side price (rem - m.quantity) ps := by
            simp [bookAfter, hm, hrpos, hx, hq]
          rw [hml, hba]
          refine ⟨?_, h2, ?_, ?_, h5⟩
          · rw [h1]
            simp [Fill.lines, hoid, hsym, hmoid, hmsym]
          · intro k
            rw [h3, hfind2]
            by_cases hkp : k = p
            · subst hkp
              have hnone : fillFor (matchList ao side price (rem - m.quantity) ps) k = none :=
                fillFor_matchList_none _ _ _ _ _ _ (List.nodup_cons.1 hok.nodup).1
              simp [hm, orderAfter, hpne, hnone, fillFor, Order.afterFill]
            · by_cases hko : k = oid
              · subst hko
                simp only [hkp, if_false, if_true, ho, Option.map_some', Option.some.injEq]
                simp only [orderAfter, if_true, fillTotal, List.map_cons, List.sum_cons, hqty]
                congr 1
                omega
              · simp only [hkp, hko, if_false]
                cases mapFind ao k with
                | none => rfl
                | some o =>
                  have hpk : ¬ p = k := fun e => hkp e.symm
                  simp [orderAfter, hko, fillFor, hpk]
          · rw [h4, mapModify_keys, mapModify_keys]
        · -- the incoming order is used up on a part of the resting order
          have hq' : rem < m.quantity := Nat.lt_of_not_le hq
          obtain ⟨fuel', rfl⟩ : ∃ n, fuel = n + 1 := ⟨fuel - 1, by omega⟩
          have hbody := crossBody_part oid ao p ps out order m ho hm hpne
            (by rw [hside, hprice]; exact hx) (by rw [hqty]; exact hq')
          rw [crossLoop_step oid fuel' _ _ hc hbody]
          have hfind2 : ∀ k, mapFind
              (mapModify p (fun o => { o with quantity := sub16 o.quantity order.quantity })
                (mapModify oid (fun o => { o with quantity := sub16 o.quantity order.quantity })
                  ao)) k
              = if k = p then some { m with quantity := m.quantity - rem }
                else if k = oid then some { order with quantity := 0 }
                else mapFind ao k := by
            intro k
            simp only [mapFind_mapModify]
            by_cases hkp : k = p
            · subst hkp
              simp only [if_true, hpne, if_false, hm, Option.map_some', Option.some.injEq]
              rw [hqty, sub16_eq m.quantity rem (Nat.le_of_lt hq') hmle]
            · by_cases hko : k = oid
              · subst hko
                simp only [hkp, if_false, if_true, ho, Option.map_some', Option.some.injEq]
                rw [hqty, sub16_eq rem rem (Nat.le_refl _) hok.remLe, Nat.sub_self]
              · simp [hkp, hko]
          have hc2 : crossCond oid
              ⟨mapModify p (fun o => { o with quantity := sub16 o.quantity order.quantity })
                (mapModify oid (fun o => { o with quantity := sub16 o.quantity order.quantity })
                  ao), p :: ps,
               out ++ [fillLine order.oid order.symbol order.quantity m.price,
                 fillLine m.oid m.symbol order.quantity m.price]⟩ = false := by
            simp only [crossCond, hfind2, hpne.symm, if_false, if_true]
            simp
          rw [crossLoop_of_cond_false oid fuel' _ hc2]
          have hmin : min rem m.quantity = rem := Nat.min_eq_left (Nat.le_of_lt hq')
          have hml : matchList ao side price rem (p :: ps) = [⟨p, rem, m.price⟩] := by
            simp [matchList, hm, hrpos, hx, hmin, matchList_zero]
          have hba : bookAfter ao side price rem (p :: ps) = p :: ps := by
            simp [bookAfter, hm, hq]
          rw [hml, hba]
          refine ⟨?_, rfl, ?_, ?_, Or.inl hc2⟩
          · simp [Fill.lines, hoid, hsym, hmoid, hmsym, hqty]
          · intro k
            simp only [hfind2]
            by_cases hkp : k = p
            · subst hkp
              have hne' : ¬ m.quantity = rem := by omega
              simp [hm, orderAfter, hpne, fillFor, Order.afterFill, hne']
            · by_cases hko : k = oid
              · subst hko
                simp [hkp, ho, orderAfter, fillTotal, hqty]
              · simp only [hkp, hko, if_false]
                cases mapFind ao k with
                | none => rfl
                | some o =>
                  have hpk : ¬ p = k := fun e => hkp e.symm
                  simp [orderAfter, hko, fillFor, hpk]
          · simp only [mapModify_keys]
      · -- the best resting order is not crossable
        have hx' : crossable side price m.price = false := by simpa using hx
        have hbody := crossBody_not_crossable oid ao p ps out order m ho hm
          (by rw [hside, hprice]; exact hx')
        rw [crossLoop_of_body_none oid fuel _ hbody]
        have hml : matchList ao side price rem (p :: ps) = [] := by
          simp [matchList, hm, hx']
        have hba : bookAfter ao side price rem (p :: ps) = p :: ps := by
          simp [bookAfter, hm, hx']
        rw [hml, hba]
        refine ⟨by simp, rfl, ?_, rfl, Or.inr hbody⟩
        intro k
        cases mapFind ao k with
        | none => rfl
        | some o => simp [orderAfter_nil]

/-- Once the loop has ended by its own exit (condition false, or `break`), more
fuel changes nothing. -/
theorem crossLoop_add_fuel (oid : Nat) : ∀ (n k : Nat) (st : CrossState),
    (crossCond oid (crossLoop oid n st) = false ∨ crossBody oid (crossLoop oid n st) = none) →
    crossLoop oid (n + k) st = crossLoop oid n st := by
  intro n
  induction n with
  | zero =>
    intro k st h
    simp only [crossLoop] at h
    rw [Nat.zero_add]
    rcases h with h | h
    · rw [crossLoop_of_cond_false oid k st h]; rfl
    · rw [crossLoop_of_body_none oid k st h]; rfl
  | succ n ih =>
    intro k st h
    rw [Nat.add_right_comm]
    simp only [crossLoop] at h ⊢
    split
    · rename_i hc
      simp only [hc, if_true] at h
      split
      · rename_i st1 hb
        simp only [hb] at h
        exact ih k st1 h
      · rfl
    · rfl

/-- The matching loop terminates: with the fuel `action` gives it, it ends by its
own exit, and any larger amount of fuel yields the same final state. -/
theorem crossLoop_fuel_enough (oid : Nat) (sym : String) (side : OrderSide) (price : Price)
    (ps : List Nat) (rem : Nat) (ao : List (Nat × Order)) (out : results_t)
    (hok : LoopOK oid sym side price rem ao ps) (k : Nat) :
    crossLoop oid (ps.length + 1 + k) ⟨ao, ps, out⟩ = crossLoop oid (ps.length + 1) ⟨ao, ps, out⟩ :=
  crossLoop_add_fuel oid _ k _
    (crossLoop_spec oid sym side price ps rem ao out (ps.length + 1) hok (Nat.le_refl _)).2.2.2.2

/-! ## Facts about the specified matches -/

theorem matchList_resting (ao : List (Nat × Order)) (side : OrderSide) (price : Price) :
    ∀ (ps : List Nat) (rem : Nat),
      ∃ t, ps = (matchList ao side price rem ps).map Fill.resting ++ t := by
  intro ps
  induction ps with
  | nil => intro rem; exact ⟨[], rfl⟩
  | cons p ps ih =>
    intro rem
    simp only [matchList]
    split
    · exact ⟨p :: ps, rfl⟩
    · rename_i m hm
      split
      · obtain ⟨t, ht⟩ := ih (rem - min rem m.quantity)
        refine ⟨t, ?_⟩
        simp only [List.map_cons, List.cons_append]
        rw [← ht]
      · exact ⟨p :: ps, rfl⟩

theorem bookAfter_suffix (ao : List (Nat × Order)) (side : OrderSide) (price : Price) :
    ∀ (ps : List Nat) (rem : Nat), ∃ pre, ps = pre ++ bookAfter ao side price rem ps := by
  intro ps
  induction ps with
  | nil => intro rem; exact ⟨[], rfl⟩
  | cons p ps ih =>
    intro rem
    simp only [bookAfter]
    split
    · exact ⟨[], rfl⟩
    · rename_i m hm
      split
      · obtain ⟨t, ht⟩ := ih (rem - m.quantity)
        refine ⟨p :: t, ?_⟩
        simp only [List.cons_append]
        rw [← ht]
      · exact ⟨[], rfl⟩

theorem bookAfter_sublist (ao : List (Nat × Order)) (side : OrderSide) (price : Price)
    (ps : List Nat) (rem : Nat) : (bookAfter ao side price rem ps).Sublist ps := by
  obtain ⟨pre, h⟩ := bookAfter_suffix ao side price ps rem
  conv_rhs => rw [h]
  exact List.sublist_append_right _ _

theorem fillTotal_le (ao : List (Nat × Order)) (side : OrderSide) (price : Price) :
    ∀ (ps : List Nat) (rem : Nat), fillTotal (matchList ao side price rem ps) ≤ rem := by
  intro ps
  induction ps with
  | nil => intro rem; simp [matchList, fillTotal]
  | cons p ps ih =>
    intro rem
    simp only [matchList]
    split
    · simp [fillTotal]
    · rename_i m hm
      split
      · have := ih (rem - min rem m.quantity)
        simp only [fillTotal, List.map_cons, List.sum_cons] at this ⊢
        have hmin : min rem m.quantity ≤ rem := Nat.min_le_left _ _
        omega
      · simp [fillTotal]

theorem matchList_qty_pos (ao : List (Nat × Order)) (side : OrderSide) (price : Price) :
    ∀ (ps : List Nat) (rem : Nat),
      (∀ p ∈ ps, ∀ m, mapFind ao p = some m → 0 < m.quantity) →
      ∀ f ∈ matchList ao side price rem ps, 0 < f.qty := by
  intro ps
  induction ps with
  | nil => intro rem _ f hf; simp [matchList] at hf
  | cons p ps ih =>
    intro rem hpos f hf
    simp only [matchList] at hf
    split at hf
    · simp at hf
    · rename_i m hm
      split at hf
      · rename_i hc
        rcases List.mem_cons.1 hf with h | h
        · have := hpos p (List.mem_cons_self _ _) m hm
          rw [h]
          simp only [Nat.lt_min]
          exact ⟨hc.1, this⟩
        · exact ih _ (fun q hq => hpos q (List.mem_cons_of_mem _ hq)) f h
      · simp at hf

/-- Every entry of the opposite side is either still in the book, matched at most
in part, or gone from the book and filled completely. -/
theorem bookAfter_cases (ao : List (Nat × Order)) (side : OrderSide) (price : Price) :
    ∀ (ps : List Nat) (rem : Nat), ps.Nodup →
      (∀ p ∈ ps, ∀ m, mapFind ao p = some m → 0 < m.quantity) →
      ∀ p ∈ ps, ∀ m, mapFind ao p = some m →
        (p ∈ bookAfter ao side price rem ps ∧
          (fillFor (matchList ao side price rem ps) p = none ∨
            ∃ f, fillFor (matchList ao side price rem ps) p = some f ∧ f < m.quantity)) ∨
        (p ∉ bookAfter ao side price rem ps ∧
          fillFor (matchList ao side price rem ps) p = some m.quantity) := by
  intro ps
  induction ps with
  | nil => intro rem _ _ p hp; simp at hp
  | cons a ps ih =>
    intro rem hnd hpos p hp m hm
    have hnd' := List.nodup_cons.1 hnd
    have hpos' : ∀ p ∈ ps, ∀ m, mapFind ao p = some m → 0 < m.quantity :=
      fun q hq => hpos q (List.mem_cons_of_mem _ hq)
    rcases List.mem_cons.1 hp with hpa | hpa
    · -- the head
      subst hpa
      have hmpos := hpos p (List.mem_cons_self _ _) m hm
      simp only [matchList, bookAfter, hm]
      by_cases hr : 0 < rem
      · by_cases hx : crossable side price m.price = true
        · by_cases hq : m.quantity ≤ rem
          · right
            simp only [hr, hx, hq, and_self, if_true, fillFor, Nat.min_eq_right hq]
            refine ⟨?_, trivial⟩
            intro hmem
            exact hnd'.1 ((bookAfter_sublist ao side price ps _).subset hmem)
          · left
            simp only [hr, hx, hq, and_self, and_false, if_true, if_false, fillFor,
              List.mem_cons, true_or, true_and]
            right
            refine ⟨min rem m.quantity, rfl, ?_⟩
            have : min rem m.quantity ≤ rem := Nat.min_le_left _ _
            omega
        · left
          simp [hx, fillFor]
      · left
        simp [hr, fillFor]
    · -- an entry behind the head
      have hpa' : a ≠ p := fun e => hnd'.1 (e ▸ hpa)
      cases hfa : mapFind ao a with
      | none =>
        left
        simp only [matchList, bookAfter, hfa, fillFor]
        exact ⟨List.mem_cons_of_mem _ hpa, Or.inl trivial⟩
      | some ma =>
        simp only [matchList, bookAfter, hfa]
        by_cases hr : 0 < rem
        · by_cases hx : crossable side price ma.price = true
          · by_cases hq : ma.quantity ≤ rem
            · simp only [hr, hx, hq, and_self, if_true, fillFor, hpa', if_false,
                Nat.min_eq_right hq]
              exact ih (rem - ma.quantity) hnd'.2 hpos' p hpa m hm
            · have hmin : min rem ma.quantity = rem := Nat.min_eq_left (by omega)
              left
              simp only [hr, hx, hq, and_self, and_false, if_true, if_false, fillFor, hpa', hmin,
                Nat.sub_self, matchList_zero]
              exact ⟨List.mem_cons_of_mem _ hpa, Or.inl trivial⟩
          · left
            simp only [hx, and_false, false_and, if_false, fillFor, Bool.false_eq_true]
            exact ⟨List.mem_cons_of_mem _ hpa, Or.inl trivial⟩
        · left
          simp only [hr, false_and, if_false, fillFor]
          exact ⟨List.mem_cons_of_mem _ hpa, Or.inl trivial⟩

/-! ## Sets of order pointers -/

theorem mem_setInsert {α : Type} (lt : α → α → Bool) (x : α) (l : List α) (y : α)
    (h : y ∈ setInsert lt x l) : y = x ∨ y ∈ l := by
  induction l with
  | nil => simpa [setInsert] using h
  | cons a l ih =>
    simp only [setInsert] at h
    split at h
    · simpa using h
    · split at h
      · rcases List.mem_cons.1 h with h | h
        · exact Or.inr (h ▸ List.mem_cons_self _ _)
        · rcases ih h with h | h
          · exact Or.inl h
          · exact Or.inr (List.mem_cons_of_mem _ h)
      · exact Or.inr h

theorem mem_setInsert_of_mem {α : Type} (lt : α → α → Bool) (x : α) (l : List α) (y : α)
    (h : y ∈ l) : y ∈ setInsert lt x l := by
  induction l with
  | nil => simp at h
  | cons a l ih =>
    simp only [setInsert]
    split
    · exact List.mem_cons_of_mem _ h
    · split
      · rcases List.mem_cons.1 h with h | h
        · exact h ▸ List.mem_cons_self _ _
        · exact List.mem_cons_of_mem _ (ih h)
      · exact h

theorem mem_setInsert_self {α : Type} (lt : α → α → Bool) (x : α) (l : List α)
    (h : ∀ y ∈ l, lt x y = true ∨ lt y x = true) : x ∈ setInsert lt x l := by
  induction l with
  | nil => simp [setInsert]
  | cons a l ih =>
    simp only [setInsert]
    split
    · exact List.mem_cons_self _ _
    · split
      · exact List.mem_cons_of_mem _ (ih (fun y hy => h y (List.mem_cons_of_mem _ hy)))
      · rename_i h1 h2
        rcases h a (List.mem_cons_self _ _) with h3 | h3
        · exact absurd h3 h1
        · exact absurd h3 h2

theorem setInsertIter_self {α : Type} (lt : α → α → Bool) (x : α) (l : List α)
    (h : ∀ y ∈ l, lt x y = true ∨ lt y x = true) : setInsertIter lt x l = x := by
  induction l with
  | nil => rfl
  | cons a l ih =>
    simp only [setInsertIter]
    split
    · rfl
    · split
      · exact ih (fun y hy => h y (List.mem_cons_of_mem _ hy))
      · rename_i h1 h2
        rcases h a (List.mem_cons_self _ _) with h3 | h3
        · exact absurd h3 h1
        · exact absurd h3 h2

theorem setInsert_pairwise {α : Type} (lt : α → α → Bool) (x : α) (l : List α)
    (hs : l.Pairwise (fun a b => lt a b = true))
    (htrans : ∀ y ∈ l, ∀ z ∈ l, lt x y = true → lt y z = true → lt x z = true) :
    (setInsert lt x l).Pairwise (fun a b => lt a b = true) := by
  induction l with
  | nil => simp [setInsert]
  | cons a l ih =>
    have hs' := List.pairwise_cons.1 hs
    simp only [setInsert]
    split
    · rename_i h1
      refine List.pairwise_cons.2 ⟨?_, hs⟩
      intro z hz
      rcases List.mem_cons.1 hz with hz | hz
      · rw [hz]; exact h1
      · exact htrans a (List.mem_cons_self _ _) z (List.mem_cons_of_mem _ hz) h1 (hs'.1 z hz)
    · split
      · rename_i h1 h2
        refine List.pairwise_cons.2 ⟨?_, ?_⟩
        · intro z hz
          rcases mem_setInsert lt x l z hz with hz | hz
          · rw [hz]; exact h2
          · exact hs'.1 z hz
        · exact ih hs'.2 (fun y hy z hz =>
            htrans y (List.mem_cons_of_mem _ hy) z (List.mem_cons_of_mem _ hz))
      · exact hs

theorem setInsert_erase {α : Type} [DecidableEq α] (lt : α → α → Bool) (x : α) (l : List α)
    (hx : x ∉ l) : (setInsert lt x l).erase x = l := by
  induction l with
  | nil => simp [setInsert]
  | cons a l ih =>
    have hxa : ¬ a = x := fun e => hx (e ▸ List.mem_cons_self _ _)
    have hxl : x ∉ l := fun h => hx (List.mem_cons_of_mem _ h)
    simp only [setInsert]
    split
    · simp
    · split
      · rw [List.erase_cons_tail (by simpa using hxa), ih hxl]
      · exact List.erase_of_not_mem hx

theorem withSide_sideSet (b : OrderBook) (side : OrderSide) (l : List Nat) :
    (b.withSide side l).sideSet side = l := by
  cases side <;> rfl

theorem withSide_sideSet_opposite (b : OrderBook) (side : OrderSide) (l : List Nat) :
    (b.withSide side l).sideSet side.opposite = b.sideSet side.opposite := by
  cases side <;> rfl

theorem withSide_opposite_sideSet (b : OrderBook) (side : OrderSide) (l : List Nat) :
    (b.withSide side.opposite l).sideSet side = b.sideSet side := by
  cases side <;> rfl

theorem side_cases (side side' : OrderSide) :
    side' = side ∨ side' = side.opposite := by
  cases side <;> cases side' <;> simp [OrderSide.opposite]

theorem opposite_ne (side : OrderSide) : side.opposite ≠ side := by
  cases side <;> simp [OrderSide.opposite]

/-! ## Placing an order -/

theorem setOpposite_eq (side : OrderSide) (l : List Nat) :
    (fun b : OrderBook => if side = OrderSide.Buy then { b with sells := l }
      else { b with buys := l }) = fun b => b.withSide side.opposite l := by
  funext b
  cases side <;> rfl

theorem oppositeOrders_eq (side : OrderSide) (b : OrderBook) :
    (if side = OrderSide.Buy then b.sells else b.buys) = b.sideSet side.opposite := by
  cases side <;> rfl

theorem place_eq (s : SimpleCross) (oid : Nat) (sym : String) (side : OrderSide) (q : Nat)
    (price : Price) (hfresh : mapFind s.activeOrders oid = none) :
    place s oid sym side q price =
      placeFinish oid sym side
        (crossLoop oid
          (((bookAt (mapEmplace symbolLt sym (⟨[], []⟩ : OrderBook) s.books) sym).sideSet
            side.opposite).length + 1)
          ⟨mapEmplace oidLt oid (Order.new oid sym side q price) s.activeOrders,
           (bookAt (mapEmplace symbolLt sym (⟨[], []⟩ : OrderBook) s.books) sym).sideSet
            side.opposite, []⟩)
        (mapEmplace symbolLt sym (⟨[], []⟩ : OrderBook) s.books) := by
  unfold place placeFinish
  simp only [hfresh, oppositeOrders_eq, setOpposite_eq]
  split
  · rename_i order _
    split
    · cases hsd : order.side
      · simp only [if_true]; rfl
      · simp only [reduceCtorEq, if_false]; rfl
    · rfl
  · rfl

theorem mapFind_emplace_books (books : List (String × OrderBook))
    (hs : KeysSorted symbolLt books) (sym sym' : String) :
    mapFind (mapEmplace symbolLt sym (⟨[], []⟩ : OrderBook) books) sym' =
      if sym' = sym then some (bookAt books sym) else mapFind books sym' := by
  cases h : mapFind books sym with
  | none =>
    rw [mapFind_mapEmplace_of_none symbolLt_strictTotal sym _ books h]
    simp [bookAt, h]
  | some b =>
    rw [mapEmplace_of_some symbolLt_strictTotal sym _ books hs b h]
    by_cases hsym : sym' = sym
    · simp [hsym, bookAt, h]
    · simp [hsym]

theorem bookAt_emplace_books (books : List (String × OrderBook))
    (hs : KeysSorted symbolLt books) (sym : String) :
    bookAt (mapEmplace symbolLt sym (⟨[], []⟩ : OrderBook) books) sym = bookAt books sym := by
  unfold bookAt
  rw [mapFind_emplace_books books hs]
  simp [bookAt]

theorem restingOn_entry (s : SimpleCross) (hinv : Inv s) (sym : String) (side : OrderSide)
    (p : Nat) (hp : p ∈ restingOn s sym side) :
    ∃ o, mapFind s.activeOrders p = some o ∧ o.oid = p ∧ o.symbol = sym ∧ o.side = side ∧
      0 < o.quantity ∧ o.quantity ≤ UINT16_MAX ∧ o.book_iter = some p := by
  unfold restingOn bookAt at hp
  cases hb : mapFind s.books sym with
  | none =>
    rw [hb] at hp
    cases side <;> simp [OrderBook.sideSet] at hp
  | some b =>
    rw [hb] at hp
    obtain ⟨o, ho, h1, h2, h3, h4⟩ := hinv.entry sym b side p hb hp
    have := hinv.oidKey p o ho
    exact ⟨o, ho, this.1, h1, h2, h3, this.2, h4⟩

theorem restingOn_sorted (s : SimpleCross) (hinv : Inv s) (sym : String) (side : OrderSide) :
    (restingOn s sym side).Pairwise (fun p q => OrderPtrComparator s.activeOrders p q = true) := by
  unfold restingOn bookAt
  cases hb : mapFind s.books sym with
  | none => cases side <;> simp [OrderBook.sideSet]
  | some b => exact hinv.sorted sym b side hb

theorem OrderPtrComparator_irrefl (ao : List (Nat × Order)) (p : Nat) :
    OrderPtrComparator ao p p = false := by
  unfold OrderPtrComparator
  cases mapFind ao p with
  | none => rfl
  | some o => simp [order_lt_irrefl]

theorem restingOn_nodup (s : SimpleCross) (hinv : Inv s) (sym : String) (side : OrderSide) :
    (restingOn s sym side).Nodup := by
  have := restingOn_sorted s hinv sym side
  refine List.Pairwise.imp ?_ this
  intro a b hab e
  rw [e, OrderPtrComparator_irrefl] at hab
  exact Bool.noConfusion hab

theorem restingOn_ne_of_fresh (s : SimpleCross) (hinv : Inv s) (sym : String) (side : OrderSide)
    (oid : Nat) (hfresh : mapFind s.activeOrders oid = none) : oid ∉ restingOn s sym side := by
  intro h
  obtain ⟨o, ho, _⟩ := restingOn_entry s hinv sym side oid h
  rw [hfresh] at ho
  exact Option.noConfusion ho

theorem order_lt_congr (a a' b b' : Order) (ha : a.sortKey = a'.sortKey)
    (hb : b.sortKey = b'.sortKey) : a.lt b = a'.lt b' := by
  simp only [Order.sortKey, Prod.mk.injEq] at ha hb
  unfold Order.lt Order.cmp
  rw [ha.1, ha.2.1, ha.2.2, hb.1, hb.2.2]

theorem OrderPtrComparator_congr (t1 t2 : List (Nat × Order)) (a b : Nat)
    (ha : (mapFind t2 a).map Order.sortKey = (mapFind t1 a).map Order.sortKey)
    (hb : (mapFind t2 b).map Order.sortKey = (mapFind t1 b).map Order.sortKey) :
    OrderPtrComparator t2 a b = OrderPtrComparator t1 a b := by
  unfold OrderPtrComparator
  generalize mapFind t1 a = x1 at ha
  generalize mapFind t2 a = x2 at ha
  generalize mapFind t1 b = y1 at hb
  generalize mapFind t2 b = y2 at hb
  cases x1 <;> cases x2 <;>
    simp only [Option.map_none', Option.map_some', reduceCtorEq, Option.some.injEq] at ha <;>
    cases y1 <;> cases y2 <;>
    simp only [Option.map_none', Option.map_some', reduceCtorEq, Option.some.injEq] at hb <;>
    first
    | rfl
    | exact order_lt_congr _ _ _ _ ha hb

theorem orderAfter_sortKey (fills : List Fill) (oid k : Nat) (o : Order) :
    (orderAfter fills oid k o).sortKey = o.sortKey := by
  unfold orderAfter Order.afterFill
  repeat (first | rfl | split)

theorem orderAfter_symbol (fills : List Fill) (oid k : Nat) (o : Order) :
    (orderAfter fills oid k o).symbol = o.symbol := by
  unfold orderAfter Order.afterFill
  repeat (first | rfl | split)

theorem orderAfter_quantity_le (fills : List Fill) (oid k : Nat) (o : Order) :
    (orderAfter fills oid k o).quantity ≤ o.quantity := by
  unfold orderAfter Order.afterFill
  split
  · simp
  · split
    · split <;> simp
    · exact Nat.le_refl _

theorem withSide_self (b : OrderBook) (side : OrderSide) :
    b.withSide side (b.sideSet side) = b := by
  cases side <;> rfl

theorem place_spec (s : SimpleCross) (hinv : Inv s) (oid : Nat) (sym : String)
    (side : OrderSide) (q : Nat) (price : Price)
    (hfresh : mapFind s.activeOrders oid = none) (hq : q ≤ UINT16_MAX) :
    (place s oid sym side q price).1 =
        (placeFills s sym side q price).flatMap (Fill.lines oid sym) ∧
      PlaceFacts s (place s oid sym side q price).2 oid sym side q price := by
  suffices h : (place s oid sym side q price).1 =
        (matchList s.activeOrders side price q (restingOn s sym side.opposite)).flatMap
          (Fill.lines oid sym) ∧
      (∀ k, mapFind (place s oid sym side q price).2.activeOrders k =
        if k = oid then
          some ⟨oid, sym, side,
            q - fillTotal (matchList s.activeOrders side price q (restingOn s sym side.opposite)),
            price,
            if 0 < q - fillTotal
                (matchList s.activeOrders side price q (restingOn s sym side.opposite))
            then some oid else none⟩
        else (mapFind s.activeOrders k).map
          (orderAfter (matchList s.activeOrders side price q (restingOn s sym side.opposite))
            oid k)) ∧
      (∀ sym', mapFind (place s oid sym side q price).2.books sym' =
        if sym' = sym then
          some (((bookAt s.books sym).withSide side.opposite
              (bookAfter s.activeOrders side price q (restingOn s sym side.opposite))).withSide
            side
            (if 0 < q - fillTotal
                (matchList s.activeOrders side price q (restingOn s sym side.opposite))
             then setInsert (OrderPtrComparator (place s oid sym side q price).2.activeOrders) oid
               (restingOn s sym side)
             else restingOn s sym side))
        else mapFind s.books sym') ∧
      KeysSorted oidLt (place s oid sym side q price).2.activeOrders ∧
      KeysSorted symbolLt (place s oid sym side q price).2.books from
    ⟨h.1, ⟨h.2.1, h.2.2.1, h.2.2.2.1, h.2.2.2.2⟩⟩
  rw [place_eq s oid sym side q price hfresh, bookAt_emplace_books s.books hinv.booksSorted]
  have hfind1 : ∀ k, mapFind (mapEmplace oidLt oid (Order.new oid sym side q price)
      s.activeOrders) k = if k = oid then some (Order.new oid sym side q price)
      else mapFind s.activeOrders k :=
    mapFind_mapEmplace_of_none oidLt_strictTotal oid _ s.activeOrders hfresh
  have hnot : oid ∉ restingOn s sym side.opposite :=
    restingOn_ne_of_fresh s hinv sym side.opposite oid hfresh
  have hagree : ∀ p ∈ restingOn s sym side.opposite,
      mapFind (mapEmplace oidLt oid (Order.new oid sym side q price) s.activeOrders) p =
        mapFind s.activeOrders p := by
    intro p hp
    have hne : p ≠ oid := fun e => hnot (e ▸ hp)
    rw [hfind1]; simp [hne]
  have hok : LoopOK oid sym side price q
      (mapEmplace oidLt oid (Order.new oid sym side q price) s.activeOrders)
      (restingOn s sym side.opposite) := by
    refine ⟨⟨Order.new oid sym side q price, ?_, rfl, rfl, rfl, rfl, rfl⟩, hq, hnot,
      restingOn_nodup s hinv sym side.opposite, ?_⟩
    · rw [hfind1]; simp
    · intro p hp
      obtain ⟨o, ho, h1, h2, _, h4, h5, h6⟩ := restingOn_entry s hinv sym side.opposite p hp
      exact ⟨o, by rw [hagree p hp]; exact ho, h1, h2, h4, h5, h6⟩
  obtain ⟨h1, h2, h3, h4, _⟩ := crossLoop_spec oid sym side price (restingOn s sym side.opposite) q
    _ [] ((restingOn s sym side.opposite).length + 1) hok (Nat.le_refl _)
  rw [matchList_congr _ _ _ _ _ _ hagree] at h1 h3
  rw [bookAfter_congr _ _ _ _ _ _ hagree] at h2
  rw [show (bookAt s.books sym).sideSet side.opposite = restingOn s sym side.opposite from rfl]
  generalize crossLoop oid ((restingOn s sym side.opposite).length + 1)
    ⟨mapEmplace oidLt oid (Order.new oid sym side q price) s.activeOrders,
      restingOn s sym side.opposite, []⟩ = st at h1 h2 h3 h4 ⊢
  have hsorted0 : KeysSorted oidLt st.activeOrders := by
    unfold KeysSorted
    rw [h4]
    exact mapEmplace_sorted oidLt_strictTotal oid _ s.activeOrders hinv.ordersSorted
  have hbs0 : KeysSorted symbolLt (mapEmplace symbolLt sym (⟨[], []⟩ : OrderBook) s.books) :=
    mapEmplace_sorted symbolLt_strictTotal sym _ s.books hinv.booksSorted
  have hst_oid : mapFind st.activeOrders oid = some ⟨oid, sym, side,
      q - fillTotal (matchList s.activeOrders side price q (restingOn s sym side.opposite)),
      price, none⟩ := by
    rw [h3, hfind1]
    simp [orderAfter, Order.new]
  have hst_other : ∀ k, k ≠ oid → mapFind st.activeOrders k = (mapFind s.activeOrders k).map
      (orderAfter (matchList s.activeOrders side price q (restingOn s sym side.opposite))
        oid k) := by
    intro k hk
    rw [h3, hfind1]
    simp [hk]
  have hown : (bookAt (mapModify sym (fun b => b.withSide side.opposite st.oppositeOrders)
      (mapEmplace symbolLt sym (⟨[], []⟩ : OrderBook) s.books)) sym).sideSet side =
      restingOn s sym side := by
    unfold bookAt
    rw [mapFind_mapModify, mapFind_emplace_books s.books hinv.booksSorted]
    simp only [if_true, Option.map_some', Option.getD_some]
    rw [withSide_opposite_sideSet]
    rfl
  have hiter : setInsertIter (OrderPtrComparator st.activeOrders) oid
      (restingOn s sym side) = oid := by
    apply setInsertIter_self
    intro y hy
    obtain ⟨oy, hoy, hyoid, _, hyside, _⟩ := restingOn_entry s hinv sym side y hy
    have hyne : y ≠ oid := fun e => restingOn_ne_of_fresh s hinv sym side oid hfresh (e ▸ hy)
    have hkey := orderAfter_sortKey
      (matchList s.activeOrders side price q (restingOn s sym side.opposite)) oid y oy
    simp only [Order.sortKey, Prod.mk.injEq] at hkey
    unfold OrderPtrComparator
    rw [hst_oid, hst_other y hyne, hoy]
    simp only [Option.map_some']
    by_contra hcon
    simp only [not_or, Bool.not_eq_true] at hcon
    have := order_lt_tri _ _ (by simp only; rw [hkey.2.1, hyside]) hcon.1 hcon.2
    simp only at this
    exact hyne (by rw [← hyoid, ← hkey.1]; exact this.2.symm)
  unfold placeFinish
  rw [hst_oid]
  simp only [gt_iff_lt]
  by_cases hrem : 0 < q - fillTotal
      (matchList s.activeOrders side price q (restingOn s sym side.opposite))
  · simp only [hrem, if_true, hown, hiter]
    refine ⟨by simpa using h1, ?_, ?_, mapModify_sorted _ _ _ hsorted0,
      mapModify_sorted _ _ _ (mapModify_sorted _ _ _ hbs0)⟩
    · intro k
      rw [mapFind_mapModify]
      by_cases hk : k = oid
      · subst hk; simp [hst_oid]
      · simp only [hk, if_false]; exact hst_other k hk
    · intro sym'
      simp only [mapFind_mapModify, mapFind_emplace_books s.books hinv.booksSorted]
      by_cases hs : sym' = sym
      · subst hs
        simp only [if_true, Option.map_some', Option.some.injEq, h2]
        rw [withSide_opposite_sideSet]
        have hcmp : OrderPtrComparator
            (mapModify oid (fun o => { o with book_iter := some oid }) st.activeOrders) =
            OrderPtrComparator st.activeOrders := by
          funext a b
          apply OrderPtrComparator_congr <;>
          · rw [mapFind_mapModify]
            split
            · rename_i h; subst h
              cases mapFind st.activeOrders _ <;> rfl
            · rfl
        rw [hcmp]
        rfl
      · simp [hs]
  · simp only [hrem, if_false]
    refine ⟨by simpa using h1, ?_, ?_, hsorted0, mapModify_sorted _ _ _ hbs0⟩
    · intro k
      by_cases hk : k = oid
      · subst hk; simp [hst_oid]
      · simp only [hk, if_false]; exact hst_other k hk
    · intro sym'
      simp only [mapFind_mapModify, mapFind_emplace_books s.books hinv.booksSorted]
      by_cases hs : sym' = sym
      · subst hs
        simp only [if_true, Option.map_some', Option.some.injEq, h2]
        have : restingOn s sym' side = ((bookAt s.books sym').withSide side.opposite
            (bookAfter s.activeOrders side price q (restingOn s sym' side.opposite))).sideSet
            side := by
          rw [withSide_opposite_sideSet]; rfl
        rw [this, withSide_self]
      · simp [hs]

/-! ## The state after a placement is well formed -/

theorem PlaceFacts.restingOn_other {s t : SimpleCross} {oid : Nat} {sym : String}
    {side : OrderSide} {q : Nat} {price : Price} (hf : PlaceFacts s t oid sym side q price)
    (sym' : String) (side' : OrderSide) (h : sym' ≠ sym) :
    restingOn t sym' side' = restingOn s sym' side' := by
  unfold restingOn bookAt
  rw [hf.books]
  simp [h]

theorem PlaceFacts.restingOn_opp {s t : SimpleCross} {oid : Nat} {sym : String}
    {side : OrderSide} {q : Nat} {price : Price} (hf : PlaceFacts s t oid sym side q price) :
    restingOn t sym side.opposite =
      bookAfter s.activeOrders side price q (restingOn s sym side.opposite) := by
  conv_lhs => unfold restingOn bookAt
  rw [hf.books]
  simp only [if_true, Option.getD_some]
  rw [withSide_sideSet_opposite, withSide_sideSet]

theorem PlaceFacts.restingOn_own {s t : SimpleCross} {oid : Nat} {sym : String}
    {side : OrderSide} {q : Nat} {price : Price} (hf : PlaceFacts s t oid sym side q price) :
    restingOn t sym side =
      if 0 < placeRemaining s sym side q price then
        setInsert (OrderPtrComparator t.activeOrders) oid (restingOn s sym side)
      else restingOn s sym side := by
  conv_lhs => unfold restingOn bookAt
  rw [hf.books]
  simp only [if_true, Option.getD_some]
  rw [withSide_sideSet]

theorem PlaceFacts.find_old {s t : SimpleCross} {oid : Nat} {sym : String}
    {side : OrderSide} {q : Nat} {price : Price} (hf : PlaceFacts s t oid sym side q price)
    (hfresh : mapFind s.activeOrders oid = none) (k : Nat) (o : Order)
    (hk : mapFind s.activeOrders k = some o) :
    k ≠ oid ∧ mapFind t.activeOrders k = some (orderAfter (placeFills s sym side q price) oid k o) := by
  have hne : k ≠ oid := by
    intro e
    rw [e, hfresh] at hk
    exact Option.noConfusion hk
  refine ⟨hne, ?_⟩
  rw [hf.orders]
  simp [hne, hk]

theorem orderAfter_unmatched (fills : List Fill) (oid k : Nat) (o : Order) (hk : k ≠ oid)
    (hn : fillFor fills k = none) : orderAfter fills oid k o = o := by
  simp [orderAfter, hk, hn]

theorem PlaceFacts.find_unmatched {s t : SimpleCross} {oid : Nat} {sym : String}
    {side : OrderSide} {q : Nat} {price : Price} (hf : PlaceFacts s t oid sym side q price)
    (hfresh : mapFind s.activeOrders oid = none) (k : Nat) (o : Order)
    (hk : mapFind s.activeOrders k = some o) (hnot : k ∉ restingOn s sym side.opposite) :
    mapFind t.activeOrders k = some o := by
  obtain ⟨hne, h⟩ := hf.find_old hfresh k o hk
  rw [h, orderAfter_unmatched _ _ _ _ hne]
  exact fillFor_matchList_none _ _ _ _ _ _ hnot

theorem PlaceFacts.sortKey_eq {s t : SimpleCross} {oid : Nat} {sym : String}
    {side : OrderSide} {q : Nat} {price : Price} (hf : PlaceFacts s t oid sym side q price)
    (k : Nat) (hne : k ≠ oid) :
    (mapFind t.activeOrders k).map Order.sortKey =
      (mapFind s.activeOrders k).map Order.sortKey := by
  rw [hf.orders]
  simp only [hne, if_false]
  cases mapFind s.activeOrders k with
  | none => rfl
  | some o => simp [orderAfter_sortKey]

theorem PlaceFacts.pairwise_old {s t : SimpleCross} {oid : Nat} {sym : String}
    {side : OrderSide} {q : Nat} {price : Price} (hf : PlaceFacts s t oid sym side q price)
    (l : List Nat) (hl : oid ∉ l)
    (h : l.Pairwise (fun a b => OrderPtrComparator s.activeOrders a b = true)) :
    l.Pairwise (fun a b => OrderPtrComparator t.activeOrders a b = true) := by
  refine List.Pairwise.imp_of_mem ?_ h
  intro a b ha hb hab
  rw [OrderPtrComparator_congr s.activeOrders t.activeOrders a b
    (hf.sortKey_eq a (fun e => hl (e ▸ ha))) (hf.sortKey_eq b (fun e => hl (e ▸ hb)))]
  exact hab

theorem PlaceFacts.find_oid {s t : SimpleCross} {oid : Nat} {sym : String}
    {side : OrderSide} {q : Nat} {price : Price} (hf : PlaceFacts s t oid sym side q price) :
    mapFind t.activeOrders oid = some ⟨oid, sym, side, placeRemaining s sym side q price, price,
        if 0 < placeRemaining s sym side q price then some oid else none⟩ := by
  rw [hf.orders]; simp

/-- Entries of the own side keep their order unchanged by a placement. -/
theorem PlaceFacts.find_own {s t : SimpleCross} {oid : Nat} {sym : String}
    {side : OrderSide} {q : Nat} {price : Price} (hf : PlaceFacts s t oid sym side q price)
    (hinv : Inv s) (hfresh : mapFind s.activeOrders oid = none) (p : Nat)
    (hp : p ∈ restingOn s sym side) :
    ∃ o, mapFind s.activeOrders p = some o ∧ mapFind t.activeOrders p = some o ∧ o.oid = p ∧
      o.symbol = sym ∧ o.side = side ∧ 0 < o.quantity ∧ o.book_iter = some p := by
  obtain ⟨o, ho, h1, h2, h3, h4, _, h6⟩ := restingOn_entry s hinv sym side p hp
  refine ⟨o, ho, hf.find_unmatched hfresh p o ho ?_, h1, h2, h3, h4, h6⟩
  intro hmem
  obtain ⟨o', ho', _, _, h3', _⟩ := restingOn_entry s hinv sym side.opposite p hmem
  rw [ho] at ho'
  cases ho'
  rw [h3] at h3'
  exact opposite_ne side h3'.symm

theorem placeFills_cases (s : SimpleCross) (hinv : Inv s) (sym : String) (side : OrderSide)
    (q : Nat) (price : Price) (p : Nat) (o : Order)
    (hp : p ∈ restingOn s sym side.opposite) (ho : mapFind s.activeOrders p = some o) :
    (p ∈ bookAfter s.activeOrders side price q (restingOn s sym side.opposite) ∧
      (fillFor (placeFills s sym side q price) p = none ∨
        ∃ f, fillFor (placeFills s sym side q price) p = some f ∧ f < o.quantity)) ∨
    (p ∉ bookAfter s.activeOrders side price q (restingOn s sym side.opposite) ∧
      fillFor (placeFills s sym side q price) p = some o.quantity) := by
  refine bookAfter_cases s.activeOrders side price _ q (restingOn_nodup s hinv sym side.opposite)
    ?_ p hp o ho
  intro p' hp' m hm
  obtain ⟨o', ho', _, _, _, h4, _⟩ := restingOn_entry s hinv sym side.opposite p' hp'
  rw [hm] at ho'; cases ho'; exact h4

theorem PlaceFacts.inv {s t : SimpleCross} {oid : Nat} {sym : String}
    {side : OrderSide} {q : Nat} {price : Price} (hf : PlaceFacts s t oid sym side q price)
    (hinv : Inv s) (hfresh : mapFind s.activeOrders oid = none) (hq : q ≤ UINT16_MAX)
    (hoid : 0 < oid ∧ oid ≤ UINT32_MAX) :
    Inv t := by
  have hownlt : ∀ y ∈ restingOn s sym side,
      OrderPtrComparator t.activeOrders oid y = true ∨
        OrderPtrComparator t.activeOrders y oid = true := by
    intro y hy
    obtain ⟨o, _, ho, h1, _, h3, _⟩ := hf.find_own hinv hfresh y hy
    have hyne : y ≠ oid := fun e => restingOn_ne_of_fresh s hinv sym side oid hfresh (e ▸ hy)
    unfold OrderPtrComparator
    rw [hf.find_oid, ho]
    simp only
    by_contra hcon
    simp only [not_or, Bool.not_eq_true] at hcon
    have := order_lt_tri _ o (by simp [h3]) hcon.1 hcon.2
    simp only at this
    exact hyne (by rw [← h1]; exact this.2.symm)
  refine ⟨hf.booksSorted, hf.ordersSorted, ?_, ?_, ?_, ?_, ?_⟩
  · -- oidKey
    intro k o hk
    rw [hf.orders] at hk
    by_cases hko : k = oid
    · simp only [hko, if_true, Option.some.injEq] at hk
      subst hk
      simp only [placeRemaining]
      exact ⟨hko.symm, by omega⟩
    · simp only [hko, if_false] at hk
      cases ho : mapFind s.activeOrders k with
      | none => rw [ho] at hk; simp at hk
      | some o0 =>
        rw [ho] at hk
        simp only [Option.map_some', Option.some.injEq] at hk
        subst hk
        have hk0 := hinv.oidKey k o0 ho
        have h1 := orderAfter_sortKey (placeFills s sym side q price) oid k o0
        have h2 := orderAfter_quantity_le (placeFills s sym side q price) oid k o0
        simp only [Order.sortKey, Prod.mk.injEq] at h1
        exact ⟨h1.1.trans hk0.1, Nat.le_trans h2 hk0.2⟩
  · -- oidPos
    intro k o hk
    by_cases hko : k = oid
    · rw [hko]; exact hoid
    · rw [hf.orders] at hk
      simp only [hko, if_false] at hk
      cases ho : mapFind s.activeOrders k with
      | none => rw [ho] at hk; simp at hk
      | some o0 => exact hinv.oidPos k o0 ho
  · -- entry
    intro sym' b side' p hb hp
    have hp' : p ∈ restingOn t sym' side' := by
      unfold restingOn bookAt; rw [hb]; exact hp
    by_cases hs : sym' = sym
    · subst hs
      rcases side_cases side side' with hsd | hsd
      · subst hsd
        rw [hf.restingOn_own] at hp'
        have hold : p ∈ restingOn s sym' side' → ∃ o, mapFind t.activeOrders p = some o ∧
            o.symbol = sym' ∧ o.side = side' ∧ 0 < o.quantity ∧ o.book_iter = some p := by
          intro h
          obtain ⟨o, _, ho, _, h2, h3, h4, h5⟩ := hf.find_own hinv hfresh p h
          exact ⟨o, ho, h2, h3, h4, h5⟩
        by_cases hrem : 0 < placeRemaining s sym' side' q price
        · simp only [hrem, if_true] at hp'
          rcases mem_setInsert _ _ _ _ hp' with h | h
          · subst h
            refine ⟨_, hf.find_oid, rfl, rfl, hrem, ?_⟩
            simp [hrem]
          · exact hold h
        · simp only [hrem, if_false] at hp'
          exact hold hp'
      · subst hsd
        rw [hf.restingOn_opp] at hp'
        have hmem := (bookAfter_sublist _ _ _ _ _).subset hp'
        obtain ⟨o, ho, h1, h2, h3, h4, _, h6⟩ :=
          restingOn_entry s hinv sym' side.opposite p hmem
        obtain ⟨hne, hfo⟩ := hf.find_old hfresh p o ho
        refine ⟨_, hfo, ?_, ?_, ?_, ?_⟩
        · rw [orderAfter_symbol]; exact h2
        · have := orderAfter_sortKey (placeFills s sym' side q price) oid p o
          simp only [Order.sortKey, Prod.mk.injEq] at this
          rw [this.2.1]; exact h3
        · rcases placeFills_cases s hinv sym' side q price p o hmem ho with ⟨_, hc⟩ | ⟨hc, _⟩
          · rcases hc with hc | ⟨f, hfe, hlt⟩
            · rw [orderAfter_unmatched _ _ _ _ hne hc]; exact h4
            · have hne' : ¬ o.quantity = f := by omega
              simp only [orderAfter, hne, if_false, hfe, Order.afterFill, hne']
              omega
          · exact absurd hp' hc
        · rcases placeFills_cases s hinv sym' side q price p o hmem ho with ⟨_, hc⟩ | ⟨hc, _⟩
          · rcases hc with hc | ⟨f, hfe, hlt⟩
            · rw [orderAfter_unmatched _ _ _ _ hne hc]; exact h6
            · have hne' : ¬ o.quantity = f := by omega
              simp only [orderAfter, hne, if_false, hfe, Order.afterFill, hne']
              exact h6
          · exact absurd hp' hc
    · rw [hf.restingOn_other sym' side' hs] at hp'
      obtain ⟨o, ho, h1, h2, h3, h4, _, h6⟩ := restingOn_entry s hinv sym' side' p hp'
      refine ⟨o, hf.find_unmatched hfresh p o ho ?_, h2, h3, h4, h6⟩
      intro hmem
      obtain ⟨o', ho', _, h2', _⟩ := restingOn_entry s hinv sym side.opposite p hmem
      rw [ho] at ho'; cases ho'
      exact hs (h2.symm.trans h2')
  · -- sorted
    intro sym' b side' hb
    have hside : b.sideSet side' = restingOn t sym' side' := by
      unfold restingOn bookAt; rw [hb]; rfl
    rw [hside]
    by_cases hs : sym' = sym
    · subst hs
      rcases side_cases side side' with hsd | hsd
      · subst hsd
        rw [hf.restingOn_own]
        have hold := hf.pairwise_old _ (restingOn_ne_of_fresh s hinv sym' side' oid hfresh)
          (restingOn_sorted s hinv sym' side')
        by_cases hrem : 0 < placeRemaining s sym' side' q price
        · simp only [hrem, if_true]
          apply setInsert_pairwise _ _ _ hold
          intro y hy z hz hxy hyz
          obtain ⟨oy, _, hoy, _, _, hy3, _⟩ := hf.find_own hinv hfresh y hy
          obtain ⟨oz, _, hoz, _, _, hz3, _⟩ := hf.find_own hinv hfresh z hz
          unfold OrderPtrComparator at hxy hyz ⊢
          rw [hf.find_oid, hoy] at hxy
          rw [hoy, hoz] at hyz
          rw [hf.find_oid, hoz]
          exact order_lt_trans _ oy oz (by simp [hy3]) hxy hyz
        · simp only [hrem, if_false]
          exact hold
      · subst hsd
        rw [hf.restingOn_opp]
        have hsub := bookAfter_sublist s.activeOrders side price
          (restingOn s sym' side.opposite) q
        exact hf.pairwise_old _
          (fun h => restingOn_ne_of_fresh s hinv sym' side.opposite oid hfresh (hsub.subset h))
          ((restingOn_sorted s hinv sym' side.opposite).sublist hsub)
    · rw [hf.restingOn_other sym' side' hs]
      exact hf.pairwise_old _ (restingOn_ne_of_fresh s hinv sym' side' oid hfresh)
        (restingOn_sorted s hinv sym' side')
  · -- resting
    intro k o it hk hit
    by_cases hko : k = oid
    · subst hko
      rw [hf.find_oid] at hk
      simp only [Option.some.injEq] at hk
      subst hk
      simp only at hit ⊢
      have hrem : 0 < placeRemaining s sym side q price := by
        by_contra hcon
        simp [hcon] at hit
      rw [hf.restingOn_own]
      simp only [hrem, if_true]
      exact mem_setInsert_self _ _ _ hownlt
    · rw [hf.orders] at hk
      simp only [hko, if_false] at hk
      cases ho : mapFind s.activeOrders k with
      | none => rw [ho] at hk; simp at hk
      | some o0 =>
        rw [ho] at hk
        simp only [Option.map_some', Option.some.injEq] at hk
        subst hk
        have hkey := orderAfter_sortKey (placeFills s sym side q price) oid k o0
        simp only [Order.sortKey, Prod.mk.injEq] at hkey
        rw [orderAfter_symbol, hkey.2.1]
        have hit0 : ∃ it0, o0.book_iter = some it0 := by
          simp only [orderAfter, hko, if_false, Order.afterFill] at hit
          split at hit
          · split at hit
            · simp at hit
            · exact ⟨it, hit⟩
          · exact ⟨it, hit⟩
        obtain ⟨it0, hit0⟩ := hit0
        have hmem := hinv.resting k o0 it0 ho hit0
        by_cases hs : o0.symbol = sym
        · rcases side_cases side o0.side with hsd | hsd
          · rw [hs, hsd] at hmem ⊢
            rw [hf.restingOn_own]
            split
            · exact mem_setInsert_of_mem _ _ _ _ hmem
            · exact hmem
          · rw [hs, hsd] at hmem ⊢
            rw [hf.restingOn_opp]
            rcases placeFills_cases s hinv sym side q price k o0 hmem ho with
              ⟨hc, _⟩ | ⟨_, hfe⟩
            · exact hc
            · simp [orderAfter, hko, hfe, Order.afterFill] at hit
        · rw [hf.restingOn_other _ _ hs]
          exact hmem

theorem place_inv (s : SimpleCross) (hinv : Inv s) (oid : Nat) (sym : String)
    (side : OrderSide) (q : Nat) (price : Price) (hq : q ≤ UINT16_MAX)
    (hoid : 0 < oid ∧ oid ≤ UINT32_MAX) :
    Inv (place s oid sym side q price).2 := by
  cases hfresh : mapFind s.activeOrders oid with
  | some o =>
    have : place s oid sym side q price =
        (["E " ++ toString oid ++ " Duplicate order id"], s) := by
      simp [place, hfresh]
    rw [this]; exact hinv
  | none => exact (place_spec s hinv oid sym side q price hfresh hq).2.inv hinv hfresh hq hoid

/-! ## Cancelling an order -/

theorem eraseOwn_eq (side : OrderSide) (it : Nat) :
    (fun b : OrderBook => if side = OrderSide.Buy then { b with buys := b.buys.erase it }
      else { b with sells := b.sells.erase it }) =
      fun b => b.withSide side ((b.sideSet side).erase it) := by
  funext b
  cases side <;> rfl

theorem resting_iter (s : SimpleCross) (hinv : Inv s) (oid : Nat) (order : Order) (it : Nat)
    (ho : mapFind s.activeOrders oid = some order) (hit : order.book_iter = some it) :
    it = oid ∧ 0 < order.quantity ∧ oid ∈ restingOn s order.symbol order.side ∧
      ∃ b, mapFind s.books order.symbol = some b := by
  have hmem := hinv.resting oid order it ho hit
  obtain ⟨o, ho', _, _, _, h4, _, h6⟩ := restingOn_entry s hinv _ _ oid hmem
  rw [ho] at ho'; cases ho'
  rw [hit] at h6
  refine ⟨by simpa using h6, h4, hmem, ?_⟩
  cases hb : mapFind s.books order.symbol with
  | some b => exact ⟨b, rfl⟩
  | none =>
    exfalso
    have hnil : (⟨[], []⟩ : OrderBook).sideSet order.side = [] := by
      cases order.side <;> rfl
    simp only [restingOn, bookAt, hb, Option.getD_none] at hmem
    rw [hnil] at hmem
    simp at hmem

theorem cancel_resting_eq (s : SimpleCross) (hinv : Inv s) (oid : Nat) (order : Order) (it : Nat)
    (ho : mapFind s.activeOrders oid = some order) (hit : order.book_iter = some it) :
    cancel s oid = (["X " ++ toString oid],
      ⟨mapModify oid (fun o => { o with book_iter := none }) s.activeOrders,
       mapModify order.symbol
        (fun b => b.withSide order.side ((b.sideSet order.side).erase oid)) s.books⟩) := by
  obtain ⟨hit', hpos, _, b, hb⟩ := resting_iter s hinv oid order it ho hit
  subst hit'
  have hq : ¬ order.quantity = 0 := by omega
  unfold cancel
  simp only [ho, hq, if_false, hit, eraseOwn_eq]
  rw [mapEmplace_of_some symbolLt_strictTotal order.symbol _ s.books hinv.booksSorted b hb]

theorem cancel_restingOn (s : SimpleCross) (oid : Nat) (order : Order)
    (sym' : String) (side' : OrderSide) :
    restingOn ⟨mapModify oid (fun o => { o with book_iter := none }) s.activeOrders,
       mapModify order.symbol
        (fun b => b.withSide order.side ((b.sideSet order.side).erase oid)) s.books⟩
       sym' side' =
      if sym' = order.symbol ∧ side' = order.side then (restingOn s sym' side').erase oid
      else restingOn s sym' side' := by
  unfold restingOn bookAt
  simp only [mapFind_mapModify]
  by_cases hs : sym' = order.symbol
  · simp only [hs, if_true, true_and]
    cases hb : mapFind s.books order.symbol with
    | none =>
      simp only [Option.map_none', Option.getD_none]
      cases side' <;> simp [OrderBook.sideSet]
    | some b =>
      simp only [Option.map_some', Option.getD_some]
      rcases side_cases order.side side' with hsd | hsd
      · rw [hsd, withSide_sideSet]; simp
      · rw [hsd, withSide_sideSet_opposite]
        simp [opposite_ne]
  · simp [hs]

theorem cancel_resting_inv (s : SimpleCross) (hinv : Inv s) (oid : Nat) (order : Order)
    (ho : mapFind s.activeOrders oid = some order) :
    Inv ⟨mapModify oid (fun o => { o with book_iter := none }) s.activeOrders,
       mapModify order.symbol
        (fun b => b.withSide order.side ((b.sideSet order.side).erase oid)) s.books⟩ := by
  have hfind : ∀ k, mapFind (mapModify oid (fun o : Order => { o with book_iter := none })
      s.activeOrders) k = if k = oid then some { order with book_iter := none }
      else mapFind s.activeOrders k := by
    intro k
    rw [mapFind_mapModify]
    by_cases hk : k = oid
    · simp [hk, ho]
    · simp [hk]
  have hkey : ∀ k, (mapFind (mapModify oid (fun o : Order => { o with book_iter := none })
      s.activeOrders) k).map Order.sortKey = (mapFind s.activeOrders k).map Order.sortKey := by
    intro k
    rw [hfind]
    by_cases hk : k = oid
    · simp [hk, ho, Order.sortKey]
    · simp [hk]
  have hsub : ∀ sym' side', (restingOn ⟨mapModify oid (fun o => { o with book_iter := none })
      s.activeOrders, mapModify order.symbol
        (fun b => b.withSide order.side ((b.sideSet order.side).erase oid)) s.books⟩
       sym' side').Sublist (restingOn s sym' side') := by
    intro sym' side'
    rw [cancel_restingOn]
    split
    · exact List.erase_sublist _ _
    · exact List.Sublist.refl _
  have hne : ∀ sym' side' p, p ∈ restingOn ⟨mapModify oid (fun o => { o with book_iter := none })
      s.activeOrders, mapModify order.symbol
        (fun b => b.withSide order.side ((b.sideSet order.side).erase oid)) s.books⟩
       sym' side' → p ≠ oid := by
    intro sym' side' p hp
    rw [cancel_restingOn] at hp
    split at hp
    · exact ((restingOn_nodup s hinv sym' side').mem_erase_iff.1 hp).1
    · rename_i hcond
      intro e
      subst e
      obtain ⟨o, ho', _, h2, h3, _⟩ := restingOn_entry s hinv sym' side' p hp
      rw [ho] at ho'; cases ho'
      exact hcond ⟨h2.symm, h3.symm⟩
  refine ⟨mapModify_sorted _ _ _ hinv.booksSorted, mapModify_sorted _ _ _ hinv.ordersSorted,
    ?_, ?_, ?_, ?_, ?_⟩
  · intro k o hk
    simp only [hfind] at hk
    by_cases hko : k = oid
    · simp only [hko, if_true, Option.some.injEq] at hk
      subst hk
      have := hinv.oidKey oid order ho
      exact ⟨hko ▸ this.1, this.2⟩
    · simp only [hko, if_false] at hk
      exact hinv.oidKey k o hk
  · intro k o hk
    simp only [hfind] at hk
    by_cases hko : k = oid
    · rw [hko]; exact hinv.oidPos oid order ho
    · simp only [hko, if_false] at hk
      exact hinv.oidPos k o hk
  · intro sym' b side' p hb hp
    have hp' : p ∈ restingOn ⟨mapModify oid (fun o => { o with book_iter := none })
        s.activeOrders, mapModify order.symbol
        (fun b => b.withSide order.side ((b.sideSet order.side).erase oid)) s.books⟩
        sym' side' := by
      unfold restingOn bookAt; rw [hb]; exact hp
    have hpne := hne sym' side' p hp'
    obtain ⟨o, ho', _, h2, h3, h4, _, h6⟩ :=
      restingOn_entry s hinv sym' side' p ((hsub sym' side').subset hp')
    refine ⟨o, ?_, h2, h3, h4, h6⟩
    simp only [hfind, hpne, if_false]
    exact ho'
  · intro sym' b side' hb
    have hside : b.sideSet side' = restingOn ⟨mapModify oid
        (fun o => { o with book_iter := none }) s.activeOrders, mapModify order.symbol
        (fun b => b.withSide order.side ((b.sideSet order.side).erase oid)) s.books⟩
        sym' side' := by
      unfold restingOn bookAt; rw [hb]; rfl
    rw [hside]
    refine List.Pairwise.imp ?_ ((restingOn_sorted s hinv sym' side').sublist (hsub sym' side'))
    intro a b hab
    simp only
    rw [OrderPtrComparator_congr s.activeOrders _ a b (hkey a) (hkey b)]
    exact hab
  · intro k o it' hk hit'
    simp only [hfind] at hk
    by_cases hko : k = oid
    · simp only [hko, if_true, Option.some.injEq] at hk
      subst hk
      simp at hit'
    · simp only [hko, if_false] at hk
      have hmem := hinv.resting k o it' hk hit'
      rw [cancel_restingOn]
      split
      · exact (List.mem_erase_of_ne hko).2 hmem
      · exact hmem

theorem cancel_inv (s : SimpleCross) (hinv : Inv s) (oid : Nat) : Inv (cancel s oid).2 := by
  cases ho : mapFind s.activeOrders oid with
  | none => simp only [cancel, ho]; exact hinv
  | some order =>
    cases hit : order.book_iter with
    | some it =>
      rw [cancel_resting_eq s hinv oid order it ho hit]
      exact cancel_resting_inv s hinv oid order ho
    | none =>
      simp only [cancel, ho, hit]
      split <;> exact hinv

/-! ## The parsing part of `action` -/

theorem actionO_eq_perform (s : SimpleCross) (ss : SStream) :
    actionO s ss = perform s (parseO ss) := by
  unfold actionO parseO
  repeat (first | rfl | split)

theorem actionX_eq_perform (s : SimpleCross) (ss : SStream) :
    actionX s ss = perform s (parseX ss) := by
  unfold actionX parseX
  repeat (first | rfl | split)

theorem action_eq_perform (s : SimpleCross) (line : String) :
    s.action line = perform s (parseLine line) := by
  unfold SimpleCross.action parseLine
  split
  · rfl
  · split <;> try rfl
    rename_i ss action _
    by_cases hO : action = 'O'
    · rw [if_pos hO, if_pos hO]; exact actionO_eq_perform s ss
    · rw [if_neg hO, if_neg hO]
      by_cases hX : action = 'X'
      · rw [if_pos hX, if_pos hX]; exact actionX_eq_perform s ss
      · rw [if_neg hX, if_neg hX]
        by_cases hP : action = 'P'
        · rw [if_pos hP, if_pos hP]
          split <;> rfl
        · rw [if_neg hP, if_neg hP]
          rfl

/-! ## The sequence of matches -/

theorem fillTotal_append (a b : List Fill) : fillTotal (a ++ b) = fillTotal a + fillTotal b := by
  simp [fillTotal]

theorem fillTotal_cons (f : Fill) (b : List Fill) : fillTotal (f :: b) = f.qty + fillTotal b := by
  simp [fillTotal]

/-- Every match of the specified sequence: the resting order is an entry of the
opposite side, the price is its price, the quantity is the smaller of what the
incoming order has left after the earlier matches and the resting quantity, and
the match is only made while shares are left and the prices cross. -/
theorem matchList_split (ao : List (Nat × Order)) (side : OrderSide) (price : Price) :
    ∀ (ps : List Nat) (rem : Nat) (pre : List Fill) (f : Fill) (post : List Fill),
      matchList ao side price rem ps = pre ++ f :: post →
      ∃ m, mapFind ao f.resting = some m ∧ f.resting ∈ ps ∧ f.price = m.price ∧
        f.qty = min (rem - fillTotal pre) m.quantity ∧ 0 < rem - fillTotal pre ∧
        crossable side price m.price = true := by
  intro ps
  induction ps with
  | nil => intro rem pre f post h; simp [matchList] at h
  | cons p ps ih =>
    intro rem pre f post h
    simp only [matchList] at h
    split at h
    · simp at h
    · rename_i m hm
      split at h
      · rename_i hc
        cases pre with
        | nil =>
          simp only [List.nil_append, List.cons.injEq] at h
          obtain ⟨h1, _⟩ := h
          subst h1
          exact ⟨m, hm, List.mem_cons_self _ _, rfl, by simp [fillTotal], by simpa [fillTotal] using hc.1,
            hc.2⟩
        | cons g pre' =>
          simp only [List.cons_append, List.cons.injEq] at h
          obtain ⟨h1, h2⟩ := h
          obtain ⟨m', hm', hmem, hp, hqty, hpos, hx⟩ := ih _ pre' f post h2
          subst h1
          refine ⟨m', hm', List.mem_cons_of_mem _ hmem, hp, ?_, ?_, hx⟩
          · rw [hqty, fillTotal_cons, Nat.sub_add_eq]
          · rw [fillTotal_cons, Nat.sub_add_eq]; exact hpos
      · simp at h

/-- A match that is followed by another one filled its resting order completely. -/
theorem matchList_full (ao : List (Nat × Order)) (side : OrderSide) (price : Price)
    (ps : List Nat) (rem : Nat) (pre : List Fill) (f g : Fill) (post : List Fill)
    (h : matchList ao side price rem ps = pre ++ f :: g :: post) :
    ∃ m, mapFind ao f.resting = some m ∧ f.qty = m.quantity := by
  obtain ⟨m, hm, _, _, hq, _, _⟩ := matchList_split ao side price ps rem pre f (g :: post) h
  have h' : matchList ao side price rem ps = (pre ++ [f]) ++ g :: post := by simp [h]
  obtain ⟨_, _, _, _, _, hpos, _⟩ := matchList_split ao side price ps rem (pre ++ [f]) g post h'
  refine ⟨m, hm, ?_⟩
  rw [fillTotal_append, fillTotal_cons] at hpos
  simp only [fillTotal, List.map_nil, List.sum_nil, Nat.add_zero] at hpos hq
  rw [hq]
  apply Nat.min_eq_right
  have : min (rem - (pre.map Fill.qty).sum) m.quantity ≤ m.quantity := Nat.min_le_right _ _
  by_contra hcon
  have h2 : min (rem - (pre.map Fill.qty).sum) m.quantity = rem - (pre.map Fill.qty).sum :=
    Nat.min_eq_left (by omega)
  rw [hq, h2] at hpos
  omega

theorem matchList_nodup (ao : List (Nat × Order)) (side : OrderSide) (price : Price)
    (ps : List Nat) (rem : Nat) (hnd : ps.Nodup) :
    ((matchList ao side price rem ps).map Fill.resting).Nodup := by
  obtain ⟨t, ht⟩ := matchList_resting ao side price ps rem
  rw [ht] at hnd
  exact (List.nodup_append.1 hnd).1

theorem fillFor_split (pre : List Fill) (f : Fill) (post : List Fill)
    (h : f.resting ∉ pre.map Fill.resting) :
    fillFor (pre ++ f :: post) f.resting = some f.qty := by
  induction pre with
  | nil => simp [fillFor]
  | cons g pre ih =>
    simp only [List.map_cons, List.mem_cons, not_or] at h
    have hg : ¬ g.resting = f.resting := fun e => h.1 e.symm
    simp only [List.cons_append, fillFor, hg, if_false]
    exact ih h.2

theorem fillFor_of_mem (fills : List Fill) (hnd : (fills.map Fill.resting).Nodup) (f : Fill)
    (hf : f ∈ fills) : fillFor fills f.resting = some f.qty := by
  obtain ⟨pre, post, rfl⟩ := List.append_of_mem hf
  apply fillFor_split
  simp only [List.map_append, List.map_cons] at hnd
  have := (List.nodup_append.1 hnd).2.2
  intro hmem
  exact this hmem (List.mem_cons_self _ _)

theorem fillFor_some_mem (fills : List Fill) (k f : Nat) (h : fillFor fills k = some f) :
    ∃ x ∈ fills, x.resting = k ∧ x.qty = f := by
  induction fills with
  | nil => simp [fillFor] at h
  | cons g fills ih =>
    simp only [fillFor] at h
    split at h
    · rename_i hg
      simp only [Option.some.injEq] at h
      exact ⟨g, List.mem_cons_self _ _, hg, h⟩
    · obtain ⟨x, hx, h1, h2⟩ := ih h
      exact ⟨x, List.mem_cons_of_mem _ hx, h1, h2⟩

theorem fillFor_none_of_not_mem (fills : List Fill) (k : Nat)
    (h : k ∉ fills.map Fill.resting) : fillFor fills k = none := by
  cases hf : fillFor fills k with
  | none => rfl
  | some f =>
    obtain ⟨x, hx, h1, _⟩ := fillFor_some_mem fills k f hf
    exact absurd (List.mem_map.2 ⟨x, hx, h1⟩) h

theorem sum_fillFor (fills : List Fill) (hnd : (fills.map Fill.resting).Nodup) :
    ((fills.map Fill.resting).map (fun p => (fillFor fills p).getD 0)).sum = fillTotal fills := by
  induction fills with
  | nil => rfl
  | cons f fills ih =>
    simp only [List.map_cons, List.nodup_cons] at hnd
    simp only [List.map_cons, List.sum_cons, fillTotal_cons, fillFor, if_true, Option.getD_some]
    congr 1
    rw [← ih hnd.2]
    congr 1
    apply List.map_congr_left
    intro p hp
    have hne : ¬ f.resting = p := fun e => hnd.1 (e ▸ hp)
    simp [hne]

/-! ## Reachable states -/

theorem extractUnsigned_le (max : Nat) (str : List Char) (v : Nat)
    (h : extractUnsigned max str = some v) : v ≤ max := by
  unfold extractUnsigned at h
  simp only at h
  split at h
  · exact Option.noConfusion h
  · split at h
    · exact Option.noConfusion h
    · split at h
      · simp only [Option.some.injEq] at h
        rw [← h]
        exact Nat.le_of_lt_succ (Nat.mod_lt _ (Nat.succ_pos _))
      · simp only [Option.some.injEq] at h
        omega

theorem parseUnsigned_le (max : Nat) (ss ss' : SStream) (v : Nat)
    (h : parseUnsigned max ss = (ss', .Success v)) : v ≤ max := by
  unfold parseUnsigned at h
  by_cases he : ss.eofbit = true
  · simp [he] at h
  · simp only [he, Bool.false_eq_true, if_false] at h
    cases hv : extractUnsigned max ss.readWord.2 with
    | none => simp [hv] at h
    | some v' =>
      simp only [hv] at h
      have hv' := extractUnsigned_le max _ v' hv
      split at h <;> split at h <;>
        simp only [Prod.mk.injEq, InputParseResult.Success.injEq, reduceCtorEq, and_false] at h <;>
        (rw [← h.2]; exact hv')

theorem parseO_place (ss : SStream) (oid : Nat) (sym : String) (side : OrderSide) (q : Nat)
    (price : Price) (h : parseO ss = .place oid sym side q price) :
    0 < oid ∧ oid ≤ UINT32_MAX ∧ 0 < q ∧ q ≤ UINT16_MAX := by
  unfold parseO at h
  split at h
  · simp at h
  · simp at h
  · rename_i ss1 oid' hoid
    split at h
    · simp at h
    · split at h
      · simp at h
      · simp at h
      · split at h
        · simp at h
        · split at h
          · simp at h
          · split at h
            · simp at h
            · simp at h
            · split at h
              · simp at h
              · simp only at h
                split at h
                · simp at h
                · simp at h
                · rename_i ss4 q' hq
                  split at h
                  · simp at h
                  · split at h
                    · simp at h
                    · simp at h
                    · split at h
                      · simp at h
                      · simp only [Request.place.injEq] at h
                        obtain ⟨h1, _, _, h4, _⟩ := h
                        subst h1 h4
                        have := parseUnsigned_le _ _ _ _ hoid
                        have := parseUnsigned_le _ _ _ _ hq
                        omega

theorem parseLine_place (line : String) (oid : Nat) (sym : String) (side : OrderSide) (q : Nat)
    (price : Price) (h : parseLine line = .place oid sym side q price) :
    0 < oid ∧ oid ≤ UINT32_MAX ∧ 0 < q ∧ q ≤ UINT16_MAX := by
  unfold parseLine at h
  split at h
  · simp at h
  · split at h
    · simp at h
    · simp at h
    · split at h
      · exact parseO_place _ _ _ _ _ _ h
      · split at h
        · unfold parseX at h
          split at h
          · simp at h
          · simp at h
          · split at h
            · simp at h
            · split at h <;> simp at h
        · split at h
          · split at h <;> simp at h
          · simp at h

theorem empty_inv : Inv SimpleCross.empty := by
  refine ⟨?_, ?_, ?_, ?_, ?_, ?_, ?_⟩ <;> simp [SimpleCross.empty, KeysSorted, mapFind]

theorem perform_inv (s : SimpleCross) (hinv : Inv s) (line : String) :
    Inv (perform s (parseLine line)).2 := by
  cases h : parseLine line with
  | blank => exact hinv
  | error msg => exact hinv
  | place oid sym side q price =>
    exact place_inv s hinv oid sym side q price (parseLine_place line _ _ _ _ _ h).2.2.2
      ⟨(parseLine_place line _ _ _ _ _ h).1, (parseLine_place line _ _ _ _ _ h).2.1⟩
  | cancel oid => exact cancel_inv s hinv oid
  | print => exact hinv

theorem action_inv (s : SimpleCross) (hinv : Inv s) (line : String) : Inv (s.action line).2 := by
  rw [action_eq_perform]
  exact perform_inv s hinv line

theorem runLines_append (lines : List String) (line : String) :
    runLines (lines ++ [line]) = ((runLines lines).action line).2 := by
  simp [runLines, List.foldl_append]

theorem runLines_inv (lines : List String) : Inv (runLines lines) := by
  induction lines using List.reverseRecOn with
  | nil => exact empty_inv
  | append_singleton ls l ih =>
    rw [runLines_append]
    exact action_inv _ ih l

theorem reachable_inv (s : SimpleCross) (h : Reachable s) : Inv s := by
  obtain ⟨lines, rfl⟩ := h
  exact runLines_inv lines

theorem reachable_action (s : SimpleCross) (h : Reachable s) (line : String) :
    Reachable (s.action line).2 := by
  obtain ⟨lines, rfl⟩ := h
  exact ⟨lines ++ [line], (runLines_append lines line).symm⟩

/-! ## Decimal rendering and the cancel line -/

theorem digitChar_isDigit (k : Nat) (hk : k < 10) :
    isDigit (Nat.digitChar k) = true ∧ (Nat.digitChar k).toNat - 48 = k := by
  interval_cases k <;> decide

theorem toDigitsCore_isDigit : ∀ (fuel n : Nat) (ds : List Char),
    (∀ c ∈ ds, isDigit c = true) → ∀ c ∈ Nat.toDigitsCore 10 fuel n ds, isDigit c = true := by
  intro fuel
  induction fuel with
  | zero => intro n ds h c hc; exact h c (by simpa [Nat.toDigitsCore] using hc)
  | succ fuel ih =>
    intro n ds h c hc
    have hd := (digitChar_isDigit (n % 10) (Nat.mod_lt _ (by decide))).1
    have hds : ∀ c ∈ Nat.digitChar (n % 10) :: ds, isDigit c = true := by
      intro c hc
      rcases List.mem_cons.1 hc with h1 | h1
      · rw [h1]; exact hd
      · exact h c h1
    simp only [Nat.toDigitsCore] at hc
    split at hc
    · exact hds c hc
    · exact ih _ _ hds c hc

theorem toDigitsCore_ne_nil : ∀ (fuel n : Nat) (ds : List Char),
    ds ≠ [] → Nat.toDigitsCore 10 fuel n ds ≠ [] := by
  intro fuel
  induction fuel with
  | zero => intro n ds h; simpa [Nat.toDigitsCore] using h
  | succ fuel ih =>
    intro n ds _
    simp only [Nat.toDigitsCore]
    split
    · simp
    · exact ih _ _ (by simp)

theorem toDigitsCore_value : ∀ (fuel n : Nat) (ds : List Char), n < fuel →
    (Nat.toDigitsCore 10 fuel n ds).foldl (fun acc c => 10 * acc + (c.toNat - 48)) 0 =
      ds.foldl (fun acc c => 10 * acc + (c.toNat - 48)) n := by
  intro fuel
  induction fuel with
  | zero => intro n ds h; omega
  | succ fuel ih =>
    intro n ds hn
    have hd := (digitChar_isDigit (n % 10) (Nat.mod_lt _ (by decide))).2
    simp only [Nat.toDigitsCore]
    split
    · rename_i h0
      simp only [List.foldl_cons, Nat.mul_zero, Nat.zero_add, hd]
      congr 1
      omega
    · rename_i h0
      rw [ih (n / 10) _ (by omega)]
      simp only [List.foldl_cons, hd]
      congr 1
      omega

theorem toString_data (n : Nat) : (toString n).data = Nat.toDigits 10 n := rfl

theorem toDigits_isDigit (n : Nat) : ∀ c ∈ Nat.toDigits 10 n, isDigit c = true :=
  toDigitsCore_isDigit _ _ [] (by simp)

theorem toDigits_ne_nil (n : Nat) : Nat.toDigits 10 n ≠ [] := by
  unfold Nat.toDigits
  simp only [Nat.toDigitsCore]
  split
  · simp
  · exact toDigitsCore_ne_nil _ _ _ (by simp)

theorem toDigits_value (n : Nat) : digitsValue (Nat.toDigits 10 n) = n := by
  unfold digitsValue Nat.toDigits
  rw [toDigitsCore_value _ _ _ (Nat.lt_succ_self n)]
  rfl

theorem isDigit_not_space (c : Char) (h : isDigit c = true) :
    isSpace c = false ∧ c ≠ '-' ∧ c ≠ '+' := by
  simp only [isDigit, Bool.and_eq_true, decide_eq_true_eq] at h
  refine ⟨?_, ?_, ?_⟩
  · simp only [isSpace, Bool.or_eq_false_iff, decide_eq_false_iff_not, Bool.and_eq_false_iff]
    omega
  · intro e; rw [e] at h; revert h; decide
  · intro e; rw [e] at h; revert h; decide

/-- Extraction of an unsigned integer from its own decimal rendering. -/
theorem extractUnsigned_toDigits (max n : Nat) (h : n ≤ max) :
    extractUnsigned max (Nat.toDigits 10 n) = some n := by
  have hdig := toDigits_isDigit n
  have hne := toDigits_ne_nil n
  have hval := toDigits_value n
  generalize Nat.toDigits 10 n = ds at hdig hne hval
  cases ds with
  | nil => exact absurd rfl hne
  | cons c r =>
    have hc := isDigit_not_space c (hdig c (List.mem_cons_self _ _))
    have htake : List.takeWhile isDigit (c :: r) = c :: r :=
      List.takeWhile_eq_self_iff.2 hdig
    unfold extractUnsigned
    simp only [List.dropWhile_cons, hc.1, Bool.false_eq_true, if_false, hc.2.1, hc.2.2, htake,
      List.isEmpty_cons, hval]
    have : ¬ n > max := by omega
    simp [this]

/-- Reading a word made of digits up to the end of the input. -/
theorem readWord_digits (ds : List Char) (hdig : ∀ c ∈ ds, isDigit c = true) (hne : ds ≠ []) :
    SStream.readWord ⟨' ' :: ds, false, false⟩ = (⟨[], true, false⟩, ds) := by
  have hsp : ∀ c ∈ ds, (!isSpace c) = true := by
    intro c hc; simp [(isDigit_not_space c (hdig c hc)).1]
  cases ds with
  | nil => exact absurd rfl hne
  | cons c r =>
    have hc := isDigit_not_space c (hdig c (List.mem_cons_self _ _))
    have htake : List.takeWhile (fun c => !isSpace c) (c :: r) = c :: r :=
      List.takeWhile_eq_self_iff.2 hsp
    have hdrop : List.dropWhile (fun c => !isSpace c) (c :: r) = [] :=
      List.dropWhile_eq_nil_iff.2 hsp
    have hspace : isSpace ' ' = true := by decide
    unfold SStream.readWord
    simp only [SStream.good, Bool.not_false, Bool.and_self, Bool.not_true, Bool.false_eq_true,
      if_false, List.dropWhile_cons, hspace, if_true, hc.1, List.isEmpty_cons, htake, hdrop,
      List.isEmpty_nil]

theorem parseLine_cancel (oid : Nat) (h0 : 0 < oid) (h1 : oid ≤ UINT32_MAX) :
    parseLine ("X " ++ toString oid) = .cancel oid := by
  have hdata : ("X " ++ toString oid).data = 'X' :: ' ' :: Nat.toDigits 10 oid := rfl
  have hlen : ¬ ("X " ++ toString oid).length = 0 := by
    intro h
    have h2 : ("X " ++ toString oid).data.length = 0 := h
    rw [hdata] at h2
    exact Nat.succ_ne_zero _ h2
  have hchar : parseChar (SStream.ofString ('X' :: ' ' :: Nat.toDigits 10 oid)) =
      (⟨' ' :: Nat.toDigits 10 oid, false, false⟩, .Success 'X') := by
    simp [parseChar, SStream.ofString, SStream.readWord, SStream.good, List.dropWhile,
      List.takeWhile, show isSpace 'X' = false by decide, show isSpace ' ' = true by decide]
  have hword := readWord_digits _ (toDigits_isDigit oid) (toDigits_ne_nil oid)
  have hhead : ¬ ((Nat.toDigits 10 oid).length ≥ 1 ∧ (Nat.toDigits 10 oid).head? = some '-') := by
    intro h
    obtain ⟨c, hc⟩ : ∃ c, c ∈ Nat.toDigits 10 oid ∧ c = '-' := by
      cases hd : Nat.toDigits 10 oid with
      | nil => rw [hd] at h; simp at h
      | cons c r => rw [hd] at h; exact ⟨c, List.mem_cons_self _ _, by simpa using h.2⟩
    exact (isDigit_not_space c (toDigits_isDigit oid c hc.1)).2.1 hc.2
  have hnum : parseUnsigned UINT32_MAX ⟨' ' :: Nat.toDigits 10 oid, false, false⟩ =
      (⟨[], true, false⟩, .Success oid) := by
    unfold parseUnsigned
    simp only [Bool.false_eq_true, if_false, hword, hhead, extractUnsigned_toDigits _ _ h1]
  unfold parseLine
  rw [if_neg hlen, hdata, hchar]
  simp only [show ¬ ('X' = 'O') by decide, if_false, if_true]
  unfold parseX
  rw [hnum]
  have hoid : ¬ oid = 0 := by omega
  simp [hoid, reachedEnd]

/-! ## Claims about placing an order -/

theorem action_place (s : SimpleCross) (line : String) (oid : Nat) (sym : String)
    (side : OrderSide) (q : Nat) (price : Price)
    (hparse : parseLine line = .place oid sym side q price) :
    s.action line = place s oid sym side q price := by
  rw [action_eq_perform, hparse]
  rfl

theorem action_place_spec (s : SimpleCross) (hs : Reachable s) (line : String) (oid : Nat)
    (sym : String) (side : OrderSide) (q : Nat) (price : Price)
    (hparse : parseLine line = .place oid sym side q price)
    (hfresh : mapFind s.activeOrders oid = none) :
    (s.action line).1 = (placeFills s sym side q price).flatMap (Fill.lines oid sym) ∧
      PlaceFacts s (s.action line).2 oid sym side q price := by
  rw [action_place s line oid sym side q price hparse]
  exact place_spec s (reachable_inv s hs) oid sym side q price hfresh
    (parseLine_place line _ _ _ _ _ hparse).2.2.2

/-- C1: for a reachable state and an accepted place request (the line parses to a
place request whose id is not in the order table), the output of `action` is the
concatenation, match by match in matching order, of the pair `F <incoming oid>
<symbol> <filled> <price>`, `F <resting oid> <symbol> <filled> <price>`. No
resting order is matched twice, each matched order rests on the opposite side of
the symbol, `<price>` is the resting order's limit price, and `<filled>` is the
minimum of what the incoming order has left after the earlier matches and the
resting order's quantity. -/
theorem place_output_is_fill_pairs (s : SimpleCross) (hs : Reachable s) (line : String)
    (oid : Nat) (sym : String) (side : OrderSide) (q : Nat) (price : Price)
    (hparse : parseLine line = .place oid sym side q price)
    (hfresh : mapFind s.activeOrders oid = none) :
    (s.action line).1 = (placeFills s sym side q price).flatMap
        (fun f => [fillLine oid sym f.qty f.price, fillLine f.resting sym f.qty f.price]) ∧
      ((placeFills s sym side q price).map Fill.resting).Nodup ∧
      ∀ pre f post, placeFills s sym side q price = pre ++ f :: post →
        ∃ m, mapFind s.activeOrders f.resting = some m ∧
          f.resting ∈ restingOn s sym side.opposite ∧
          f.price = m.price ∧ f.qty = min (q - fillTotal pre) m.quantity := by
  refine ⟨(action_place_spec s hs line oid sym side q price hparse hfresh).1, ?_, ?_⟩
  · exact matchList_nodup _ _ _ _ _ (restingOn_nodup s (reachable_inv s hs) sym side.opposite)
  · intro pre f post h
    obtain ⟨m, hm, hmem, hp, hq, _, _⟩ := matchList_split _ _ _ _ _ pre f post h
    exact ⟨m, hm, hmem, hp, hq⟩

theorem place_output_is_fill_pairs_witness :
    Reachable (runLines sessionA) ∧
      parseLine "O 10003 IBM S 5 100.00000" = .place 10003 "IBM" .Sell 5 ⟨100, 0⟩ ∧
      mapFind (runLines sessionA).activeOrders 10003 = none ∧
      ((runLines sessionA).action "O 10003 IBM S 5 100.00000").1 =
        ["F 10003 IBM 5 100.00000", "F 10000 IBM 5 100.00000"] :=
  ⟨⟨sessionA, rfl⟩, by decide, by decide,
    (place_output_is_fill_pairs (runLines sessionA) ⟨sessionA, rfl⟩ "O 10003 IBM S 5 100.00000"
      10003 "IBM" .Sell 5 ⟨100, 0⟩ (by decide) (by decide)).1.trans (by decide)⟩


theorem flatMap_lines_split (oid : Nat) (sym : String) (pre : List Fill) (fa : Fill)
    (mid : List Fill) (fb : Fill) (post : List Fill) :
    (pre ++ fa :: (mid ++ fb :: post)).flatMap (Fill.lines oid sym) =
      pre.flatMap (Fill.lines oid sym) ++
        [fillLine oid sym fa.qty fa.price, fillLine fa.resting sym fa.qty fa.price] ++
        mid.flatMap (Fill.lines oid sym) ++
        [fillLine oid sym fb.qty fb.price, fillLine fb.resting sym fb.qty fb.price] ++
        post.flatMap (Fill.lines oid sym) := by
  simp [List.flatMap_append, Fill.lines]

/-- C2: for a reachable state and an accepted place request, let `A` and `B` rest
on the opposite side of the symbol before the call, `A` with the better price
(lower for sells, higher for buys) or with the same price and the smaller oid.
If `B` is filled in the call (its quantity decreases), then `A` is filled
completely (its whole quantity, ending at 0 and out of the book) and the pair of
fill lines of `A` precedes the pair of `B` in the output. -/
theorem place_better_order_first (s : SimpleCross) (hs : Reachable s) (line : String)
    (oid : Nat) (sym : String) (side : OrderSide) (q : Nat) (price : Price)
    (hparse : parseLine line = .place oid sym side q price)
    (hfresh : mapFind s.activeOrders oid = none)
    (A B : Nat) (oA oB : Order)
    (hA : A ∈ restingOn s sym side.opposite) (hB : B ∈ restingOn s sym side.opposite)
    (hoA : mapFind s.activeOrders A = some oA) (hoB : mapFind s.activeOrders B = some oB)
    (hbetter : (side.opposite = OrderSide.Sell ∧ Price.Lt oA.price oB.price) ∨
      (side.opposite = OrderSide.Buy ∧ Price.Lt oB.price oA.price) ∨
      (oA.price = oB.price ∧ A < B))
    (hfilled : ∃ b', mapFind (s.action line).2.activeOrders B = some b' ∧
      b'.quantity < oB.quantity) :
    (∃ a', mapFind (s.action line).2.activeOrders A = some a' ∧ a'.quantity = 0 ∧
        a'.book_iter = none) ∧
      A ∉ restingOn (s.action line).2 sym side.opposite ∧
      ∃ (pre mid post : List String) (fB : Nat),
        (s.action line).1 = pre ++
          [fillLine oid sym oA.quantity oA.price, fillLine A sym oA.quantity oA.price] ++ mid ++
          [fillLine oid sym fB oB.price, fillLine B sym fB oB.price] ++ post := by
  have hinv := reachable_inv s hs
  obtain ⟨hout, hf⟩ := action_place_spec s hs line oid sym side q price hparse hfresh
  obtain ⟨oA', hoA', hAoid, _, hAside, _⟩ := restingOn_entry s hinv sym side.opposite A hA
  obtain ⟨oB', hoB', hBoid, _, hBside, _⟩ := restingOn_entry s hinv sym side.opposite B hB
  rw [hoA] at hoA'; cases hoA'
  rw [hoB] at hoB'; cases hoB'
  -- the comparator puts `A` before `B`
  have hlt : oA.lt oB = true := by
    rw [order_lt_iff]
    rcases hbetter with ⟨hsd, h⟩ | ⟨hsd, h⟩ | ⟨h1, h2⟩
    · left
      have hne : oA.price ≠ oB.price := by
        intro e; rw [e] at h; simp [Price.Lt] at h
      refine ⟨hne, ?_⟩
      rw [hAside, hsd]; simpa using h
    · left
      have hne : oA.price ≠ oB.price := by
        intro e; rw [e] at h; simp [Price.Lt] at h
      refine ⟨hne, ?_⟩
      rw [hAside, hsd]; simpa using h
    · right
      exact ⟨h1, by rw [hAoid, hBoid]; exact h2⟩
  have hAB : A ≠ B := by
    intro e
    subst e
    rw [hoA] at hoB; cases hoB
    rw [order_lt_irrefl] at hlt
    exact Bool.noConfusion hlt
  -- `B` is among the matches
  obtain ⟨b', hb', hbq⟩ := hfilled
  obtain ⟨hBne, hBfind⟩ := hf.find_old hfresh B oB hoB
  rw [hBfind] at hb'
  simp only [Option.some.injEq] at hb'
  have hBfill : ∃ f, fillFor (placeFills s sym side q price) B = some f := by
    cases hfb : fillFor (placeFills s sym side q price) B with
    | some f => exact ⟨f, rfl⟩
    | none =>
      rw [orderAfter_unmatched _ _ _ _ hBne hfb] at hb'
      rw [hb'] at hbq
      exact absurd hbq (Nat.lt_irrefl _)
  obtain ⟨fq, hfq⟩ := hBfill
  obtain ⟨fB, hfBmem, hfBr, _⟩ := fillFor_some_mem _ _ _ hfq
  obtain ⟨P, post, hP⟩ := List.append_of_mem hfBmem
  -- position of `A` in the opposite side
  obtain ⟨t, ht⟩ := matchList_resting s.activeOrders side price (restingOn s sym side.opposite) q
  have hfills : matchList s.activeOrders side price q (restingOn s sym side.opposite) =
      P ++ fB :: post := hP
  rw [hfills] at ht
  simp only [List.map_append, List.map_cons, List.append_assoc, List.cons_append] at ht
  have hsorted := restingOn_sorted s hinv sym side.opposite
  rw [ht] at hsorted hA
  have hAP : A ∈ P.map Fill.resting := by
    rcases List.mem_append.1 hA with h | h
    · exact h
    · exfalso
      rcases List.mem_cons.1 h with h | h
      · exact hAB (h.trans hfBr)
      · have hpw := (List.pairwise_append.1 hsorted).2.1
        have := (List.pairwise_cons.1 hpw).1 A h
        rw [hfBr] at this
        unfold OrderPtrComparator at this
        rw [hoA, hoB] at this
        simp only at this
        rw [order_lt_asymm oA oB (hAside.trans hBside.symm) hlt] at this
        exact Bool.noConfusion this
  obtain ⟨fA, hfAmem, hfAr⟩ := List.mem_map.1 hAP
  obtain ⟨pre, mid, hmid⟩ := List.append_of_mem hfAmem
  have hfills2 : placeFills s sym side q price = pre ++ fA :: (mid ++ fB :: post) := by
    unfold placeFills
    rw [hfills, hmid]
    simp
  -- `A` is filled completely, at its own price
  obtain ⟨mA, hmA, _, hApr, _⟩ := matchList_split _ _ _ _ _ pre fA (mid ++ fB :: post) hfills2
  rw [hfAr, hoA] at hmA; cases hmA
  obtain ⟨mB, hmB, _, hBpr, _⟩ := matchList_split s.activeOrders side price
    (restingOn s sym side.opposite) q (pre ++ fA :: mid) fB post (by
      have := hfills2; unfold placeFills at this; rw [this]; simp)
  rw [hfBr, hoB] at hmB; cases hmB
  have hAfull : fA.qty = oA.quantity := by
    cases mid with
    | nil =>
      obtain ⟨m, hm, hq'⟩ := matchList_full _ _ _ _ _ pre fA fB post hfills2
      rw [hfAr, hoA] at hm; cases hm; exact hq'
    | cons g mid' =>
      obtain ⟨m, hm, hq'⟩ := matchList_full _ _ _ _ _ pre fA g (mid' ++ fB :: post) hfills2
      rw [hfAr, hoA] at hm; cases hm; exact hq'
  have hnd : ((placeFills s sym side q price).map Fill.resting).Nodup :=
    matchList_nodup _ _ _ _ _ (restingOn_nodup s hinv sym side.opposite)
  have hAfor : fillFor (placeFills s sym side q price) A = some oA.quantity := by
    have := fillFor_of_mem _ hnd fA (by rw [hfills2]; simp)
    rw [hfAr, hAfull] at this
    exact this
  obtain ⟨hAne, hAfind⟩ := hf.find_old hfresh A oA hoA
  refine ⟨⟨_, hAfind, ?_, ?_⟩, ?_, ?_⟩
  · simp [orderAfter, hAne, hAfor, Order.afterFill]
  · simp [orderAfter, hAne, hAfor, Order.afterFill]
  · rw [hf.restingOn_opp]
    have hA0 : A ∈ restingOn s sym side.opposite := by rw [ht]; exact hA
    rcases placeFills_cases s hinv sym side q price A oA hA0 hoA with ⟨_, hc⟩ | ⟨hc, _⟩
    · exfalso
      have hpos : 0 < oA.quantity := by
        obtain ⟨o, ho, _, _, _, h4, _⟩ := restingOn_entry s hinv sym side.opposite A hA0
        rw [hoA] at ho; cases ho; exact h4
      rcases hc with hc | ⟨f, hc, hlt'⟩
      · rw [hAfor] at hc; exact Option.noConfusion hc
      · rw [hAfor] at hc
        simp only [Option.some.injEq] at hc
        omega
    · exact hc
  · refine ⟨pre.flatMap (Fill.lines oid sym), mid.flatMap (Fill.lines oid sym),
      post.flatMap (Fill.lines oid sym), fB.qty, ?_⟩
    rw [hout, hfills2, flatMap_lines_split, hfAr, hfBr, hAfull, hApr, hBpr]


theorem place_better_order_first_witness :
    Reachable (runLines sessionB) ∧
      parseLine "O 10010 IBM B 13 102.00000" = .place 10010 "IBM" .Buy 13 ⟨102, 0⟩ ∧
      mapFind (runLines sessionB).activeOrders 10010 = none ∧
      10007 ∈ restingOn (runLines sessionB) "IBM" .Sell ∧
      10008 ∈ restingOn (runLines sessionB) "IBM" .Sell ∧
      mapFind (runLines sessionB).activeOrders 10007 =
        some ⟨10007, "IBM", .Sell, 10, ⟨101, 0⟩, some 10007⟩ ∧
      mapFind (runLines sessionB).activeOrders 10008 =
        some ⟨10008, "IBM", .Sell, 10, ⟨102, 0⟩, some 10008⟩ ∧
      10007 ∉ restingOn ((runLines sessionB).action "O 10010 IBM B 13 102.00000").2 "IBM" .Sell :=
  ⟨⟨sessionB, rfl⟩, by decide, by decide, by decide, by decide, by decide, by decide,
    (place_better_order_first (runLines sessionB) ⟨sessionB, rfl⟩ "O 10010 IBM B 13 102.00000"
      10010 "IBM" .Buy 13 ⟨102, 0⟩ (by decide) (by decide) 10007 10008
      ⟨10007, "IBM", .Sell, 10, ⟨101, 0⟩, some 10007⟩
      ⟨10008, "IBM", .Sell, 10, ⟨102, 0⟩, some 10008⟩
      (by decide) (by decide) (by decide) (by decide)
      (Or.inl ⟨rfl, Or.inl (by decide)⟩)
      ⟨⟨10008, "IBM", .Sell, 7, ⟨102, 0⟩, some 10008⟩, by decide, by decide⟩).2.1⟩

theorem quantityOf_decrease (s : SimpleCross) (hs : Reachable s) (line : String)
    (oid : Nat) (sym : String) (side : OrderSide) (q : Nat) (price : Price)
    (hparse : parseLine line = .place oid sym side q price)
    (hfresh : mapFind s.activeOrders oid = none) (p : Nat)
    (hp : p ∈ restingOn s sym side.opposite) :
    quantityOf s p - quantityOf (s.action line).2 p =
      (fillFor (placeFills s sym side q price) p).getD 0 := by
  have hinv := reachable_inv s hs
  obtain ⟨_, hf⟩ := action_place_spec s hs line oid sym side q price hparse hfresh
  obtain ⟨m, hm, _, _, _, hpos, _⟩ := restingOn_entry s hinv sym side.opposite p hp
  obtain ⟨hne, hfind⟩ := hf.find_old hfresh p m hm
  unfold quantityOf
  rw [hm, hfind]
  simp only [Option.map_some', Option.getD_some]
  rcases placeFills_cases s hinv sym side q price p m hp hm with ⟨_, hc | ⟨f, hc, hlt⟩⟩ | ⟨_, hc⟩
  · simp [orderAfter, hne, hc]
  · have hne' : ¬ m.quantity = f := by omega
    simp only [orderAfter, hne, if_false, hc, Order.afterFill, hne', Option.getD_some]
    omega
  · simp [orderAfter, hne, hc, Order.afterFill]

/-- C3: quantity conservation. For a reachable state and an accepted place
request of quantity `q`, the output is the rendering of the specified matches, and
every match fills at least 1 and at most the minimum of what the incoming order
has left (`q` minus the earlier fills) and the resting order's quantity; the
16-bit subtraction of the filled quantity from either order is exact, and the
resting order ends with its quantity reduced by exactly the fill. At the end the
sum of the fills equals `q` minus what the incoming order has left, equals the
total decrease of quantity over the opposite side, and is at most `q`. -/
theorem place_quantity_conservation (s : SimpleCross) (hs : Reachable s) (line : String)
    (oid : Nat) (sym : String) (side : OrderSide) (q : Nat) (price : Price)
    (hparse : parseLine line = .place oid sym side q price)
    (hfresh : mapFind s.activeOrders oid = none) :
    (s.action line).1 = (placeFills s sym side q price).flatMap
        (fun f => [fillLine oid sym f.qty f.price, fillLine f.resting sym f.qty f.price]) ∧
      (∀ pre f post, placeFills s sym side q price = pre ++ f :: post →
        ∃ m, mapFind s.activeOrders f.resting = some m ∧
          1 ≤ f.qty ∧ f.qty ≤ min (q - fillTotal pre) m.quantity ∧
          sub16 (q - fillTotal pre) f.qty + f.qty = q - fillTotal pre ∧
          sub16 m.quantity f.qty + f.qty = m.quantity ∧
          ∃ m', mapFind (s.action line).2.activeOrders f.resting = some m' ∧
            m'.quantity + f.qty = m.quantity) ∧
      (∃ o', mapFind (s.action line).2.activeOrders oid = some o' ∧ o'.quantity ≤ q ∧
        fillTotal (placeFills s sym side q price) = q - o'.quantity) ∧
      ((restingOn s sym side.opposite).map
          (fun p => quantityOf s p - quantityOf (s.action line).2 p)).sum =
        fillTotal (placeFills s sym side q price) ∧
      fillTotal (placeFills s sym side q price) ≤ q := by
  have hinv := reachable_inv s hs
  have hq := (parseLine_place line _ _ _ _ _ hparse).2.2.2
  obtain ⟨hout, hf⟩ := action_place_spec s hs line oid sym side q price hparse hfresh
  have hnd : ((placeFills s sym side q price).map Fill.resting).Nodup :=
    matchList_nodup _ _ _ _ _ (restingOn_nodup s hinv sym side.opposite)
  have htot : fillTotal (placeFills s sym side q price) ≤ q := fillTotal_le _ _ _ _ _
  refine ⟨hout, ?_, ?_, ?_, htot⟩
  · intro pre f post h
    obtain ⟨m, hm, hmem, _, hqty, hpos, _⟩ := matchList_split _ _ _ _ _ pre f post h
    obtain ⟨m0, hm0, _, _, _, hmpos, hmle, _⟩ :=
      restingOn_entry s hinv sym side.opposite f.resting hmem
    rw [hm] at hm0; cases hm0
    have h1 : f.qty ≤ q - fillTotal pre := by rw [hqty]; exact Nat.min_le_left _ _
    have h2 : f.qty ≤ m.quantity := by rw [hqty]; exact Nat.min_le_right _ _
    have h3 : 1 ≤ f.qty := by
      rw [hqty]; exact Nat.le_min.2 ⟨hpos, hmpos⟩
    obtain ⟨hne, hfind⟩ := hf.find_old hfresh f.resting m hm
    have hfor : fillFor (placeFills s sym side q price) f.resting = some f.qty :=
      fillFor_of_mem _ hnd f (by rw [h]; simp)
    refine ⟨m, hm, h3, by rw [hqty], ?_, ?_, _, hfind, ?_⟩
    · rw [sub16_eq _ _ h1 (by unfold UINT16_MAX at *; omega)]
      omega
    · rw [sub16_eq _ _ h2 hmle]
      omega
    · simp only [orderAfter, hne, if_false, hfor, Order.afterFill]
      split
      · rename_i he; simp [he]
      · simp only; omega
  · refine ⟨_, hf.find_oid, ?_, ?_⟩
    · simp only [placeRemaining]; omega
    · simp only [placeRemaining]; omega
  · have hcongr : (restingOn s sym side.opposite).map
          (fun p => quantityOf s p - quantityOf (s.action line).2 p) =
        (restingOn s sym side.opposite).map
          (fun p => (fillFor (placeFills s sym side q price) p).getD 0) := by
      apply List.map_congr_left
      intro p hp
      exact quantityOf_decrease s hs line oid sym side q price hparse hfresh p hp
    rw [hcongr]
    obtain ⟨t, ht⟩ := matchList_resting s.activeOrders side price
      (restingOn s sym side.opposite) q
    have hndopp := restingOn_nodup s hinv sym side.opposite
    rw [ht] at hndopp
    have hzero : (t.map (fun p => (fillFor (placeFills s sym side q price) p).getD 0)).sum
        = 0 := by
      apply List.sum_eq_zero
      intro x hx
      obtain ⟨p, hp, rfl⟩ := List.mem_map.1 hx
      have : p ∉ (placeFills s sym side q price).map Fill.resting :=
        fun h => (List.nodup_append.1 hndopp).2.2 h hp
      rw [fillFor_none_of_not_mem _ _ this]
      rfl
    conv_lhs => rw [ht]
    rw [List.map_append, List.sum_append, hzero, Nat.add_zero]
    exact sum_fillFor _ hnd

theorem place_quantity_conservation_witness :
    Reachable (runLines sessionB) ∧
      parseLine "O 10010 IBM B 13 102.00000" = .place 10010 "IBM" .Buy 13 ⟨102, 0⟩ ∧
      mapFind (runLines sessionB).activeOrders 10010 = none ∧
      fillTotal (placeFills (runLines sessionB) "IBM" .Buy 13 ⟨102, 0⟩) ≤ 13 :=
  ⟨⟨sessionB, rfl⟩, by decide, by decide,
    (place_quantity_conservation (runLines sessionB) ⟨sessionB, rfl⟩
      "O 10010 IBM B 13 102.00000" 10010 "IBM" .Buy 13 ⟨102, 0⟩ (by decide) (by decide)).2.2.2.2⟩


/-- C4: no self-cross. For a reachable state and an accepted place request, every
resting order that is matched differs from the incoming order, has its symbol and
is on the opposite side; an order of another symbol or of the incoming order's
own side is left as it was, no order other than the incoming one is created, the
books of the other symbols are unchanged, the own side of the symbol's book is
unchanged apart from the possible insertion of the incoming order, and for every
other order membership in a book of another symbol or of the own side is
unchanged. -/
theorem place_no_self_cross (s : SimpleCross) (hs : Reachable s) (line : String)
    (oid : Nat) (sym : String) (side : OrderSide) (q : Nat) (price : Price)
    (hparse : parseLine line = .place oid sym side q price)
    (hfresh : mapFind s.activeOrders oid = none) :
    (s.action line).1 = (placeFills s sym side q price).flatMap
        (fun f => [fillLine oid sym f.qty f.price, fillLine f.resting sym f.qty f.price]) ∧
      (∀ f ∈ placeFills s sym side q price, f.resting ≠ oid ∧
        ∃ m, mapFind s.activeOrders f.resting = some m ∧ m.symbol = sym ∧
          m.side = side.opposite) ∧
      (∀ k o, mapFind s.activeOrders k = some o → (o.symbol ≠ sym ∨ o.side = side) →
        mapFind (s.action line).2.activeOrders k = some o) ∧
      (∀ k, k ≠ oid → mapFind s.activeOrders k = none →
        mapFind (s.action line).2.activeOrders k = none) ∧
      (∀ sym', sym' ≠ sym → mapFind (s.action line).2.books sym' = mapFind s.books sym') ∧
      (restingOn (s.action line).2 sym side).erase oid = restingOn s sym side ∧
      (∀ sym' side' p, p ≠ oid → (sym' ≠ sym ∨ side' = side) →
        (p ∈ restingOn (s.action line).2 sym' side' ↔ p ∈ restingOn s sym' side')) := by
  have hinv := reachable_inv s hs
  obtain ⟨hout, hf⟩ := action_place_spec s hs line oid sym side q price hparse hfresh
  have hown : (restingOn (s.action line).2 sym side).erase oid = restingOn s sym side := by
    rw [hf.restingOn_own]
    have hnot := restingOn_ne_of_fresh s hinv sym side oid hfresh
    split
    · exact setInsert_erase _ _ _ hnot
    · exact List.erase_of_not_mem hnot
  refine ⟨hout, ?_, ?_, ?_, ?_, hown, ?_⟩
  · intro f hfm
    obtain ⟨pre, post, hsplit⟩ := List.append_of_mem hfm
    obtain ⟨m, hm, hmem, _⟩ := matchList_split _ _ _ _ _ pre f post hsplit
    obtain ⟨m0, hm0, _, h2, h3, _⟩ := restingOn_entry s hinv sym side.opposite f.resting hmem
    rw [hm] at hm0; cases hm0
    refine ⟨?_, m, hm, h2, h3⟩
    intro e
    rw [e, hfresh] at hm
    exact Option.noConfusion hm
  · intro k o hk hcond
    apply hf.find_unmatched hfresh k o hk
    intro hmem
    obtain ⟨m0, hm0, _, h2, h3, _⟩ := restingOn_entry s hinv sym side.opposite k hmem
    rw [hk] at hm0; cases hm0
    rcases hcond with h | h
    · exact h h2
    · rw [h3] at h; exact opposite_ne side h
  · intro k hk hnone
    rw [hf.orders]
    simp [hk, hnone]
  · intro sym' hne
    rw [hf.books]
    simp [hne]
  · intro sym' side' p hp hcond
    by_cases hsym : sym' = sym
    · rcases hcond with h | h
      · exact absurd hsym h
      · subst hsym h
        rw [← hown]
        exact ⟨fun hm => (List.mem_erase_of_ne hp).2 hm, fun hm => List.mem_of_mem_erase hm⟩
    · rw [hf.restingOn_other sym' side' hsym]

theorem place_no_self_cross_witness :
    Reachable (runLines sessionB) ∧
      parseLine "O 10010 IBM B 13 102.00000" = .place 10010 "IBM" .Buy 13 ⟨102, 0⟩ ∧
      mapFind (runLines sessionB).activeOrders 10010 = none ∧
      (restingOn ((runLines sessionB).action "O 10010 IBM B 13 102.00000").2 "IBM" .Buy).erase
        10010 = restingOn (runLines sessionB) "IBM" .Buy :=
  ⟨⟨sessionB, rfl⟩, by decide, by decide,
    (place_no_self_cross (runLines sessionB) ⟨sessionB, rfl⟩
      "O 10010 IBM B 13 102.00000" 10010 "IBM" .Buy 13 ⟨102, 0⟩ (by decide)
      (by decide)).2.2.2.2.2.1⟩

/-- C5: create post-condition. For a reachable state and an accepted place
request, after the call the incoming order is in the order table with the
requested symbol, side and price; if its remaining quantity is positive it rests
(its marker is set and it is in the book of its symbol on its side, and in no
other book or side), and if its remaining quantity is 0 it is filled (its marker
is empty and it is in no book at all). -/
theorem place_postcondition (s : SimpleCross) (hs : Reachable s) (line : String)
    (oid : Nat) (sym : String) (side : OrderSide) (q : Nat) (price : Price)
    (hparse : parseLine line = .place oid sym side q price)
    (hfresh : mapFind s.activeOrders oid = none) :
    ∃ o, mapFind (s.action line).2.activeOrders oid = some o ∧
      o.oid = oid ∧ o.symbol = sym ∧ o.side = side ∧ o.price = price ∧
      o.quantity = q - fillTotal (placeFills s sym side q price) ∧
      (0 < o.quantity → o.book_iter = some oid ∧ oid ∈ restingOn (s.action line).2 sym side ∧
        ∀ sym' side', oid ∈ restingOn (s.action line).2 sym' side' →
          sym' = sym ∧ side' = side) ∧
      (o.quantity = 0 → o.book_iter = none ∧
        ∀ sym' side', oid ∉ restingOn (s.action line).2 sym' side') := by
  have hinv' := reachable_inv _ (reachable_action s hs line)
  obtain ⟨_, hf⟩ := action_place_spec s hs line oid sym side q price hparse hfresh
  have hwhere : ∀ sym' side', oid ∈ restingOn (s.action line).2 sym' side' →
      sym' = sym ∧ side' = side ∧ 0 < placeRemaining s sym side q price := by
    intro sym' side' hmem
    obtain ⟨o, ho, _, h2, h3, h4, _⟩ := restingOn_entry _ hinv' sym' side' oid hmem
    rw [hf.find_oid] at ho
    simp only [Option.some.injEq] at ho
    subst ho
    exact ⟨h2.symm, h3.symm, h4⟩
  refine ⟨_, hf.find_oid, rfl, rfl, rfl, rfl, rfl, ?_, ?_⟩
  · intro hpos
    simp only at hpos
    refine ⟨by simp [hpos], ?_, fun sym' side' h => ⟨(hwhere sym' side' h).1, (hwhere sym' side' h).2.1⟩⟩
    have := hinv'.resting oid _ oid hf.find_oid (by simp [hpos])
    exact this
  · intro hzero
    simp only at hzero
    refine ⟨by simp [hzero], ?_⟩
    intro sym' side' hmem
    have := (hwhere sym' side' hmem).2.2
    omega

theorem place_postcondition_witness :
    Reachable (runLines sessionB) ∧
      parseLine "O 10010 IBM B 13 102.00000" = .place 10010 "IBM" .Buy 13 ⟨102, 0⟩ ∧
      mapFind (runLines sessionB).activeOrders 10010 = none ∧
      ∃ o, mapFind ((runLines sessionB).action "O 10010 IBM B 13 102.00000").2.activeOrders
          10010 = some o ∧ o.quantity = 0 :=
  ⟨⟨sessionB, rfl⟩, by decide, by decide,
    (place_postcondition (runLines sessionB) ⟨sessionB, rfl⟩
      "O 10010 IBM B 13 102.00000" 10010 "IBM" .Buy 13 ⟨102, 0⟩ (by decide)
      (by decide)).elim (fun o h => ⟨o, h.1, h.2.2.2.2.2.1.trans (by decide)⟩)⟩


/-- C6: duplicate create. Whatever the state of the engine, a line that parses to
a place request whose id is already in the order table (with any order stored
under it, and any symbol, side, quantity and price requested) yields exactly the
line `E <oid> Duplicate order id` and leaves the engine as it was: table, orders
and books, with no book created. -/
theorem place_duplicate_rejected (s : SimpleCross) (line : String)
    (oid : Nat) (sym : String) (side : OrderSide) (q : Nat) (price : Price)
    (hparse : parseLine line = .place oid sym side q price)
    (o : Order) (hdup : mapFind s.activeOrders oid = some o) :
    s.action line = (["E " ++ toString oid ++ " Duplicate order id"], s) := by
  rw [action_place s line oid sym side q price hparse]
  simp [place, hdup]

theorem place_duplicate_rejected_witness :
    parseLine "O 10002 XYZ B 7 1.00000" = .place 10002 "XYZ" .Buy 7 ⟨1, 0⟩ ∧
      mapFind (runLines sessionB).activeOrders 10002 =
        some ⟨10002, "IBM", .Sell, 5, ⟨101, 0⟩, none⟩ ∧
      (runLines sessionB).action "O 10002 XYZ B 7 1.00000" =
        (["E 10002 Duplicate order id"], runLines sessionB) :=
  ⟨by decide, by decide,
    place_duplicate_rejected (runLines sessionB) "O 10002 XYZ B 7 1.00000" 10002 "XYZ" .Buy 7
      ⟨1, 0⟩ (by decide) ⟨10002, "IBM", .Sell, 5, ⟨101, 0⟩, none⟩ (by decide)⟩

/-! ## Claims about cancelling -/

theorem action_cancel (s : SimpleCross) (hinv : Inv s) (oid : Nat) (o : Order)
    (ho : mapFind s.activeOrders oid = some o) :
    s.action ("X " ++ toString oid) = cancel s oid := by
  have hpos := hinv.oidPos oid o ho
  rw [action_eq_perform, parseLine_cancel oid hpos.1 hpos.2]
  rfl

/-- C7: cancel of a resting order. In a reachable state, for an order that rests
(it is present in the book of its symbol on its side, which by `Inv` implies a
positive quantity), `action("X <oid>")` returns exactly the line `X <oid>`;
afterwards the order has
its marker cleared and its other fields, the quantity included, unchanged; every
other order is unchanged; the order is in no book; the side it was on is the old
list with this entry erased, so the remaining entries keep their order; and
every other side and every book of another symbol is unchanged. -/
theorem cancel_resting_order (s : SimpleCross) (hs : Reachable s) (oid : Nat) (o : Order)
    (ho : mapFind s.activeOrders oid = some o)
    (hbook : oid ∈ restingOn s o.symbol o.side) :
    (s.action ("X " ++ toString oid)).1 = ["X " ++ toString oid] ∧
      mapFind (s.action ("X " ++ toString oid)).2.activeOrders oid =
        some { o with book_iter := none } ∧
      (∀ k, k ≠ oid → mapFind (s.action ("X " ++ toString oid)).2.activeOrders k =
        mapFind s.activeOrders k) ∧
      restingOn (s.action ("X " ++ toString oid)).2 o.symbol o.side =
        (restingOn s o.symbol o.side).erase oid ∧
      (∀ sym' side', oid ∉ restingOn (s.action ("X " ++ toString oid)).2 sym' side') ∧
      (∀ sym' side', (sym' ≠ o.symbol ∨ side' ≠ o.side) →
        restingOn (s.action ("X " ++ toString oid)).2 sym' side' = restingOn s sym' side') ∧
      (∀ sym', sym' ≠ o.symbol →
        mapFind (s.action ("X " ++ toString oid)).2.books sym' = mapFind s.books sym') := by
  have hinv := reachable_inv s hs
  obtain ⟨o', ho', _, _, _, _, _, hit⟩ := restingOn_entry s hinv o.symbol o.side oid hbook
  rw [ho] at ho'; cases ho'
  rw [action_cancel s hinv oid o ho, cancel_resting_eq s hinv oid o oid ho hit]
  refine ⟨rfl, ?_, ?_, ?_, ?_, ?_, ?_⟩
  · simp [mapFind_mapModify, ho]
  · intro k hk
    simp [mapFind_mapModify, hk]
  · rw [cancel_restingOn]; simp
  · intro sym' side' hmem
    rw [cancel_restingOn] at hmem
    split at hmem
    · exact ((restingOn_nodup s hinv sym' side').mem_erase_iff.1 hmem).1 rfl
    · rename_i hcond
      obtain ⟨o', ho', _, h2, h3, _⟩ := restingOn_entry s hinv sym' side' oid hmem
      rw [ho] at ho'; cases ho'
      exact hcond ⟨h2.symm, h3.symm⟩
  · intro sym' side' hcond
    rw [cancel_restingOn]
    have : ¬ (sym' = o.symbol ∧ side' = o.side) := by
      intro h
      rcases hcond with h1 | h1
      · exact h1 h.1
      · exact h1 h.2
    simp [this]
  · intro sym' hne
    simp [mapFind_mapModify, hne]

theorem cancel_resting_order_witness :
    Reachable (runLines sessionA) ∧
      mapFind (runLines sessionA).activeOrders 10002 =
        some ⟨10002, "IBM", .Sell, 5, ⟨101, 0⟩, some 10002⟩ ∧
      10002 ∈ restingOn (runLines sessionA) "IBM" .Sell ∧
      ((runLines sessionA).action "X 10002").1 = ["X 10002"] :=
  ⟨⟨sessionA, rfl⟩, by decide, by decide,
    (cancel_resting_order (runLines sessionA) ⟨sessionA, rfl⟩ 10002
      ⟨10002, "IBM", .Sell, 5, ⟨101, 0⟩, some 10002⟩ (by decide) (by decide)).1⟩

theorem repeat_noop (s : SimpleCross) (line : String) (out : results_t)
    (h : s.action line = (out, s)) (n : Nat) :
    sessionOutput s (List.replicate n line) = (List.replicate n out).flatten ∧
      (List.replicate n line).foldl (fun st l => (st.action l).2) s = s := by
  induction n with
  | zero => exact ⟨rfl, rfl⟩
  | succ n ih =>
    simp only [List.replicate_succ, sessionOutput, List.foldl_cons, h, List.flatten_cons]
    exact ⟨by rw [ih.1], ih.2⟩

/-- C8: idempotent terminal states. In a reachable state, for an order that is
filled (quantity 0), `action("X <oid>")` returns exactly
`E Already filled order <oid>`; for an order that is canceled (positive quantity,
in no book) it returns exactly `E Already canceled order <oid>`. In both cases the
engine is unchanged, hence each of `n` cancels in a row returns that line and the
engine after them is the engine before. -/
theorem cancel_terminal_idempotent (s : SimpleCross) (hs : Reachable s) (oid : Nat) (o : Order)
    (ho : mapFind s.activeOrders oid = some o) (n : Nat) :
    (o.quantity = 0 →
      s.action ("X " ++ toString oid) = (["E Already filled order " ++ toString oid], s) ∧
      sessionOutput s (List.replicate n ("X " ++ toString oid)) =
        List.replicate n ("E Already filled order " ++ toString oid) ∧
      (List.replicate n ("X " ++ toString oid)).foldl (fun st l => (st.action l).2) s = s) ∧
    (0 < o.quantity → (∀ sym side, oid ∉ restingOn s sym side) →
      s.action ("X " ++ toString oid) = (["E Already canceled order " ++ toString oid], s) ∧
      sessionOutput s (List.replicate n ("X " ++ toString oid)) =
        List.replicate n ("E Already canceled order " ++ toString oid) ∧
      (List.replicate n ("X " ++ toString oid)).foldl (fun st l => (st.action l).2) s = s) := by
  have hinv := reachable_inv s hs
  have hact := action_cancel s hinv oid o ho
  constructor
  · intro hq
    have h1 : s.action ("X " ++ toString oid) =
        (["E Already filled order " ++ toString oid], s) := by
      rw [hact]; simp [cancel, ho, hq]
    obtain ⟨h2, h3⟩ := repeat_noop s _ _ h1 n
    refine ⟨h1, ?_, h3⟩
    rw [h2]; simp
  · intro hq hnot
    have hit : o.book_iter = none := by
      cases hit : o.book_iter with
      | none => rfl
      | some it => exact absurd (hinv.resting oid o it ho hit) (hnot _ _)
    have hq' : ¬ o.quantity = 0 := by omega
    have h1 : s.action ("X " ++ toString oid) =
        (["E Already canceled order " ++ toString oid], s) := by
      rw [hact]; simp [cancel, ho, hq', hit]
    obtain ⟨h2, h3⟩ := repeat_noop s _ _ h1 n
    refine ⟨h1, ?_, h3⟩
    rw [h2]; simp

theorem cancel_terminal_idempotent_witness :
    Reachable (runLines sessionB) ∧
      mapFind (runLines sessionB).activeOrders 10003 =
        some ⟨10003, "IBM", .Sell, 0, ⟨100, 0⟩, none⟩ ∧
      sessionOutput (runLines sessionB) (List.replicate 3 "X 10003") =
        List.replicate 3 "E Already filled order 10003" :=
  ⟨⟨sessionB, rfl⟩, by decide,
    ((cancel_terminal_idempotent (runLines sessionB) ⟨sessionB, rfl⟩ 10003
      ⟨10003, "IBM", .Sell, 0, ⟨100, 0⟩, none⟩ (by decide) 3).1 rfl).2.1⟩

/-- C9: cancel of an unknown id. Whatever the state of the engine, for a positive
order id (a `uint32_t`) that is not in the order table, `action("X <oid>")` returns
no line at all and leaves the engine unchanged. -/
theorem cancel_unknown_silent (s : SimpleCross) (oid : Nat) (h0 : 0 < oid)
    (h1 : oid ≤ UINT32_MAX) (habsent : mapFind s.activeOrders oid = none) :
    s.action ("X " ++ toString oid) = ([], s) := by
  rw [action_eq_perform, parseLine_cancel oid h0 h1]
  simp [perform, cancel, habsent]

theorem cancel_unknown_silent_witness :
    0 < 77 ∧ 77 ≤ UINT32_MAX ∧ mapFind (runLines sessionB).activeOrders 77 = none ∧
      (runLines sessionB).action "X 77" = ([], runLines sessionB) :=
  ⟨by decide, by decide, by decide,
    cancel_unknown_silent (runLines sessionB) 77 (by decide) (by decide) (by decide)⟩

/-! ## Rejections -/

theorem fillLine_head (oid : Nat) (sym : String) (f : Nat) (price : Price) :
    (fillLine oid sym f price).data.head? = some 'F' := by
  simp [fillLine, String.data_append]

theorem bookLine_head (o : Order) (sideText : String) :
    (bookLine o sideText).data.head? = some 'P' := by
  simp [bookLine, String.data_append]

theorem snapshot_head (s : SimpleCross) (l : String) (hl : l ∈ snapshot s) :
    l.data.head? = some 'P' := by
  unfold snapshot bookLines at hl
  simp only [List.mem_flatMap, List.mem_append, List.mem_filterMap] at hl
  obtain ⟨sb, _, h | h⟩ := hl
  · obtain ⟨p, _, hp⟩ := h
    cases hf : mapFind s.activeOrders p with
    | none => rw [hf] at hp; simp at hp
    | some o =>
      rw [hf] at hp
      simp only [Option.map_some', Option.some.injEq] at hp
      rw [← hp]; exact bookLine_head _ _
  · obtain ⟨p, _, hp⟩ := h
    cases hf : mapFind s.activeOrders p with
    | none => rw [hf] at hp; simp at hp
    | some o =>
      rw [hf] at hp
      simp only [Option.map_some', Option.some.injEq] at hp
      rw [← hp]; exact bookLine_head _ _

/-- C10: atomic rejection. In a reachable state, for every input line, if the
output of `action` contains a line that begins with `E`, then the output is
exactly that one line and the engine after the call equals the engine before. -/
theorem error_is_atomic (s : SimpleCross) (hs : Reachable s) (line : String) (l : String)
    (hl : l ∈ (s.action line).1) (hE : l.data.head? = some 'E') :
    (s.action line).1 = [l] ∧ (s.action line).2 = s := by
  have hinv := reachable_inv s hs
  rw [action_eq_perform] at hl ⊢
  cases hreq : parseLine line with
  | blank =>
    rw [hreq] at hl
    simp only [perform, List.mem_singleton] at hl
    rw [hl] at hE
    simp at hE
  | error msg =>
    rw [hreq] at hl
    simp only [perform, List.mem_singleton] at hl
    simp [perform, hl]
  | place oid sym side q price =>
    rw [hreq] at hl
    simp only [perform] at hl ⊢
    cases hfresh : mapFind s.activeOrders oid with
    | some o =>
      simp only [place, hfresh, List.mem_singleton] at hl ⊢
      simp [hl]
    | none =>
      exfalso
      rw [(place_spec s hinv oid sym side q price hfresh
        (parseLine_place line _ _ _ _ _ hreq).2.2.2).1] at hl
      simp only [List.mem_flatMap, Fill.lines, List.mem_cons, List.mem_singleton,
        List.not_mem_nil, or_false] at hl
      obtain ⟨f, _, h | h⟩ := hl
      · rw [h, fillLine_head] at hE; simp at hE
      · rw [h, fillLine_head] at hE; simp at hE
  | cancel oid =>
    rw [hreq] at hl
    simp only [perform] at hl ⊢
    unfold cancel at hl ⊢
    split at hl
    · simp at hl
    · split at hl
      · simp only [List.mem_singleton] at hl
        rename_i h; simp [h, hl]
      · split at hl
        · simp only [List.mem_singleton] at hl
          rw [hl] at hE
          simp [String.data_append] at hE
        · simp only [List.mem_singleton] at hl
          rename_i h1 h0 _ h2; simp [h1, h0, h2, hl]
  | print =>
    rw [hreq] at hl
    simp only [perform] at hl
    rw [snapshot_head s l hl] at hE
    simp at hE

theorem error_is_atomic_witness :
    Reachable (runLines sessionB) ∧
      "E 10008 Duplicate order id" ∈
        ((runLines sessionB).action "O 10008 IBM S 10 102.00000").1 ∧
      ("E 10008 Duplicate order id").data.head? = some 'E' ∧
      ((runLines sessionB).action "O 10008 IBM S 10 102.00000").2 = runLines sessionB :=
  ⟨⟨sessionB, rfl⟩, by decide, by decide,
    (error_is_atomic (runLines sessionB) ⟨sessionB, rfl⟩ "O 10008 IBM S 10 102.00000"
      "E 10008 Duplicate order id" (by decide) (by decide)).2⟩


/-! ## Price ordering -/

theorem natCmp_equal (a b : Nat) : natCmp a b = .equal ↔ a = b := by
  unfold natCmp; split
  · simp; omega
  · split <;> simp [*]

theorem price_cmp_less (a b : Price) : a.cmp b = .less ↔ Price.Lt a b := by
  rw [← price_lt_iff]
  simp [Price.lt]

theorem price_cmp_equal (a b : Price) : a.cmp b = .equal ↔ a = b := by
  rw [price_ext_iff]
  unfold Price.cmp
  by_cases h : a.intPart = b.intPart
  · simp [h, natCmp_equal]
  · simp [h, natCmp_equal]

theorem price_cmp_greater (a b : Price) : a.cmp b = .greater ↔ Price.Lt b a := by
  unfold Price.cmp Price.Lt
  by_cases h : a.intPart = b.intPart
  · simp [h, natCmp_greater]
  · have h' : ¬ b.intPart = a.intPart := fun e => h e.symm
    simp [h, h', natCmp_greater]

/-- C17: price ordering. `Price::operator<=>` is the lexicographic comparison of
`(intPart, fracPart)`: it returns less, equal or greater exactly when the pair of
`a` is lexicographically smaller than, equal to or greater than the pair of `b`.
Equality of prices is equality of both fields, exactly one of `a < b`, `a == b`,
`a > b` holds, and `<` is irreflexive, transitive and asymmetric. -/
theorem price_order_lexicographic (a b : Price) :
    (a.cmp b = .less ↔ Price.Lt a b) ∧
      (a.cmp b = .equal ↔ a = b) ∧
      (a.cmp b = .greater ↔ Price.Lt b a) ∧
      (a = b ↔ a.intPart = b.intPart ∧ a.fracPart = b.fracPart) ∧
      ((a.lt b = true ∧ a ≠ b ∧ b.lt a = false) ∨
        (a.lt b = false ∧ a = b ∧ b.lt a = false) ∨
        (a.lt b = false ∧ a ≠ b ∧ b.lt a = true)) ∧
      a.lt a = false ∧
      (∀ c : Price, a.lt b = true → b.lt c = true → a.lt c = true) ∧
      (a.lt b = true → b.lt a = false) := by
  have hlt : ∀ x y : Price, x.lt y = true ↔ Price.Lt x y := price_lt_iff
  have hnlt : ∀ x y : Price, x.lt y = false ↔ ¬ Price.Lt x y := by
    intro x y
    rw [← hlt]
    cases x.lt y <;> simp
  refine ⟨price_cmp_less a b, price_cmp_equal a b, price_cmp_greater a b, price_ext_iff a b,
    ?_, ?_, ?_, ?_⟩
  · simp only [hlt, hnlt, ne_eq, price_ext_iff, Price.Lt]
    omega
  · rw [hnlt]; simp [Price.Lt]
  · intro c
    simp only [hlt, Price.Lt]
    omega
  · simp only [hlt, hnlt, Price.Lt]
    omega

theorem price_order_lexicographic_witness :
    (Price.mk 100 0).cmp (Price.mk 99 99999) = .greater ↔
      Price.Lt (Price.mk 99 99999) (Price.mk 100 0) :=
  (price_order_lexicographic (Price.mk 100 0) (Price.mk 99 99999)).2.2.1


/-! ## Invariants of reachable states -/

theorem cancel_orders (s : SimpleCross) (oid : Nat) :
    (cancel s oid).2.activeOrders = s.activeOrders ∨
      (cancel s oid).2.activeOrders =
        mapModify oid (fun o => { o with book_iter := none }) s.activeOrders := by
  unfold cancel
  split
  · exact Or.inl rfl
  · split
    · exact Or.inl rfl
    · split
      · exact Or.inr rfl
      · exact Or.inl rfl

/-- C18: order history is monotone. In a reachable state, for every input line and
every order in the order table before the call, the table after the call still
holds an order under the same id, with the same oid, symbol, side and price and a
quantity that is at most the quantity before. -/
theorem order_history_monotone (s : SimpleCross) (hs : Reachable s) (line : String)
    (k : Nat) (o : Order) (hk : mapFind s.activeOrders k = some o) :
    ∃ o', mapFind (s.action line).2.activeOrders k = some o' ∧ o'.oid = o.oid ∧
      o'.symbol = o.symbol ∧ o'.side = o.side ∧ o'.price = o.price ∧
      o'.quantity ≤ o.quantity := by
  have hinv := reachable_inv s hs
  have hsame : ∃ o', mapFind s.activeOrders k = some o' ∧ o'.oid = o.oid ∧
      o'.symbol = o.symbol ∧ o'.side = o.side ∧ o'.price = o.price ∧
      o'.quantity ≤ o.quantity := ⟨o, hk, rfl, rfl, rfl, rfl, Nat.le_refl _⟩
  rw [action_eq_perform]
  cases hreq : parseLine line with
  | blank => exact hsame
  | error msg => exact hsame
  | print => exact hsame
  | place oid sym side q price =>
    simp only [perform]
    cases hfresh : mapFind s.activeOrders oid with
    | some o0 =>
      simp only [place, hfresh]
      exact hsame
    | none =>
      obtain ⟨_, hf⟩ := place_spec s hinv oid sym side q price hfresh
        (parseLine_place line _ _ _ _ _ hreq).2.2.2
      obtain ⟨_, hfind⟩ := hf.find_old hfresh k o hk
      have hkey := orderAfter_sortKey (placeFills s sym side q price) oid k o
      simp only [Order.sortKey, Prod.mk.injEq] at hkey
      exact ⟨_, hfind, hkey.1, orderAfter_symbol _ _ _ _, hkey.2.1, hkey.2.2,
        orderAfter_quantity_le _ _ _ _⟩
  | cancel oid =>
    simp only [perform]
    rcases cancel_orders s oid with h | h
    · rw [h]; exact hsame
    · rw [h, mapFind_mapModify]
      by_cases hko : k = oid
      · subst hko
        simp only [if_true, hk, Option.map_some']
        exact ⟨_, rfl, rfl, rfl, rfl, rfl, Nat.le_refl _⟩
      · simp only [hko, if_false]
        exact hsame

theorem order_history_monotone_witness :
    Reachable (runLines sessionB) ∧
      mapFind (runLines sessionB).activeOrders 10008 =
        some ⟨10008, "IBM", .Sell, 10, ⟨102, 0⟩, some 10008⟩ ∧
      ∃ o', mapFind ((runLines sessionB).action "O 10010 IBM B 13 102.00000").2.activeOrders
          10008 = some o' ∧ o'.quantity ≤ 10 :=
  ⟨⟨sessionB, rfl⟩, by decide,
    (order_history_monotone (runLines sessionB) ⟨sessionB, rfl⟩ "O 10010 IBM B 13 102.00000"
      10008 ⟨10008, "IBM", .Sell, 10, ⟨102, 0⟩, some 10008⟩ (by decide)).elim
      (fun o' h => ⟨o', h.1, h.2.2.2.2.2⟩)⟩

theorem books_mem_find (s : SimpleCross) (hinv : Inv s) (sym : String) (b : OrderBook)
    (h : (sym, b) ∈ s.books) : mapFind s.books sym = some b :=
  mapFind_of_mem symbolLt_strictTotal s.books hinv.booksSorted sym b h

theorem sideSet_eq_restingOn (s : SimpleCross) (sym : String) (b : OrderBook)
    (side : OrderSide) (h : mapFind s.books sym = some b) :
    b.sideSet side = restingOn s sym side := by
  unfold restingOn bookAt
  rw [h]; rfl

/-- C20: book membership. In a reachable state, every entry of every book side is
the id of an order in the order table whose marker is set (and designates that
entry), whose quantity is positive and whose symbol and side are those of the
book and side holding the entry; no side holds an entry twice and no entry is in
two book sides; and every order of the table whose marker is set is an entry of
the book of its symbol on its side. -/
theorem book_membership_invariant (s : SimpleCross) (hs : Reachable s) :
    (∀ sym b side p, (sym, b) ∈ s.books → p ∈ b.sideSet side →
      ∃ o, mapFind s.activeOrders p = some o ∧ o.book_iter = some p ∧ 0 < o.quantity ∧
        o.symbol = sym ∧ o.side = side) ∧
      (∀ sym b side, (sym, b) ∈ s.books → (b.sideSet side).Nodup) ∧
      (∀ sym b side sym' b' side' p, (sym, b) ∈ s.books → (sym', b') ∈ s.books →
        p ∈ b.sideSet side → p ∈ b'.sideSet side' → sym = sym' ∧ b = b' ∧ side = side') ∧
      (∀ k o, mapFind s.activeOrders k = some o → o.book_iter ≠ none →
        ∃ b, (o.symbol, b) ∈ s.books ∧ k ∈ b.sideSet o.side) := by
  have hinv := reachable_inv s hs
  refine ⟨?_, ?_, ?_, ?_⟩
  · intro sym b side p hb hp
    obtain ⟨o, ho, h1, h2, h3, h4⟩ := hinv.entry sym b side p (books_mem_find s hinv sym b hb) hp
    exact ⟨o, ho, h4, h3, h1, h2⟩
  · intro sym b side hb
    rw [sideSet_eq_restingOn s sym b side (books_mem_find s hinv sym b hb)]
    exact restingOn_nodup s hinv sym side
  · intro sym b side sym' b' side' p hb hb' hp hp'
    have hf := books_mem_find s hinv sym b hb
    have hf' := books_mem_find s hinv sym' b' hb'
    obtain ⟨o, ho, h1, h2, _⟩ := hinv.entry sym b side p hf hp
    obtain ⟨o', ho', h1', h2', _⟩ := hinv.entry sym' b' side' p hf' hp'
    rw [ho] at ho'; cases ho'
    have hsym : sym = sym' := h1.symm.trans h1'
    subst hsym
    rw [hf] at hf'
    exact ⟨rfl, by simpa using hf', h2.symm.trans h2'⟩
  · intro k o hk hit
    cases hi : o.book_iter with
    | none => exact absurd hi hit
    | some it =>
      obtain ⟨_, _, hmem, b, hb⟩ := resting_iter s hinv k o it hk hi
      refine ⟨b, mapFind_mem _ _ _ hb, ?_⟩
      rw [sideSet_eq_restingOn s o.symbol b o.side hb]
      exact hmem

theorem book_membership_invariant_witness :
    Reachable (runLines sessionB) ∧
      ("IBM", (⟨[10006, 10001, 10005], [10007, 10008, 10009]⟩ : OrderBook)) ∈
        (runLines sessionB).books ∧
      (OrderBook.sideSet ⟨[10006, 10001, 10005], [10007, 10008, 10009]⟩ .Buy).Nodup :=
  ⟨⟨sessionB, rfl⟩, by decide,
    (book_membership_invariant (runLines sessionB) ⟨sessionB, rfl⟩).2.1 "IBM"
      ⟨[10006, 10001, 10005], [10007, 10008, 10009]⟩ .Buy (by decide)⟩


/-! ## Fill quantities -/

theorem parseO_error_head (ss : SStream) (msg : String) (h : parseO ss = .error msg) :
    msg.data.head? = some 'E' := by
  unfold parseO at h
  repeat' split at h
  all_goals first
    | (simp only [Request.error.injEq] at h; rw [← h]; decide)
    | (simp at h)

theorem parseX_error_head (ss : SStream) (msg : String) (h : parseX ss = .error msg) :
    msg.data.head? = some 'E' := by
  unfold parseX at h
  repeat' split at h
  all_goals first
    | (simp only [Request.error.injEq] at h; rw [← h]; decide)
    | (simp at h)

theorem parseLine_error_head (line : String) (msg : String)
    (h : parseLine line = .error msg) : msg.data.head? = some 'E' := by
  unfold parseLine at h
  split at h
  · simp at h
  · split at h
    · simp only [Request.error.injEq] at h; rw [← h]; decide
    · simp only [Request.error.injEq] at h; rw [← h]; decide
    · split at h
      · exact parseO_error_head _ _ h
      · split at h
        · exact parseX_error_head _ _ h
        · split at h
          · split at h
            · simp only [Request.error.injEq] at h; rw [← h]; decide
            · simp at h
          · simp only [Request.error.injEq] at h
            rw [← h]
            simp [String.data_append]


/-- C19: positive fill quantity. In a reachable state, for every input line: if
the line is an accepted place request (it parses to a place request with an id
not in the order table), the output consists of the fill lines of the specified
matches and each of them carries a quantity between 1 and 65535; for every other
line the output has no line that begins with `F`. -/
theorem fill_quantity_positive (s : SimpleCross) (hs : Reachable s) (line : String) :
    (∀ oid sym side q price, parseLine line = .place oid sym side q price →
        mapFind s.activeOrders oid = none →
        (s.action line).1 = (placeFills s sym side q price).flatMap
          (fun f => [fillLine oid sym f.qty f.price, fillLine f.resting sym f.qty f.price]) ∧
        ∀ f ∈ placeFills s sym side q price, 1 ≤ f.qty ∧ f.qty ≤ UINT16_MAX) ∧
      ((¬ ∃ oid sym side q price, parseLine line = .place oid sym side q price ∧
          mapFind s.activeOrders oid = none) →
        ∀ l ∈ (s.action line).1, l.data.head? ≠ some 'F') := by
  have hinv := reachable_inv s hs
  constructor
  · intro oid sym side q price hparse hfresh
    refine ⟨(action_place_spec s hs line oid sym side q price hparse hfresh).1, ?_⟩
    intro f hf
    obtain ⟨pre, post, hsplit⟩ := List.append_of_mem hf
    obtain ⟨m, hm, hmem, _, hqty, hpos, _⟩ := matchList_split _ _ _ _ _ pre f post hsplit
    obtain ⟨m0, hm0, _, _, _, hmpos, hmle, _⟩ :=
      restingOn_entry s hinv sym side.opposite f.resting hmem
    rw [hm] at hm0; cases hm0
    constructor
    · rw [hqty]; exact Nat.le_min.2 ⟨hpos, hmpos⟩
    · rw [hqty]; exact Nat.le_trans (Nat.min_le_right _ _) hmle
  · intro hno l hl hF
    rw [action_eq_perform] at hl
    cases hreq : parseLine line with
    | blank =>
      rw [hreq] at hl
      simp only [perform, List.mem_singleton] at hl
      rw [hl] at hF
      simp at hF
    | error msg =>
      rw [hreq] at hl
      simp only [perform, List.mem_singleton] at hl
      rw [hl, parseLine_error_head line msg hreq] at hF
      simp at hF
    | place oid sym side q price =>
      rw [hreq] at hl
      cases hfresh : mapFind s.activeOrders oid with
      | none => exact hno ⟨oid, sym, side, q, price, hreq, hfresh⟩
      | some o =>
        simp only [perform, place, hfresh, List.mem_singleton] at hl
        rw [hl] at hF
        simp [String.data_append] at hF
    | cancel oid =>
      rw [hreq] at hl
      simp only [perform] at hl
      unfold cancel at hl
      split at hl
      · simp at hl
      · split at hl
        · simp only [List.mem_singleton] at hl
          rw [hl] at hF
          simp [String.data_append] at hF
        · split at hl
          · simp only [List.mem_singleton] at hl
            rw [hl] at hF
            simp [String.data_append] at hF
          · simp only [List.mem_singleton] at hl
            rw [hl] at hF
            simp [String.data_append] at hF
    | print =>
      rw [hreq] at hl
      simp only [perform] at hl
      rw [snapshot_head s l hl] at hF
      simp at hF

theorem fill_quantity_positive_witness :
    Reachable (runLines sessionB) ∧
      parseLine "O 10010 IBM B 13 102.00000" = .place 10010 "IBM" .Buy 13 ⟨102, 0⟩ ∧
      mapFind (runLines sessionB).activeOrders 10010 = none ∧
      placeFills (runLines sessionB) "IBM" .Buy 13 ⟨102, 0⟩ =
        [⟨10007, 10, ⟨101, 0⟩⟩, ⟨10008, 3, ⟨102, 0⟩⟩] ∧
      (1 ≤ 3 ∧ 3 ≤ UINT16_MAX) :=
  ⟨⟨sessionB, rfl⟩, by decide, by decide, by decide,
    ((fill_quantity_positive (runLines sessionB) ⟨sessionB, rfl⟩
      "O 10010 IBM B 13 102.00000").1 10010 "IBM" .Buy 13 ⟨102, 0⟩ (by decide)
      (by decide)).2 ⟨10008, 3, ⟨102, 0⟩⟩ (by decide)⟩


/-! ## Orders that rest without a match -/

theorem flatMap_lines_eq_nil (oid : Nat) (sym : String) (fills : List Fill) :
    fills.flatMap (Fill.lines oid sym) = [] ↔ fills = [] := by
  cases fills with
  | nil => simp
  | cons f fs => simp [Fill.lines]

theorem not_crossable_iff (side : OrderSide) (price best : Price) :
    crossable side price best = false ↔
      ((side = OrderSide.Buy ∧ Price.Lt price best) ∨
        (side = OrderSide.Sell ∧ Price.Lt best price)) := by
  cases side
  · simp only [crossable, true_and, reduceCtorEq, false_and, or_false]
    rw [← not_iff_not, Bool.not_eq_false, price_ge_iff]
  · simp only [crossable, true_and, reduceCtorEq, false_and, false_or]
    rw [← not_iff_not, Bool.not_eq_false, price_le_iff]

theorem matchList_eq_nil (ao : List (Nat × Order)) (side : OrderSide) (price : Price)
    (rem : Nat) (hrem : 0 < rem) (p : Nat) (ps : List Nat) (m : Order)
    (hm : mapFind ao p = some m) :
    matchList ao side price rem (p :: ps) = [] ↔ crossable side price m.price = false := by
  simp only [matchList, hm, hrem, true_and]
  cases crossable side price m.price <;> simp

theorem bookAfter_of_nil (ao : List (Nat × Order)) (side : OrderSide) (price : Price)
    (rem : Nat) (ps : List Nat) (h : matchList ao side price rem ps = []) :
    bookAfter ao side price rem ps = ps := by
  cases ps with
  | nil => rfl
  | cons p ps =>
    simp only [matchList] at h
    simp only [bookAfter]
    split
    · rfl
    · rename_i m hm
      simp only [hm] at h
      split at h
      · simp at h
      · rename_i hc
        have : ¬ (0 < rem ∧ crossable side price m.price = true ∧ m.quantity ≤ rem) :=
          fun h3 => hc ⟨h3.1, h3.2.1⟩
        simp [this]

/-- C14: silent rest. For a reachable state and an accepted place request, the
output is empty exactly when the opposite side of the symbol's book is empty or
its best entry is not crossable (the buy price is below the best sell price, or
the sell price is above the best buy price). In that case the incoming order is
stored with its full quantity and its marker set, it is in the book of its symbol
on its side, every other order is unchanged, the opposite side is unchanged, and
every other order is in exactly the book sides it was in before. -/
theorem place_silent_rest (s : SimpleCross) (hs : Reachable s) (line : String)
    (oid : Nat) (sym : String) (side : OrderSide) (q : Nat) (price : Price)
    (hparse : parseLine line = .place oid sym side q price)
    (hfresh : mapFind s.activeOrders oid = none) :
    ((s.action line).1 = [] ↔
        (restingOn s sym side.opposite = [] ∨
          ∃ p rest m, restingOn s sym side.opposite = p :: rest ∧
            mapFind s.activeOrders p = some m ∧
            ((side = OrderSide.Buy ∧ Price.Lt price m.price) ∨
              (side = OrderSide.Sell ∧ Price.Lt m.price price)))) ∧
      ((s.action line).1 = [] →
        mapFind (s.action line).2.activeOrders oid =
            some ⟨oid, sym, side, q, price, some oid⟩ ∧
          oid ∈ restingOn (s.action line).2 sym side ∧
          (∀ k, k ≠ oid →
            mapFind (s.action line).2.activeOrders k = mapFind s.activeOrders k) ∧
          restingOn (s.action line).2 sym side.opposite = restingOn s sym side.opposite ∧
          (∀ sym' side' p, p ≠ oid →
            (p ∈ restingOn (s.action line).2 sym' side' ↔ p ∈ restingOn s sym' side'))) := by
  have hinv := reachable_inv s hs
  have hinv' := reachable_inv _ (reachable_action s hs line)
  have hq := (parseLine_place line _ _ _ _ _ hparse).2.2.1
  obtain ⟨hout, hf⟩ := action_place_spec s hs line oid sym side q price hparse hfresh
  have hnil : (s.action line).1 = [] ↔ placeFills s sym side q price = [] := by
    rw [hout]; exact flatMap_lines_eq_nil oid sym _
  constructor
  · rw [hnil]
    unfold placeFills
    cases hopp : restingOn s sym side.opposite with
    | nil => simp [matchList]
    | cons p rest =>
      obtain ⟨m, hm, _⟩ := restingOn_entry s hinv sym side.opposite p
        (by rw [hopp]; exact List.mem_cons_self _ _)
      rw [matchList_eq_nil _ _ _ _ hq p rest m hm, not_crossable_iff]
      constructor
      · intro h
        exact Or.inr ⟨p, rest, m, rfl, hm, h⟩
      · rintro (h | ⟨p', rest', m', h1, h2, h3⟩)
        · simp at h
        · simp only [List.cons.injEq] at h1
          rw [← h1.1, hm] at h2
          cases h2
          exact h3
  · intro hempty
    have hfills := hnil.1 hempty
    have hrem : placeRemaining s sym side q price = q := by
      simp [placeRemaining, hfills, fillTotal]
    have hfind := hf.find_oid
    rw [hrem] at hfind
    simp only [hq, if_true] at hfind
    have hopp : restingOn (s.action line).2 sym side.opposite =
        restingOn s sym side.opposite := by
      rw [hf.restingOn_opp]
      exact bookAfter_of_nil _ _ _ _ _ hfills
    have hown : (restingOn (s.action line).2 sym side).erase oid = restingOn s sym side := by
      rw [hf.restingOn_own]
      have hnot := restingOn_ne_of_fresh s hinv sym side oid hfresh
      split
      · exact setInsert_erase _ _ _ hnot
      · exact List.erase_of_not_mem hnot
    refine ⟨hfind, ?_, ?_, hopp, ?_⟩
    · exact hinv'.resting oid _ oid hfind rfl
    · intro k hk
      rw [hf.orders]
      simp only [hk, if_false, hfills]
      cases mapFind s.activeOrders k with
      | none => rfl
      | some o => simp [orderAfter_nil]
    · intro sym' side' p hp
      by_cases hsym : sym' = sym
      · subst hsym
        rcases side_cases side side' with hsd | hsd
        · subst hsd
          rw [← hown]
          exact ⟨fun hm => (List.mem_erase_of_ne hp).2 hm, fun hm => List.mem_of_mem_erase hm⟩
        · subst hsd
          rw [hopp]
      · rw [hf.restingOn_other sym' side' hsym]

theorem place_silent_rest_witness :
    Reachable (runLines sessionA) ∧
      parseLine "O 10020 IBM S 5 100.50000" = .place 10020 "IBM" .Sell 5 ⟨100, 50000⟩ ∧
      mapFind (runLines sessionA).activeOrders 10020 = none ∧
      (((runLines sessionA).action "O 10020 IBM S 5 100.50000").1 = [] ↔
        (restingOn (runLines sessionA) "IBM" .Buy = [] ∨
          ∃ p rest m, restingOn (runLines sessionA) "IBM" .Buy = p :: rest ∧
            mapFind (runLines sessionA).activeOrders p = some m ∧
            ((OrderSide.Sell = OrderSide.Buy ∧ Price.Lt ⟨100, 50000⟩ m.price) ∨
              (OrderSide.Sell = OrderSide.Sell ∧ Price.Lt m.price ⟨100, 50000⟩)))) :=
  ⟨⟨sessionA, rfl⟩, by decide, by decide,
    (place_silent_rest (runLines sessionA) ⟨sessionA, rfl⟩ "O 10020 IBM S 5 100.50000"
      10020 "IBM" .Sell 5 ⟨100, 50000⟩ (by decide) (by decide)).1⟩


/-! ## The snapshot -/

theorem ordersOf_mem (ao : List (Nat × Order)) (ptrs : List Nat) (o : Order) :
    o ∈ ordersOf ao ptrs ↔ ∃ p ∈ ptrs, mapFind ao p = some o := by
  simp [ordersOf, List.mem_filterMap]

theorem bookLines_eq (ao : List (Nat × Order)) (t : String) (ptrs : List Nat) :
    bookLines ao t ptrs = (ordersOf ao ptrs).map (fun o => bookLine o t) := by
  unfold bookLines ordersOf
  rw [List.map_filterMap]

theorem ordersOf_pairwise (ao : List (Nat × Order)) (R : Order → Order → Prop)
    (ptrs : List Nat)
    (h : ptrs.Pairwise (fun p q => ∀ a b, mapFind ao p = some a → mapFind ao q = some b →
      R a b)) : (ordersOf ao ptrs).Pairwise R := by
  unfold ordersOf
  rw [List.pairwise_filterMap]
  refine h.imp ?_
  intro p q hpq a ha b hb
  exact hpq a b ha hb

theorem snapshot_entry (s : SimpleCross) (hinv : Inv s) (sym : String) (b : OrderBook)
    (hb : (sym, b) ∈ s.books) (side : OrderSide) (p : Nat) (hp : p ∈ b.sideSet side)
    (o : Order) (ho : mapFind s.activeOrders p = some o) :
    o.oid = p ∧ o.symbol = sym ∧ o.side = side ∧ 0 < o.quantity ∧ o.book_iter = some p := by
  obtain ⟨o', ho', h1, h2, h3, h4⟩ :=
    hinv.entry sym b side p (books_mem_find s hinv sym b hb) hp
  rw [ho] at ho'
  cases ho'
  exact ⟨(hinv.oidKey p o ho).1, h1, h2, h3, h4⟩

theorem snapshot_eq_groups (s : SimpleCross) :
    snapshot s = (snapshotGroups s).flatMap (fun g =>
      g.2.1.map (fun o => bookLine o " S ") ++ g.2.2.map (fun o => bookLine o " B ")) := by
  unfold snapshot snapshotGroups
  rw [List.flatMap_map]
  simp only [bookLines_eq]

theorem action_print (s : SimpleCross) : s.action "P" = (snapshot s, s) := by
  rw [action_eq_perform]
  have : parseLine "P" = .print := by decide
  rw [this]
  rfl


/-- C11: snapshot ordering. In a reachable state the lines returned for `P` are the
lines of the symbol groups one after the other, the groups being in strictly
ascending order of their symbol keys; within a group the Sell lines come first
and the Buy lines after them, every order of the group carrying the symbol of
the group and the side of its part; the orders of the Sell part are in
descending price order with equal prices in descending oid order, and those of
the Buy part in descending price order with equal prices in ascending oid
order. -/
theorem snapshot_ordering (s : SimpleCross) (hs : Reachable s) :
    (s.action "P").1 = (snapshotGroups s).flatMap (fun g =>
        g.2.1.map (fun o => bookLine o " S ") ++ g.2.2.map (fun o => bookLine o " B ")) ∧
      ((snapshotGroups s).map (fun g => g.1)).Pairwise (fun a b => symbolLt a b = true) ∧
      ∀ g ∈ snapshotGroups s,
        (∀ o ∈ g.2.1, o.symbol = g.1 ∧ o.side = OrderSide.Sell) ∧
          (∀ o ∈ g.2.2, o.symbol = g.1 ∧ o.side = OrderSide.Buy) ∧
          g.2.1.Pairwise (fun a b =>
            Price.Lt b.price a.price ∨ (a.price = b.price ∧ b.oid < a.oid)) ∧
          g.2.2.Pairwise (fun a b =>
            Price.Lt b.price a.price ∨ (a.price = b.price ∧ a.oid < b.oid)) := by
  have hinv := reachable_inv s hs
  refine ⟨?_, ?_, ?_⟩
  · rw [action_print]
    exact snapshot_eq_groups s
  · have := hinv.booksSorted
    unfold KeysSorted at this
    unfold snapshotGroups
    rw [List.map_map]
    exact this
  · intro g hg
    unfold snapshotGroups at hg
    rw [List.mem_map] at hg
    obtain ⟨⟨sym, b⟩, hb, rfl⟩ := hg
    have hfind := books_mem_find s hinv sym b hb
    refine ⟨?_, ?_, ?_, ?_⟩
    · intro o ho
      obtain ⟨p, hp, hpo⟩ := (ordersOf_mem _ _ _).1 ho
      have := snapshot_entry s hinv sym b hb .Sell p (List.mem_reverse.1 hp) o hpo
      exact ⟨this.2.1, this.2.2.1⟩
    · intro o ho
      obtain ⟨p, hp, hpo⟩ := (ordersOf_mem _ _ _).1 ho
      have := snapshot_entry s hinv sym b hb .Buy p hp o hpo
      exact ⟨this.2.1, this.2.2.1⟩
    · apply ordersOf_pairwise
      rw [List.pairwise_reverse]
      have hsorted := hinv.sorted sym b .Sell hfind
      refine List.Pairwise.imp_of_mem ?_ hsorted
      intro q p hq hp hlt a c ha hc
      have hsa := (snapshot_entry s hinv sym b hb .Sell p hp a ha).2.2.1
      have hsc := (snapshot_entry s hinv sym b hb .Sell q hq c hc).2.2.1
      unfold OrderPtrComparator at hlt
      rw [hc, ha] at hlt
      simp only at hlt
      rw [order_lt_iff] at hlt
      simp only [hsc, reduceCtorEq, if_false] at hlt
      rcases hlt with ⟨_, h⟩ | ⟨h1, h2⟩
      · exact Or.inl h
      · exact Or.inr ⟨h1.symm, h2⟩
    · apply ordersOf_pairwise
      have hsorted := hinv.sorted sym b .Buy hfind
      refine List.Pairwise.imp_of_mem ?_ hsorted
      intro p q hp hq hlt a c ha hc
      have hsa := (snapshot_entry s hinv sym b hb .Buy p hp a ha).2.2.1
      unfold OrderPtrComparator at hlt
      rw [ha, hc] at hlt
      simp only at hlt
      rw [order_lt_iff] at hlt
      simp only [hsa, if_true] at hlt
      rcases hlt with ⟨_, h⟩ | ⟨h1, h2⟩
      · exact Or.inl h
      · exact Or.inr ⟨h1, h2⟩

theorem snapshot_ordering_witness :
    Reachable (runLines sessionB) ∧
      ((runLines sessionB).action "P").1 =
        ["P 10009 IBM S 10 102.00000", "P 10008 IBM S 10 102.00000",
          "P 10007 IBM S 10 101.00000", "P 10006 IBM B 10 100.00000",
          "P 10001 IBM B 10 99.00000", "P 10005 IBM B 10 99.00000"] ∧
      ((runLines sessionB).action "P").1 = (snapshotGroups (runLines sessionB)).flatMap (fun g =>
        g.2.1.map (fun o => bookLine o " S ") ++ g.2.2.map (fun o => bookLine o " B ")) :=
  ⟨⟨sessionB, rfl⟩, by decide, (snapshot_ordering (runLines sessionB) ⟨sessionB, rfl⟩).1⟩


theorem snapshotOrders_mem_iff (s : SimpleCross) (o : Order) :
    o ∈ snapshotOrders s ↔ ∃ sym b side, (sym, b) ∈ s.books ∧
      ∃ p ∈ b.sideSet side, mapFind s.activeOrders p = some o := by
  unfold snapshotOrders snapshotGroups
  simp only [List.flatMap_map, List.mem_flatMap, List.mem_append, ordersOf_mem,
    List.mem_reverse]
  constructor
  · rintro ⟨⟨sym, b⟩, hb, h | h⟩
    · exact ⟨sym, b, .Sell, hb, h⟩
    · exact ⟨sym, b, .Buy, hb, h⟩
  · rintro ⟨sym, b, side, hb, h⟩
    cases side
    · exact ⟨(sym, b), hb, Or.inr h⟩
    · exact ⟨(sym, b), hb, Or.inl h⟩

theorem snapshotOrders_mem (s : SimpleCross) (hinv : Inv s) (o : Order) :
    o ∈ snapshotOrders s ↔
      (mapFind s.activeOrders o.oid = some o ∧ o.oid ∈ restingOn s o.symbol o.side) := by
  rw [snapshotOrders_mem_iff]
  constructor
  · rintro ⟨sym, b, side, hb, p, hp, hpo⟩
    have h := snapshot_entry s hinv sym b hb side p hp o hpo
    rw [h.1, h.2.1, h.2.2.1, ← sideSet_eq_restingOn s sym b side (books_mem_find s hinv sym b hb)]
    exact ⟨hpo, hp⟩
  · rintro ⟨ho, hrest⟩
    unfold restingOn bookAt at hrest
    cases hb : mapFind s.books o.symbol with
    | none =>
      rw [hb] at hrest
      cases hside : o.side <;> rw [hside] at hrest <;> simp [OrderBook.sideSet] at hrest
    | some b =>
      rw [hb] at hrest
      exact ⟨o.symbol, b, o.side, mapFind_mem _ _ _ hb, o.oid, hrest, ho⟩

theorem groups_lines_eq (gs : List (String × List Order × List Order))
    (h : ∀ g ∈ gs, (∀ o ∈ g.2.1, o.side = OrderSide.Sell) ∧
      (∀ o ∈ g.2.2, o.side = OrderSide.Buy)) :
    gs.flatMap (fun g =>
        g.2.1.map (fun o => bookLine o " S ") ++ g.2.2.map (fun o => bookLine o " B ")) =
      (gs.flatMap (fun g => g.2.1 ++ g.2.2)).map (fun o => bookLine o (sideText o.side)) := by
  induction gs with
  | nil => rfl
  | cons g gs ih =>
    simp only [List.flatMap_cons, List.map_append]
    rw [ih (fun g' hg' => h g' (List.mem_cons_of_mem _ hg'))]
    have hg := h g (List.mem_cons_self _ _)
    have h1 : g.2.1.map (fun o => bookLine o " S ") =
        g.2.1.map (fun o => bookLine o (sideText o.side)) := by
      apply List.map_congr_left
      intro o ho
      rw [hg.1 o ho]; rfl
    have h2 : g.2.2.map (fun o => bookLine o " B ") =
        g.2.2.map (fun o => bookLine o (sideText o.side)) := by
      apply List.map_congr_left
      intro o ho
      rw [hg.2 o ho]; rfl
    rw [h1, h2]

theorem ordersOf_nodup (s : SimpleCross) (hinv : Inv s) (ptrs : List Nat)
    (h : ptrs.Nodup) : (ordersOf s.activeOrders ptrs).Nodup := by
  unfold ordersOf
  refine List.Nodup.filterMap ?_ h
  intro a a' b hb hb'
  rw [← (hinv.oidKey a b hb).1, ← (hinv.oidKey a' b hb').1]

theorem snapshotOrders_nodup (s : SimpleCross) (hinv : Inv s) : (snapshotOrders s).Nodup := by
  unfold snapshotOrders snapshotGroups
  rw [List.flatMap_map, List.nodup_flatMap]
  constructor
  · rintro ⟨sym, b⟩ hb
    have hfind := books_mem_find s hinv sym b hb
    simp only
    rw [List.nodup_append]
    refine ⟨?_, ?_, ?_⟩
    · apply ordersOf_nodup s hinv
      rw [List.nodup_reverse]
      have := restingOn_nodup s hinv sym .Sell
      rw [← sideSet_eq_restingOn s sym b .Sell hfind] at this
      exact this
    · apply ordersOf_nodup s hinv
      have := restingOn_nodup s hinv sym .Buy
      rw [← sideSet_eq_restingOn s sym b .Buy hfind] at this
      exact this
    · rw [List.disjoint_left]
      intro o h1 h2
      obtain ⟨p, hp, hpo⟩ := (ordersOf_mem _ _ _).1 h1
      obtain ⟨q, hq, hqo⟩ := (ordersOf_mem _ _ _).1 h2
      have e1 := (snapshot_entry s hinv sym b hb .Sell p (List.mem_reverse.1 hp) o hpo).2.2.1
      have e2 := (snapshot_entry s hinv sym b hb .Buy q hq o hqo).2.2.1
      rw [e1] at e2
      cases e2
  · have hsorted := hinv.booksSorted
    unfold KeysSorted at hsorted
    rw [List.pairwise_map] at hsorted
    refine List.Pairwise.imp_of_mem ?_ hsorted
    rintro ⟨sym, b⟩ ⟨sym', b'⟩ hb hb' hlt
    simp only [Function.onFun]
    rw [List.disjoint_left]
    intro o h1 h2
    have hsym : ∀ sym b, (sym, b) ∈ s.books →
        o ∈ ordersOf s.activeOrders b.sells.reverse ++ ordersOf s.activeOrders b.buys →
        o.symbol = sym := by
      intro sym b hb ho
      rcases List.mem_append.1 ho with h | h
      · obtain ⟨p, hp, hpo⟩ := (ordersOf_mem _ _ _).1 h
        exact (snapshot_entry s hinv sym b hb .Sell p (List.mem_reverse.1 hp) o hpo).2.1
      · obtain ⟨p, hp, hpo⟩ := (ordersOf_mem _ _ _).1 h
        exact (snapshot_entry s hinv sym b hb .Buy p hp o hpo).2.1
    have e1 := hsym sym b hb h1
    have e2 := hsym sym' b' hb' h2
    rw [e1] at e2
    simp only at hlt
    rw [e2, symbolLt_strictTotal.irrefl] at hlt
    exact Bool.noConfusion hlt


/-- C12: snapshot completeness and purity. In a reachable state the lines returned
for `P` are the book lines, one each, of the walked orders, every line carrying
its order's own oid, symbol, side, quantity and formatted price; an order is
walked exactly when it is stored in the order table and is in the book of its
symbol on its side; every walked order has its marker set and a positive
quantity; an order of the table with quantity 0 (filled) or with its marker
cleared (filled or canceled) is not walked; no oid is walked twice; and the
engine state is unchanged. -/
theorem snapshot_complete_and_pure (s : SimpleCross) (hs : Reachable s) :
    (s.action "P").1 = (snapshotOrders s).map (fun o => bookLine o (sideText o.side)) ∧
      (∀ o, o ∈ snapshotOrders s ↔
        (mapFind s.activeOrders o.oid = some o ∧ o.oid ∈ restingOn s o.symbol o.side)) ∧
      (∀ o ∈ snapshotOrders s, 0 < o.quantity ∧ o.book_iter = some o.oid) ∧
      (∀ k o, mapFind s.activeOrders k = some o → (o.quantity = 0 ∨ o.book_iter = none) →
        ∀ x ∈ snapshotOrders s, x.oid ≠ k) ∧
      ((snapshotOrders s).map Order.oid).Nodup ∧
      (s.action "P").2 = s := by
  have hinv := reachable_inv s hs
  have hprop : ∀ o ∈ snapshotOrders s, 0 < o.quantity ∧ o.book_iter = some o.oid := by
    intro o ho
    obtain ⟨sym, b, side, hb, p, hp, hpo⟩ := (snapshotOrders_mem_iff s o).1 ho
    have h := snapshot_entry s hinv sym b hb side p hp o hpo
    rw [h.1]
    exact ⟨h.2.2.2.1, h.2.2.2.2⟩
  refine ⟨?_, snapshotOrders_mem s hinv, hprop, ?_, ?_, ?_⟩
  · rw [action_print]
    simp only
    rw [snapshot_eq_groups]
    unfold snapshotOrders
    apply groups_lines_eq
    intro g hg
    unfold snapshotGroups at hg
    rw [List.mem_map] at hg
    obtain ⟨⟨sym, b⟩, hb, rfl⟩ := hg
    constructor
    · intro o ho
      obtain ⟨p, hp, hpo⟩ := (ordersOf_mem _ _ _).1 ho
      exact (snapshot_entry s hinv sym b hb .Sell p (List.mem_reverse.1 hp) o hpo).2.2.1
    · intro o ho
      obtain ⟨p, hp, hpo⟩ := (ordersOf_mem _ _ _).1 ho
      exact (snapshot_entry s hinv sym b hb .Buy p hp o hpo).2.2.1
  · intro k o hk hterm x hx hxk
    have hfx := ((snapshotOrders_mem s hinv x).1 hx).1
    rw [hxk, hk] at hfx
    cases hfx
    have := hprop o hx
    rcases hterm with h | h
    · omega
    · rw [h] at this
      exact Option.noConfusion this.2
  · refine List.Nodup.map_on ?_ (snapshotOrders_nodup s hinv)
    intro x hx y hy hxy
    have h1 := ((snapshotOrders_mem s hinv x).1 hx).1
    have h2 := ((snapshotOrders_mem s hinv y).1 hy).1
    rw [hxy, h2] at h1
    exact (Option.some.inj h1).symm
  · rw [action_print]

theorem snapshot_complete_and_pure_witness :
    Reachable (runLines sessionB) ∧
      (snapshotOrders (runLines sessionB)).map Order.oid =
        [10009, 10008, 10007, 10006, 10001, 10005] ∧
      (mapFind (runLines sessionB).activeOrders 10000).map Order.quantity = some 0 ∧
      (mapFind (runLines sessionB).activeOrders 10002).map Order.book_iter = some none ∧
      ((snapshotOrders (runLines sessionB)).map Order.oid).Nodup ∧
      ((runLines sessionB).action "P").2 = runLines sessionB :=
  ⟨⟨sessionB, rfl⟩, by decide, by decide, by decide,
    (snapshot_complete_and_pure (runLines sessionB) ⟨sessionB, rfl⟩).2.2.2.2⟩


/-! ## Reading a formatted price -/

theorem isDigit_ne_dot (c : Char) (h : isDigit c = true) : (c != '.') = true := by
  simp only [isDigit, Bool.and_eq_true, decide_eq_true_eq] at h
  simp only [bne_iff_ne, ne_eq]
  intro e; rw [e] at h; revert h; decide

theorem digitsValue_zeros (k : Nat) (ds : List Char) :
    digitsValue (List.replicate k '0' ++ ds) = digitsValue ds := by
  unfold digitsValue
  rw [List.foldl_append]
  congr 1
  induction k with
  | zero => rfl
  | succ k ih =>
    rw [List.replicate_succ, List.foldl_cons]
    exact ih

/-- Extraction of an unsigned integer from a nonempty run of digits. -/
theorem extractUnsigned_digits (max : Nat) (ds : List Char)
    (hdig : ∀ c ∈ ds, isDigit c = true) (hne : ds ≠ []) (h : digitsValue ds ≤ max) :
    extractUnsigned max ds = some (digitsValue ds) := by
  cases ds with
  | nil => exact absurd rfl hne
  | cons c r =>
    have hc := isDigit_not_space c (hdig c (List.mem_cons_self _ _))
    have htake : List.takeWhile isDigit (c :: r) = c :: r :=
      List.takeWhile_eq_self_iff.2 hdig
    unfold extractUnsigned
    simp only [List.dropWhile_cons, hc.1, Bool.false_eq_true, if_false, hc.2.1, hc.2.2, htake,
      List.isEmpty_cons]
    have : ¬ digitsValue (c :: r) > max := by omega
    simp [this]

/-- Reading a word made of digits that starts at once and runs to the end of the input. -/
theorem readWord_digits_only (ds : List Char) (hdig : ∀ c ∈ ds, isDigit c = true)
    (hne : ds ≠ []) :
    SStream.readWord ⟨ds, false, false⟩ = (⟨[], true, false⟩, ds) := by
  have hsp : ∀ c ∈ ds, (!isSpace c) = true := by
    intro c hc; simp [(isDigit_not_space c (hdig c hc)).1]
  cases ds with
  | nil => exact absurd rfl hne
  | cons c r =>
    have hc := isDigit_not_space c (hdig c (List.mem_cons_self _ _))
    have htake : List.takeWhile (fun c => !isSpace c) (c :: r) = c :: r :=
      List.takeWhile_eq_self_iff.2 hsp
    have hdrop : List.dropWhile (fun c => !isSpace c) (c :: r) = [] :=
      List.dropWhile_eq_nil_iff.2 hsp
    unfold SStream.readWord
    simp only [SStream.good, Bool.not_false, Bool.and_self, Bool.not_true, Bool.false_eq_true,
      if_false, List.dropWhile_cons, hc.1, List.isEmpty_cons, htake, hdrop,
      List.isEmpty_nil]

/-- The extraction of a price from `<digits>.<digits>` with 1 to 7 digits before
the separator and 5 after it. -/
theorem price_read_digits (ids fds : List Char)
    (hi : ∀ c ∈ ids, isDigit c = true) (hine : ids ≠ []) (hilen : ids.length ≤ INT_PART_DIGITS)
    (hf : ∀ c ∈ fds, isDigit c = true) (hflen : fds.length = FRAC_PART_DIGITS)
    (hiv : digitsValue ids ≤ UINT32_MAX) (hfv : digitsValue fds ≤ UINT32_MAX) :
    Price.read (SStream.ofString (ids ++ '.' :: fds)) =
      (⟨[], true, false⟩, some ⟨digitsValue ids, digitsValue fds⟩) := by
  have hfne : fds ≠ [] := by
    intro e; rw [e] at hflen; revert hflen; decide
  have hdot : ∀ c ∈ ids, (fun c => c != '.') c = true := fun c hc => isDigit_ne_dot c (hi c hc)
  have htake : List.takeWhile (fun c => c != '.') (ids ++ '.' :: fds) = ids := by
    rw [List.takeWhile_append_of_pos hdot]
    simp
  have hdrop : List.dropWhile (fun c => c != '.') (ids ++ '.' :: fds) = '.' :: fds := by
    rw [List.dropWhile_append_of_pos hdot]
    simp
  have hws : (SStream.ofString (ids ++ '.' :: fds)).ws = ⟨ids ++ '.' :: fds, false, false⟩ := by
    cases ids with
    | nil => exact absurd rfl hine
    | cons c r =>
      have hc := isDigit_not_space c (hi c (List.mem_cons_self _ _))
      simp [SStream.ws, SStream.ofString, SStream.good, hc.1]
  have hget : SStream.getline ⟨ids ++ '.' :: fds, false, false⟩ '.' =
      (⟨fds, false, false⟩, ids) := by
    unfold SStream.getline
    simp only [SStream.good, Bool.not_false, Bool.and_self, Bool.not_true, Bool.false_eq_true,
      if_false, htake, hdrop]
    cases ids with
    | nil => exact absurd rfl hine
    | cons c r => simp
  have hhead : ∀ ds : List Char, (∀ c ∈ ds, isDigit c = true) → ds.head? ≠ some '-' := by
    intro ds hds e
    cases ds with
    | nil => simp at e
    | cons c r =>
      simp only [List.head?_cons, Option.some.injEq] at e
      exact (isDigit_not_space c (hds c (List.mem_cons_self _ _))).2.1 e
  have hlen0 : ¬ ids.length = 0 := by
    intro e; exact hine (List.length_eq_zero.1 e)
  unfold Price.read
  simp only [hws, hget, readWord_digits_only fds hf hfne, Bool.false_eq_true, if_false, hlen0,
    hhead ids hi, hhead fds hf, hflen, ne_eq, not_true_eq_false, Nat.not_lt.2 hilen, gt_iff_lt,
    extractUnsigned_digits _ ids hi hine hiv, extractUnsigned_digits _ fds hf hfne hfv]


theorem toDigits_length_le (n e : Nat) (he : 0 < e) (h : n < 10 ^ e) :
    (Nat.toDigits 10 n).length ≤ e :=
  Nat.toDigitsCore_length 10 (by decide) (n + 1) n e h he

theorem price_to_string_data (p : Price) :
    p.to_string.data = Nat.toDigits 10 p.intPart ++ '.' ::
      (List.replicate (FRAC_PART_DIGITS - (Nat.toDigits 10 p.fracPart).length) '0' ++
        Nat.toDigits 10 p.fracPart) := by
  show (toString p.intPart ++ "." ++
    (String.mk (List.replicate (FRAC_PART_DIGITS - (toString p.fracPart).length) '0') ++
      toString p.fracPart)).data = _
  simp only [String.data_append, toString_data, List.append_assoc]
  rfl

/-- C15: price round-trip. For `intPart ≤ 9999999` and `fracPart ≤ 99999`, the
extraction of a price from the text of `to_string(Price{intPart, fracPart})`
succeeds (the stream has not failed) and yields `Price{intPart, fracPart}`; the
text is the decimal digits of `intPart`, a `.`, and the decimal digits of
`fracPart` padded with zeros on the left to exactly 5 digits, whose value is
`fracPart`. -/
theorem price_round_trip (ip fp : Nat) (hi : ip ≤ 9999999) (hf : fp ≤ 99999) :
    Price.read (SStream.ofString (Price.to_string ⟨ip, fp⟩).data) =
        (⟨[], true, false⟩, some ⟨ip, fp⟩) ∧
      (Price.to_string ⟨ip, fp⟩).data = (toString ip).data ++ '.' ::
        (List.replicate (5 - (toString fp).length) '0' ++ (toString fp).data) ∧
      (List.replicate (5 - (toString fp).length) '0' ++ (toString fp).data).length = 5 ∧
      (∀ c ∈ List.replicate (5 - (toString fp).length) '0' ++ (toString fp).data,
        isDigit c = true) ∧
      digitsValue (toString ip).data = ip ∧
      digitsValue (List.replicate (5 - (toString fp).length) '0' ++ (toString fp).data) = fp := by
  have hilen : (Nat.toDigits 10 ip).length ≤ 7 :=
    toDigits_length_le ip 7 (by decide) (by omega)
  have hflen : (Nat.toDigits 10 fp).length ≤ 5 :=
    toDigits_length_le fp 5 (by decide) (by omega)
  have hpad : (List.replicate (5 - (Nat.toDigits 10 fp).length) '0' ++
      Nat.toDigits 10 fp).length = 5 := by
    rw [List.length_append, List.length_replicate]
    omega
  have hpdig : ∀ c ∈ List.replicate (5 - (Nat.toDigits 10 fp).length) '0' ++ Nat.toDigits 10 fp,
      isDigit c = true := by
    intro c hc
    rcases List.mem_append.1 hc with h | h
    · rw [(List.mem_replicate.1 h).2]; decide
    · exact toDigits_isDigit fp c h
  have hpval : digitsValue (List.replicate (5 - (Nat.toDigits 10 fp).length) '0' ++
      Nat.toDigits 10 fp) = fp := by
    rw [digitsValue_zeros, toDigits_value]
  have hdata := price_to_string_data ⟨ip, fp⟩
  refine ⟨?_, hdata, hpad, hpdig, toDigits_value ip, hpval⟩
  rw [hdata]
  have := price_read_digits (Nat.toDigits 10 ip)
    (List.replicate (5 - (Nat.toDigits 10 fp).length) '0' ++ Nat.toDigits 10 fp)
    (toDigits_isDigit ip) (toDigits_ne_nil ip) hilen hpdig hpad
    (by rw [toDigits_value]; unfold UINT32_MAX; omega)
    (by rw [hpval]; unfold UINT32_MAX; omega)
  rw [toDigits_value, hpval] at this
  exact this

theorem price_round_trip_witness :
    (100 ≤ 9999999 ∧ 50 ≤ 99999) ∧ Price.to_string ⟨100, 50⟩ = "100.00050" ∧
      Price.read (SStream.ofString (Price.to_string ⟨100, 50⟩).data) =
        (⟨[], true, false⟩, some ⟨100, 50⟩) :=
  ⟨by decide, by decide, (price_round_trip 100 50 (by decide) (by decide)).1⟩


/-! ## Evaluations at particular inputs -/

/-- C13: price-time priority by submission. After the session `O 2 IBM S 10
100.00000`, `O 1 IBM S 10 100.00000`, in which the sell order 2 is placed before
the sell order 1 at the same price, the sell set holds 1 before 2, and the buy
order `O 3 IBM B 5 100.00000` is matched with order 1: the output is the pair of
fill lines of 3 and 1, order 1 is left with 5 shares and still rests, and
order 2, placed first, keeps its 10 shares and receives no fill. -/
theorem equal_price_matches_smaller_oid_first :
    restingOn (runLines ["O 2 IBM S 10 100.00000", "O 1 IBM S 10 100.00000"]) "IBM" .Sell =
        [1, 2] ∧
      ((runLines ["O 2 IBM S 10 100.00000", "O 1 IBM S 10 100.00000"]).action
        "O 3 IBM B 5 100.00000").1 = ["F 3 IBM 5 100.00000", "F 1 IBM 5 100.00000"] ∧
      restingOn ((runLines ["O 2 IBM S 10 100.00000", "O 1 IBM S 10 100.00000"]).action
        "O 3 IBM B 5 100.00000").2 "IBM" .Sell = [1, 2] ∧
      quantityOf ((runLines ["O 2 IBM S 10 100.00000", "O 1 IBM S 10 100.00000"]).action
        "O 3 IBM B 5 100.00000").2 1 = 5 ∧
      quantityOf ((runLines ["O 2 IBM S 10 100.00000", "O 1 IBM S 10 100.00000"]).action
        "O 3 IBM B 5 100.00000").2 2 = 10 := by
  decide

/-- C16: price parse rejection. The extraction of a price succeeds on `1.12abc`
(fractional part of 5 characters, two of them digits) with the price 1.00012, on
`+1.00000` (signed integer part), on `1 2.00000` (space in the integer part), on
`1x.00000` (letter in the integer part) and on `1.+2345` (signed fractional
part); and the line `O 1 IBM B 10 1.12abc` is a place request at the price
1.00012, which the snapshot prints as `1.00012`. -/
theorem price_read_accepts_non_digits :
    Price.read (SStream.ofString "1.12abc".data) = (⟨[], true, false⟩, some ⟨1, 12⟩) ∧
      Price.read (SStream.ofString "+1.00000".data) = (⟨[], true, false⟩, some ⟨1, 0⟩) ∧
      Price.read (SStream.ofString "1 2.00000".data) = (⟨[], true, false⟩, some ⟨1, 0⟩) ∧
      Price.read (SStream.ofString "1x.00000".data) = (⟨[], true, false⟩, some ⟨1, 0⟩) ∧
      Price.read (SStream.ofString "1.+2345".data) = (⟨[], true, false⟩, some ⟨1, 2345⟩) ∧
      parseLine "O 1 IBM B 10 1.12abc" = .place 1 "IBM" .Buy 10 ⟨1, 12⟩ ∧
      ((runLines ["O 1 IBM B 10 1.12abc"]).action "P").1 = ["P 1 IBM B 10 1.00012"] := by
  decide


/-! ## The order of a book side -/

theorem action_sortKey (s : SimpleCross) (hinv : Inv s) (line : String) (k : Nat) (o : Order)
    (hk : mapFind s.activeOrders k = some o) :
    (mapFind (s.action line).2.activeOrders k).map Order.sortKey =
      (mapFind s.activeOrders k).map Order.sortKey := by
  rw [action_eq_perform]
  cases hreq : parseLine line with
  | blank => rfl
  | error msg => rfl
  | print => rfl
  | place oid sym side q price =>
    simp only [perform]
    cases hfresh : mapFind s.activeOrders oid with
    | some o0 =>
      simp only [place, hfresh]
    | none =>
      obtain ⟨_, hf⟩ := place_spec s hinv oid sym side q price hfresh
        (parseLine_place line _ _ _ _ _ hreq).2.2.2
      exact hf.sortKey_eq k (hf.find_old hfresh k o hk).1
  | cancel oid =>
    simp only [perform]
    rcases cancel_orders s oid with h | h
    · rw [h]
    · rw [h, mapFind_mapModify]
      by_cases hko : k = oid
      · subst hko
        simp only [if_true, hk, Option.map_some']
        rfl
      · simp only [hko, if_false]

theorem pair_sublist_of_mem {α : Type} (p q : α) :
    ∀ l : List α, p ∈ l → q ∈ l → p = q ∨ [p, q].Sublist l ∨ [q, p].Sublist l := by
  intro l
  induction l with
  | nil => intro hp; simp at hp
  | cons x xs ih =>
    intro hp hq
    rcases List.mem_cons.1 hp with hpx | hpx
    · rcases List.mem_cons.1 hq with hqx | hqx
      · exact Or.inl (hpx.trans hqx.symm)
      · rw [hpx]
        exact Or.inr (Or.inl (List.Sublist.cons₂ x (List.singleton_sublist.2 hqx)))
    · rcases List.mem_cons.1 hq with hqx | hqx
      · rw [hqx]
        exact Or.inr (Or.inr (List.Sublist.cons₂ x (List.singleton_sublist.2 hpx)))
      · rcases ih hpx hqx with h | h | h
        · exact Or.inl h
        · exact Or.inr (Or.inl (List.Sublist.cons x h))
        · exact Or.inr (Or.inr (List.Sublist.cons x h))

theorem ordersOf_oid (ao : List (Nat × Order)) :
    ∀ ptrs : List Nat, (∀ p ∈ ptrs, ∃ o, mapFind ao p = some o ∧ o.oid = p) →
      (ordersOf ao ptrs).map Order.oid = ptrs := by
  intro ptrs
  induction ptrs with
  | nil => intro _; rfl
  | cons p ps ih =>
    intro h
    obtain ⟨o, ho, hoid⟩ := h p (List.mem_cons_self _ _)
    have := ih (fun p' hp' => h p' (List.mem_cons_of_mem _ hp'))
    unfold ordersOf at this ⊢
    simp only [List.filterMap_cons, ho, List.map_cons, hoid, this]

theorem book_side_pairwise (s : SimpleCross) (hinv : Inv s) (sym : String) (b : OrderBook)
    (hb : (sym, b) ∈ s.books) (side : OrderSide) :
    (ordersOf s.activeOrders (b.sideSet side)).Pairwise (fun a c =>
      (if side = OrderSide.Buy then Price.Lt c.price a.price else Price.Lt a.price c.price) ∨
        (a.price = c.price ∧ a.oid < c.oid)) := by
  apply ordersOf_pairwise
  have hsorted := hinv.sorted sym b side (books_mem_find s hinv sym b hb)
  refine List.Pairwise.imp_of_mem ?_ hsorted
  intro p q hp hq hlt a c ha hc
  have hsa := (snapshot_entry s hinv sym b hb side p hp a ha).2.2.1
  unfold OrderPtrComparator at hlt
  rw [ha, hc] at hlt
  simp only at hlt
  rw [order_lt_iff, hsa] at hlt
  rcases hlt with ⟨_, h⟩ | ⟨h1, h2⟩
  · exact Or.inl h
  · exact Or.inr ⟨h1, h2⟩


/-- C21: book ordering invariant. In a reachable state, for every book, every entry
of the buy set and of the sell set designates an order of the table with that
oid; the orders of the buy set are strictly sorted by descending price with equal
prices in ascending oid order, those of the sell set by ascending price with
equal prices in ascending oid order. The comparison of orders is irreflexive,
transitive on orders of one side, and total and asymmetric on orders of one side
with distinct oids; it does not depend on the quantity or the book marker of
either order; and two entries of a book side that are both still in that side
after any call of `action` are in the same relative position after it. -/
theorem book_ordering_invariant (s : SimpleCross) (hs : Reachable s) :
    (∀ sym b, (sym, b) ∈ s.books →
        (ordersOf s.activeOrders b.buys).map Order.oid = b.buys ∧
          (ordersOf s.activeOrders b.sells).map Order.oid = b.sells ∧
          (ordersOf s.activeOrders b.buys).Pairwise (fun a c =>
            Price.Lt c.price a.price ∨ (a.price = c.price ∧ a.oid < c.oid)) ∧
          (ordersOf s.activeOrders b.sells).Pairwise (fun a c =>
            Price.Lt a.price c.price ∨ (a.price = c.price ∧ a.oid < c.oid))) ∧
      (∀ a : Order, a.lt a = false) ∧
      (∀ a b c : Order, a.side = b.side → a.lt b = true → b.lt c = true → a.lt c = true) ∧
      (∀ a b : Order, a.side = b.side → a.oid ≠ b.oid →
        (a.lt b = true ∧ b.lt a = false) ∨ (a.lt b = false ∧ b.lt a = true)) ∧
      (∀ (a b : Order) (qa qb : Nat) (ia ib : Option Nat),
        Order.lt { a with quantity := qa, book_iter := ia }
          { b with quantity := qb, book_iter := ib } = a.lt b) ∧
      (∀ line sym side p q, [p, q].Sublist (restingOn s sym side) →
        p ∈ restingOn (s.action line).2 sym side → q ∈ restingOn (s.action line).2 sym side →
        [p, q].Sublist (restingOn (s.action line).2 sym side)) := by
  have hinv := reachable_inv s hs
  refine ⟨?_, order_lt_irrefl, order_lt_trans, ?_, ?_, ?_⟩
  · intro sym b hb
    have hentry : ∀ side, ∀ p ∈ b.sideSet side,
        ∃ o, mapFind s.activeOrders p = some o ∧ o.oid = p := by
      intro side p hp
      obtain ⟨o, ho, _⟩ := hinv.entry sym b side p (books_mem_find s hinv sym b hb) hp
      exact ⟨o, ho, (hinv.oidKey p o ho).1⟩
    refine ⟨ordersOf_oid _ _ (hentry .Buy), ordersOf_oid _ _ (hentry .Sell), ?_, ?_⟩
    · have := book_side_pairwise s hinv sym b hb .Buy
      simpa using this
    · have := book_side_pairwise s hinv sym b hb .Sell
      simpa using this
  · intro a b hab hne
    cases h1 : a.lt b
    · cases h2 : b.lt a
      · exact absurd (order_lt_tri a b hab h1 h2).2 hne
      · exact Or.inr ⟨rfl, rfl⟩
    · exact Or.inl ⟨rfl, order_lt_asymm a b hab h1⟩
  · intro a b qa qb ia ib
    exact order_lt_congr _ _ _ _ rfl rfl
  · intro line sym side p q hsub hp hq
    have hinv' := action_inv s hinv line
    have hmem : ∀ x ∈ [p, q], x ∈ restingOn s sym side := fun x hx => hsub.subset hx
    have hp0 := hmem p (by simp)
    have hq0 := hmem q (by simp)
    obtain ⟨op, hop, _⟩ := restingOn_entry s hinv sym side p hp0
    obtain ⟨oq, hoq, _⟩ := restingOn_entry s hinv sym side q hq0
    have hcmp : OrderPtrComparator s.activeOrders p q = true := by
      have := (restingOn_sorted s hinv sym side).sublist hsub
      simpa using this
    have hcmp' : OrderPtrComparator (s.action line).2.activeOrders p q = true := by
      rw [OrderPtrComparator_congr s.activeOrders (s.action line).2.activeOrders p q
        (action_sortKey s hinv line p op hop) (action_sortKey s hinv line q oq hoq)]
      exact hcmp
    rcases pair_sublist_of_mem p q _ hp hq with h | h | h
    · rw [h, OrderPtrComparator_irrefl] at hcmp'
      exact Bool.noConfusion hcmp'
    · exact h
    · exfalso
      have hrev : OrderPtrComparator (s.action line).2.activeOrders q p = true := by
        have := (restingOn_sorted _ hinv' sym side).sublist h
        simpa using this
      obtain ⟨op', hop', _, _, hsp, _⟩ := restingOn_entry _ hinv' sym side p hp
      obtain ⟨oq', hoq', _, _, hsq, _⟩ := restingOn_entry _ hinv' sym side q hq
      unfold OrderPtrComparator at hcmp' hrev
      rw [hop', hoq'] at hcmp'
      rw [hop', hoq'] at hrev
      simp only at hcmp' hrev
      rw [order_lt_asymm op' oq' (hsp.trans hsq.symm) hcmp'] at hrev
      exact Bool.noConfusion hrev

theorem book_ordering_invariant_witness :
    Reachable (runLines sessionB) ∧
      [10006, 10001].Sublist (restingOn (runLines sessionB) "IBM" .Buy) ∧
      restingOn ((runLines sessionB).action "O 10010 IBM S 4 100.00000").2 "IBM" .Buy =
        [10006, 10001, 10005] ∧
      quantityOf ((runLines sessionB).action "O 10010 IBM S 4 100.00000").2 10006 = 6 ∧
      [10006, 10001].Sublist
        (restingOn ((runLines sessionB).action "O 10010 IBM S 4 100.00000").2 "IBM" .Buy) :=
  ⟨⟨sessionB, rfl⟩, by decide, by decide, by decide,
    (book_ordering_invariant (runLines sessionB) ⟨sessionB, rfl⟩).2.2.2.2.2
      "O 10010 IBM S 4 100.00000" "IBM" .Buy 10006 10001 (by decide) (by decide) (by decide)⟩


/-! ## The books are not crossed -/

theorem find_of_sortKey (t1 t2 : List (Nat × Order)) (k : Nat)
    (h : (mapFind t2 k).map Order.sortKey = (mapFind t1 k).map Order.sortKey) (o2 : Order)
    (h2 : mapFind t2 k = some o2) :
    ∃ o1, mapFind t1 k = some o1 ∧ o1.price = o2.price ∧ o1.side = o2.side ∧ o1.oid = o2.oid := by
  rw [h2] at h
  cases h1 : mapFind t1 k with
  | none => rw [h1] at h; simp at h
  | some o1 =>
    rw [h1] at h
    simp only [Option.map_some', Option.some.injEq, Order.sortKey, Prod.mk.injEq] at h
    exact ⟨o1, rfl, h.2.2.symm, h.2.1.symm, h.1.symm⟩

/-- When shares of the incoming order are left after its matches, no entry left on
the opposite side is crossable, the side being walked best first. -/
theorem bookAfter_not_crossable (ao : List (Nat × Order)) (side : OrderSide) (price : Price) :
    ∀ (ps : List Nat) (rem : Nat),
      (∀ p ∈ ps, ∃ m, mapFind ao p = some m) →
      ps.Pairwise (fun x y => ∀ a c, mapFind ao x = some a → mapFind ao y = some c →
        crossable side price c.price = true → crossable side price a.price = true) →
      0 < rem - fillTotal (matchList ao side price rem ps) →
      ∀ q ∈ bookAfter ao side price rem ps, ∀ m, mapFind ao q = some m →
        crossable side price m.price = false := by
  intro ps
  induction ps with
  | nil => intro rem _ _ _ q hq; simp [bookAfter] at hq
  | cons p ps ih =>
    intro rem hentry hsorted hrem q hq m hm
    obtain ⟨mp, hmp⟩ := hentry p (List.mem_cons_self _ _)
    rw [List.pairwise_cons] at hsorted
    simp only [matchList, hmp] at hrem
    simp only [bookAfter, hmp] at hq
    by_cases hr : 0 < rem
    · cases hx : crossable side price mp.price with
      | true =>
        simp only [hr, hx, and_self, if_true, fillTotal_cons] at hrem
        by_cases hle : mp.quantity ≤ rem
        · simp only [hr, hx, hle, and_self, if_true] at hq
          rw [Nat.min_eq_right hle] at hrem
          exact ih (rem - mp.quantity) (fun p' hp' => hentry p' (List.mem_cons_of_mem _ hp'))
            hsorted.2 (by omega) q hq m hm
        · rw [Nat.min_eq_left (by omega)] at hrem
          omega
      | false =>
        simp only [hr, hx, Bool.false_eq_true, false_and, and_false, if_false] at hq
        rcases List.mem_cons.1 hq with h | h
        · rw [h, hmp] at hm
          cases hm
          exact hx
        · cases hc : crossable side price m.price with
          | false => rfl
          | true =>
            rw [hsorted.1 q h mp m hmp hm hc] at hx
            exact Bool.noConfusion hx
    · omega

theorem price_lt_of_lt_of_le (a b c : Price) (h1 : Price.Lt a b)
    (h2 : Price.Lt b c ∨ b = c) : Price.Lt a c := by
  rcases h2 with h2 | h2
  · unfold Price.Lt at *
    omega
  · rw [← h2]; exact h1

theorem price_lt_of_le_of_lt (a b c : Price) (h1 : Price.Lt a b ∨ a = b)
    (h2 : Price.Lt b c) : Price.Lt a c := by
  rcases h1 with h1 | h1
  · unfold Price.Lt at *
    omega
  · rw [h1]; exact h2

/-- The entries of a book side are walked from the most crossable one on. -/
theorem restingOn_crossable_mono (s : SimpleCross) (hinv : Inv s) (sym : String)
    (side : OrderSide) (price : Price) :
    (restingOn s sym side.opposite).Pairwise (fun x y => ∀ a c,
      mapFind s.activeOrders x = some a → mapFind s.activeOrders y = some c →
      crossable side price c.price = true → crossable side price a.price = true) := by
  refine List.Pairwise.imp_of_mem ?_ (restingOn_sorted s hinv sym side.opposite)
  intro x y hx _ hlt a c ha hc hcr
  obtain ⟨a', ha', _, _, hside, _⟩ := restingOn_entry s hinv sym side.opposite x hx
  rw [ha] at ha'
  cases ha'
  unfold OrderPtrComparator at hlt
  rw [ha, hc] at hlt
  simp only at hlt
  rw [order_lt_iff, hside] at hlt
  cases side
  · simp only [OrderSide.opposite, reduceCtorEq, if_false] at hlt
    simp only [crossable, price_ge_iff] at hcr ⊢
    intro h
    apply hcr
    rcases hlt with ⟨_, h1⟩ | ⟨h1, _⟩
    · exact price_lt_of_lt_of_le _ _ _ h (Or.inl h1)
    · exact price_lt_of_lt_of_le _ _ _ h (Or.inr h1)
  · simp only [OrderSide.opposite, if_true] at hlt
    simp only [crossable, price_le_iff] at hcr ⊢
    intro h
    apply hcr
    rcases hlt with ⟨_, h1⟩ | ⟨h1, _⟩
    · exact price_lt_of_le_of_lt _ _ _ (Or.inl h1) h
    · exact price_lt_of_le_of_lt _ _ _ (Or.inr h1.symm) h


/-- Where an entry of a book side after a placement comes from. -/
theorem PlaceFacts.mem_restingOn {s t : SimpleCross} {oid : Nat} {sym : String}
    {side : OrderSide} {q : Nat} {price : Price} (hf : PlaceFacts s t oid sym side q price)
    (hinv : Inv s) (hfresh : mapFind s.activeOrders oid = none) (sym' : String)
    (side' : OrderSide) (x : Nat) (hx : x ∈ restingOn t sym' side') :
    (x = oid ∧ sym' = sym ∧ side' = side) ∨ (x ≠ oid ∧ x ∈ restingOn s sym' side') := by
  have hold : x ∈ restingOn s sym' side' → x ≠ oid ∧ x ∈ restingOn s sym' side' := by
    intro h
    refine ⟨?_, h⟩
    intro e
    rw [e] at h
    exact restingOn_ne_of_fresh s hinv sym' side' oid hfresh h
  by_cases hsym : sym' = sym
  · subst hsym
    rcases side_cases side side' with hsd | hsd
    · subst hsd
      rw [hf.restingOn_own] at hx
      split at hx
      · rcases mem_setInsert _ _ _ _ hx with h | h
        · exact Or.inl ⟨h, rfl, rfl⟩
        · exact Or.inr (hold h)
      · exact Or.inr (hold hx)
    · subst hsd
      rw [hf.restingOn_opp] at hx
      exact Or.inr (hold ((bookAfter_sublist _ _ _ _ _).subset hx))
  · rw [hf.restingOn_other sym' side' hsym] at hx
    exact Or.inr (hold hx)

/-- When the incoming order rests after a placement, no entry left on the opposite
side is crossable with it. -/
theorem PlaceFacts.opp_not_crossable {s t : SimpleCross} {oid : Nat} {sym : String}
    {side : OrderSide} {q : Nat} {price : Price} (hf : PlaceFacts s t oid sym side q price)
    (hinv : Inv s) (hrem : 0 < placeRemaining s sym side q price) (x : Nat)
    (hx : x ∈ restingOn t sym side.opposite) (m : Order)
    (hm : mapFind s.activeOrders x = some m) : crossable side price m.price = false := by
  rw [hf.restingOn_opp] at hx
  refine bookAfter_not_crossable s.activeOrders side price (restingOn s sym side.opposite) q
    ?_ (restingOn_crossable_mono s hinv sym side price) hrem x hx m hm
  intro p hp
  obtain ⟨o, ho, _⟩ := restingOn_entry s hinv sym side.opposite p hp
  exact ⟨o, ho⟩

theorem PlaceFacts.uncrossed {s t : SimpleCross} {oid : Nat} {sym : String}
    {side : OrderSide} {q : Nat} {price : Price} (hf : PlaceFacts s t oid sym side q price)
    (hinv : Inv s) (hun : Uncrossed s) (hfresh : mapFind s.activeOrders oid = none) :
    Uncrossed t := by
  intro sym' p r a c hp hr ha hc
  have hpold : p ≠ oid → ∃ a0, mapFind s.activeOrders p = some a0 ∧ a0.price = a.price :=
    fun hne => by
      obtain ⟨a0, h0, h1, _⟩ := find_of_sortKey _ _ p (hf.sortKey_eq p hne) a ha
      exact ⟨a0, h0, h1⟩
  have hrold : r ≠ oid → ∃ c0, mapFind s.activeOrders r = some c0 ∧ c0.price = c.price :=
    fun hne => by
      obtain ⟨c0, h0, h1, _⟩ := find_of_sortKey _ _ r (hf.sortKey_eq r hne) c hc
      exact ⟨c0, h0, h1⟩
  have hnew := hf.find_oid
  rcases hf.mem_restingOn hinv hfresh sym' .Buy p hp with ⟨hpo, hsym, hside⟩ | ⟨hpo, hp0⟩
  · rcases hf.mem_restingOn hinv hfresh sym' .Sell r hr with ⟨_, _, hside'⟩ | ⟨hro, _⟩
    · rw [← hside] at hside'
      cases hside'
    · subst hpo hsym hside
      rw [hnew] at ha
      cases ha
      have hrem : 0 < placeRemaining s sym' .Buy q price := by
        rw [hf.restingOn_own] at hp
        by_contra hcon
        simp only [hcon, if_false] at hp
        exact restingOn_ne_of_fresh s hinv sym' .Buy p hfresh hp
      obtain ⟨c0, hc0, hc1⟩ := hrold hro
      have := hf.opp_not_crossable hinv hrem r hr c0 hc0
      rw [not_crossable_iff] at this
      rcases this with ⟨_, h⟩ | ⟨h, _⟩
      · rw [← hc1]; exact h
      · cases h
  · rcases hf.mem_restingOn hinv hfresh sym' .Sell r hr with ⟨hro, hsym, hside⟩ | ⟨hro, hr0⟩
    · subst hro hsym hside
      rw [hnew] at hc
      cases hc
      have hrem : 0 < placeRemaining s sym' .Sell q price := by
        rw [hf.restingOn_own] at hr
        by_contra hcon
        simp only [hcon, if_false] at hr
        exact restingOn_ne_of_fresh s hinv sym' .Sell r hfresh hr
      obtain ⟨a0, ha0, ha1⟩ := hpold hpo
      have := hf.opp_not_crossable hinv hrem p hp a0 ha0
      rw [not_crossable_iff] at this
      rcases this with ⟨h, _⟩ | ⟨_, h⟩
      · cases h
      · rw [← ha1]; exact h
    · obtain ⟨a0, ha0, ha1⟩ := hpold hpo
      obtain ⟨c0, hc0, hc1⟩ := hrold hro
      rw [← ha1, ← hc1]
      exact hun sym' p r a0 c0 hp0 hr0 ha0 hc0

theorem cancel_uncrossed (s : SimpleCross) (hinv : Inv s) (hun : Uncrossed s) (oid : Nat) :
    Uncrossed (cancel s oid).2 := by
  cases ho : mapFind s.activeOrders oid with
  | none => simp only [cancel, ho]; exact hun
  | some order =>
    cases hit : order.book_iter with
    | some it =>
      rw [cancel_resting_eq s hinv oid order it ho hit]
      intro sym p r a c hp hr ha hc
      rw [cancel_restingOn] at hp hr
      have hp0 : p ∈ restingOn s sym .Buy := by
        split at hp
        · exact List.mem_of_mem_erase hp
        · exact hp
      have hr0 : r ∈ restingOn s sym .Sell := by
        split at hr
        · exact List.mem_of_mem_erase hr
        · exact hr
      have hprice : ∀ k x x0,
          mapFind (mapModify oid (fun o : Order => { o with book_iter := none })
            s.activeOrders) k = some x →
          mapFind s.activeOrders k = some x0 → x.price = x0.price := by
        intro k x x0 hx hx0
        rw [mapFind_mapModify] at hx
        by_cases hk : k = oid
        · subst hk
          simp only [if_true, hx0, Option.map_some', Option.some.injEq] at hx
          rw [← hx]
        · simp only [hk, if_false] at hx
          rw [hx0] at hx
          cases hx
          rfl
      obtain ⟨a0, ha0, _⟩ := restingOn_entry s hinv sym .Buy p hp0
      obtain ⟨c0, hc0, _⟩ := restingOn_entry s hinv sym .Sell r hr0
      rw [hprice p a a0 ha ha0, hprice r c c0 hc hc0]
      exact hun sym p r a0 c0 hp0 hr0 ha0 hc0
    | none =>
      simp only [cancel, ho, hit]
      split <;> exact hun

theorem action_uncrossed (s : SimpleCross) (hinv : Inv s) (hun : Uncrossed s) (line : String) :
    Uncrossed (s.action line).2 := by
  rw [action_eq_perform]
  cases hreq : parseLine line with
  | blank => exact hun
  | error msg => exact hun
  | print => exact hun
  | place oid sym side q price =>
    simp only [perform]
    cases hfresh : mapFind s.activeOrders oid with
    | some o0 =>
      simp only [place, hfresh]
      exact hun
    | none =>
      obtain ⟨_, hf⟩ := place_spec s hinv oid sym side q price hfresh
        (parseLine_place line _ _ _ _ _ hreq).2.2.2
      exact hf.uncrossed hinv hun hfresh
  | cancel oid => exact cancel_uncrossed s hinv hun oid

theorem runLines_uncrossed (lines : List String) : Uncrossed (runLines lines) := by
  induction lines using List.reverseRecOn with
  | nil =>
    intro sym p r a c hp
    simp [runLines, SimpleCross.empty, restingOn, bookAt, mapFind, OrderBook.sideSet] at hp
  | append_singleton ls l ih =>
    rw [runLines_append]
    exact action_uncrossed _ (runLines_inv ls) ih l


/-- C22: uncrossed book. In a reachable state, for every symbol, every resting buy
order has a price strictly below that of every resting sell order of the symbol;
and when an accepted place request ends with the incoming order in the book, no
order left on the opposite side of its symbol is crossable with it. -/
theorem book_uncrossed (s : SimpleCross) (hs : Reachable s) :
    (∀ sym p r a c, p ∈ restingOn s sym OrderSide.Buy → r ∈ restingOn s sym OrderSide.Sell →
        mapFind s.activeOrders p = some a → mapFind s.activeOrders r = some c →
        Price.Lt a.price c.price) ∧
      (∀ line oid sym side q price, parseLine line = .place oid sym side q price →
        mapFind s.activeOrders oid = none →
        oid ∈ restingOn (s.action line).2 sym side →
        ∀ p ∈ restingOn (s.action line).2 sym side.opposite, ∀ m,
          mapFind (s.action line).2.activeOrders p = some m →
          crossable side price m.price = false) := by
  obtain ⟨lines, rfl⟩ := hs
  refine ⟨runLines_uncrossed lines, ?_⟩
  intro line oid sym side q price hparse hfresh hrest p hp m hm
  have hun : Uncrossed ((runLines lines).action line).2 := by
    rw [← runLines_append]
    exact runLines_uncrossed _
  obtain ⟨_, hf⟩ := action_place_spec (runLines lines) ⟨lines, rfl⟩ line oid sym side q price
    hparse hfresh
  have hnew := hf.find_oid
  rw [not_crossable_iff]
  cases side
  · exact Or.inl ⟨rfl, hun sym oid p _ m hrest hp hnew hm⟩
  · exact Or.inr ⟨rfl, hun sym p oid m _ hp hrest hm hnew⟩

theorem book_uncrossed_witness :
    Reachable (runLines sessionB) ∧
      (restingOn (runLines sessionB) "IBM" .Buy = [10006, 10001, 10005] ∧
        restingOn (runLines sessionB) "IBM" .Sell = [10007, 10008, 10009]) ∧
      (mapFind (runLines sessionB).activeOrders 10006).map Order.price = some ⟨100, 0⟩ ∧
      (mapFind (runLines sessionB).activeOrders 10007).map Order.price = some ⟨101, 0⟩ ∧
      Price.Lt ⟨100, 0⟩ ⟨101, 0⟩ :=
  ⟨⟨sessionB, rfl⟩, by decide, by decide, by decide,
    (book_uncrossed (runLines sessionB) ⟨sessionB, rfl⟩).1 "IBM" 10006 10007
      ⟨10006, "IBM", .Buy, 10, ⟨100, 0⟩, some 10006⟩
      ⟨10007, "IBM", .Sell, 10, ⟨101, 0⟩, some 10007⟩
      (by decide) (by decide) (by decide) (by decide)⟩


/-! ## The number of matches -/

theorem placeStart_eq (s : SimpleCross) (hinv : Inv s) (oid : Nat) (sym : String)
    (side : OrderSide) (q : Nat) (price : Price) :
    placeStart s oid sym side q price =
      ⟨mapEmplace oidLt oid (Order.new oid sym side q price) s.activeOrders,
        restingOn s sym side.opposite, []⟩ := by
  unfold placeStart
  rw [bookAt_emplace_books s.books hinv.booksSorted]
  rfl

theorem placeStart_loopOK (s : SimpleCross) (hinv : Inv s) (oid : Nat) (sym : String)
    (side : OrderSide) (q : Nat) (price : Price)
    (hfresh : mapFind s.activeOrders oid = none) (hq : q ≤ UINT16_MAX) :
    LoopOK oid sym side price q
      (mapEmplace oidLt oid (Order.new oid sym side q price) s.activeOrders)
      (restingOn s sym side.opposite) := by
  have hfind1 : ∀ k, mapFind (mapEmplace oidLt oid (Order.new oid sym side q price)
      s.activeOrders) k = if k = oid then some (Order.new oid sym side q price)
      else mapFind s.activeOrders k :=
    mapFind_mapEmplace_of_none oidLt_strictTotal oid _ s.activeOrders hfresh
  have hnot : oid ∉ restingOn s sym side.opposite :=
    restingOn_ne_of_fresh s hinv sym side.opposite oid hfresh
  refine ⟨⟨Order.new oid sym side q price, ?_, rfl, rfl, rfl, rfl, rfl⟩, hq, hnot,
    restingOn_nodup s hinv sym side.opposite, ?_⟩
  · rw [hfind1]; simp
  · intro p hp
    obtain ⟨o, ho, h1, h2, _, h4, h5, h6⟩ := restingOn_entry s hinv sym side.opposite p hp
    have hne : p ≠ oid := fun e => hnot (e ▸ hp)
    refine ⟨o, ?_, h1, h2, h4, h5, h6⟩
    rw [hfind1]; simp [hne, ho]

theorem flatMap_lines_length (oid : Nat) (sym : String) (fills : List Fill) :
    (fills.flatMap (Fill.lines oid sym)).length = 2 * fills.length := by
  induction fills with
  | nil => rfl
  | cons f fs ih =>
    simp only [List.flatMap_cons, List.length_append, ih, Fill.lines, List.length_cons,
      List.length_nil]
    omega

theorem length_le_fillTotal (fills : List Fill) (h : ∀ f ∈ fills, 0 < f.qty) :
    fills.length ≤ fillTotal fills := by
  induction fills with
  | nil => simp
  | cons f fs ih =>
    have h1 := h f (List.mem_cons_self _ _)
    have h2 := ih (fun g hg => h g (List.mem_cons_of_mem _ hg))
    rw [fillTotal_cons, List.length_cons]
    omega


/-- C23: the matching ends with a bounded number of fills. For a reachable state
and an accepted place request, the matching loop started by the call reaches its
own exit (condition false, or `break`) within one more iteration than the
opposite side of the symbol has entries, any larger bound on the iterations
gives the same final loop state, and the call returns what the end of the
placement makes of that state; the output is the pairs of lines of the matches,
so its length is twice the number of matches; the number of matches is at most
the number of orders resting on the opposite side before the call and at most
the requested quantity; and no resting oid is in two matches. -/
theorem place_matching_bounded (s : SimpleCross) (hs : Reachable s) (line : String)
    (oid : Nat) (sym : String) (side : OrderSide) (q : Nat) (price : Price)
    (hparse : parseLine line = .place oid sym side q price)
    (hfresh : mapFind s.activeOrders oid = none) :
    (crossCond oid (crossLoop oid ((restingOn s sym side.opposite).length + 1)
          (placeStart s oid sym side q price)) = false ∨
        crossBody oid (crossLoop oid ((restingOn s sym side.opposite).length + 1)
          (placeStart s oid sym side q price)) = none) ∧
      (∀ k, crossLoop oid ((restingOn s sym side.opposite).length + 1 + k)
          (placeStart s oid sym side q price) =
        crossLoop oid ((restingOn s sym side.opposite).length + 1)
          (placeStart s oid sym side q price)) ∧
      (∀ k, s.action line = placeFinish oid sym side
        (crossLoop oid ((restingOn s sym side.opposite).length + 1 + k)
          (placeStart s oid sym side q price))
        (mapEmplace symbolLt sym (⟨[], []⟩ : OrderBook) s.books)) ∧
      (s.action line).1 = (placeFills s sym side q price).flatMap (Fill.lines oid sym) ∧
      (s.action line).1.length = 2 * (placeFills s sym side q price).length ∧
      (placeFills s sym side q price).length ≤ (restingOn s sym side.opposite).length ∧
      (placeFills s sym side q price).length ≤ q ∧
      ((placeFills s sym side q price).map Fill.resting).Nodup := by
  have hinv := reachable_inv s hs
  have hq := (parseLine_place line _ _ _ _ _ hparse).2.2.2
  have hok := placeStart_loopOK s hinv oid sym side q price hfresh hq
  have hstart := placeStart_eq s hinv oid sym side q price
  have hexit := (crossLoop_spec oid sym side price (restingOn s sym side.opposite) q
    _ [] ((restingOn s sym side.opposite).length + 1) hok (Nat.le_refl _)).2.2.2.2
  have hfuel := crossLoop_fuel_enough oid sym side price (restingOn s sym side.opposite) q
    _ [] hok
  obtain ⟨hout, _⟩ := action_place_spec s hs line oid sym side q price hparse hfresh
  refine ⟨?_, ?_, ?_, hout, ?_, ?_, ?_, ?_⟩
  · rw [hstart]; exact hexit
  · intro k; rw [hstart]; exact hfuel k
  · intro k
    rw [action_place s line oid sym side q price hparse, place_eq s oid sym side q price hfresh,
      hstart, hfuel k, bookAt_emplace_books s.books hinv.booksSorted]
    rfl
  · rw [hout]; exact flatMap_lines_length oid sym _
  · obtain ⟨t, ht⟩ := matchList_resting s.activeOrders side price
      (restingOn s sym side.opposite) q
    have := congrArg List.length ht
    rw [List.length_append, List.length_map] at this
    unfold placeFills
    omega
  · have hpos : ∀ f ∈ placeFills s sym side q price, 0 < f.qty := by
      apply matchList_qty_pos
      intro p hp m hm
      obtain ⟨o, ho, _, _, _, h4, _⟩ := restingOn_entry s hinv sym side.opposite p hp
      rw [hm] at ho
      cases ho
      exact h4
    have h1 := length_le_fillTotal _ hpos
    have h2 := fillTotal_le s.activeOrders side price (restingOn s sym side.opposite) q
    unfold placeFills at h1
    unfold placeFills
    omega
  · exact matchList_nodup _ _ _ _ _ (restingOn_nodup s hinv sym side.opposite)

theorem place_matching_bounded_witness :
    Reachable (runLines sessionB) ∧
      parseLine "O 10010 IBM B 13 102.00000" = .place 10010 "IBM" .Buy 13 ⟨102, 0⟩ ∧
      mapFind (runLines sessionB).activeOrders 10010 = none ∧
      (placeFills (runLines sessionB) "IBM" .Buy 13 ⟨102, 0⟩).length = 2 ∧
      ((runLines sessionB).action "O 10010 IBM B 13 102.00000").1.length =
        2 * (placeFills (runLines sessionB) "IBM" .Buy 13 ⟨102, 0⟩).length :=
  ⟨⟨sessionB, rfl⟩, by decide, by decide, by decide,
    (place_matching_bounded (runLines sessionB) ⟨sessionB, rfl⟩ "O 10010 IBM B 13 102.00000"
      10010 "IBM" .Buy 13 ⟨102, 0⟩ (by decide) (by decide)).2.2.2.2.1⟩


/-! ## Partial fills of resting orders -/

/-- When shares of the incoming order are left after its matches, every match took
the whole quantity of its resting order. -/
theorem matchList_all_full (ao : List (Nat × Order)) (side : OrderSide) (price : Price) :
    ∀ (ps : List Nat) (rem : Nat),
      0 < rem - fillTotal (matchList ao side price rem ps) →
      ∀ f ∈ matchList ao side price rem ps,
        ∃ m, mapFind ao f.resting = some m ∧ f.qty = m.quantity := by
  intro ps
  induction ps with
  | nil => intro rem _ f hf; simp [matchList] at hf
  | cons p ps ih =>
    intro rem hrem f hf
    simp only [matchList] at hrem hf
    cases hmp : mapFind ao p with
    | none => simp [hmp] at hf
    | some mp =>
      simp only [hmp] at hrem hf
      split at hf
      · rename_i hc
        simp only [hc, and_self, if_true, fillTotal_cons] at hrem
        have hle : mp.quantity ≤ rem := by
          by_contra hcon
          rw [Nat.min_eq_left (by omega)] at hrem
          omega
        rw [Nat.min_eq_right hle] at hrem hf
        rcases List.mem_cons.1 hf with h | h
        · rw [h]
          exact ⟨mp, hmp, rfl⟩
        · exact ih (rem - mp.quantity) (by omega) f h
      · simp at hf

/-- The opposite side after the matches is what follows the matched entries, with
the last matched entry in front of it when that entry was filled in part. -/
theorem bookAfter_eq (ao : List (Nat × Order)) (side : OrderSide) (price : Price) :
    ∀ (ps : List Nat) (rem : Nat),
      ∃ t, ps = (matchList ao side price rem ps).map Fill.resting ++ t ∧
        (bookAfter ao side price rem ps = t ∨
          ∃ pre f, matchList ao side price rem ps = pre ++ [f] ∧
            bookAfter ao side price rem ps = f.resting :: t) := by
  intro ps
  induction ps with
  | nil => intro rem; exact ⟨[], rfl, Or.inl rfl⟩
  | cons p ps ih =>
    intro rem
    simp only [matchList, bookAfter]
    cases hmp : mapFind ao p with
    | none => exact ⟨p :: ps, rfl, Or.inl rfl⟩
    | some mp =>
      simp only
      by_cases hr : 0 < rem
      · cases hx : crossable side price mp.price with
        | false =>
          simp only [hr, Bool.false_eq_true, and_false, false_and, if_false]
          exact ⟨p :: ps, rfl, Or.inl rfl⟩
        | true =>
          by_cases hle : mp.quantity ≤ rem
          · simp only [hr, hle, and_self, if_true, Nat.min_eq_right hle]
            obtain ⟨t, ht, hcase⟩ := ih (rem - mp.quantity)
            refine ⟨t, ?_, ?_⟩
            · simp only [List.map_cons, List.cons_append]
              rw [← ht]
            · rcases hcase with h | ⟨pre, f, h1, h2⟩
              · exact Or.inl h
              · exact Or.inr ⟨⟨p, mp.quantity, mp.price⟩ :: pre, f, by rw [h1]; rfl, h2⟩
          · simp only [hr, hle, and_self, and_false, if_true, if_false,
              Nat.min_eq_left (Nat.le_of_lt (Nat.lt_of_not_le hle)), Nat.sub_self,
              matchList_zero]
            exact ⟨ps, rfl, Or.inr ⟨[], ⟨p, rem, mp.price⟩, rfl, rfl⟩⟩
      · simp only [hr, false_and, if_false]
        exact ⟨p :: ps, rfl, Or.inl rfl⟩


/-- A match that takes the whole quantity of its resting order leaves that order
with quantity 0, its marker cleared, and out of the book. -/
theorem PlaceFacts.complete_fill {s t : SimpleCross} {oid : Nat} {sym : String}
    {side : OrderSide} {q : Nat} {price : Price} (hf : PlaceFacts s t oid sym side q price)
    (hinv : Inv s) (hfresh : mapFind s.activeOrders oid = none) (f : Fill)
    (hmem : f ∈ placeFills s sym side q price) (m : Order)
    (hm : mapFind s.activeOrders f.resting = some m) (hfull : f.qty = m.quantity) :
    mapFind t.activeOrders f.resting = some { m with quantity := 0, book_iter := none } ∧
      f.resting ∉ restingOn t sym side.opposite := by
  have hnd : ((placeFills s sym side q price).map Fill.resting).Nodup :=
    matchList_nodup _ _ _ _ _ (restingOn_nodup s hinv sym side.opposite)
  have hfill := fillFor_of_mem _ hnd f hmem
  have hopp : f.resting ∈ restingOn s sym side.opposite :=
    fillFor_matchList_mem _ _ _ _ _ _ _ hfill
  obtain ⟨hne, hfind⟩ := hf.find_old hfresh f.resting m hm
  constructor
  · rw [hfind]
    simp only [orderAfter, hne, if_false, hfill, Order.afterFill, hfull, if_true]
  · rw [hf.restingOn_opp]
    rcases placeFills_cases s hinv sym side q price f.resting m hopp hm with
      ⟨_, h | ⟨f', h1, h2⟩⟩ | ⟨h, _⟩
    · rw [hfill] at h
      exact Option.noConfusion h
    · rw [hfill] at h1
      cases h1
      omega
    · exact h

/-- C24: at most one partial fill on the resting side. For a reachable state and an
accepted place request: every match but the last takes the whole quantity of its
resting order, which is left with quantity 0, its marker cleared, and out of the
book; if the resting order of the last match is still in the book after the
call, then the incoming order ends with quantity 0 and out of the book, that
resting order keeps a positive quantity (its own less the fill), and it is the
first entry of its side, followed by the entries that followed it before; and if
the incoming order ends in the book, every match took the whole quantity of its
resting order, which is left with quantity 0 and out of the book. -/
theorem place_single_partial_fill (s : SimpleCross) (hs : Reachable s) (line : String)
    (oid : Nat) (sym : String) (side : OrderSide) (q : Nat) (price : Price)
    (hparse : parseLine line = .place oid sym side q price)
    (hfresh : mapFind s.activeOrders oid = none) :
    (∀ pre f g post, placeFills s sym side q price = pre ++ f :: g :: post →
        ∃ m, mapFind s.activeOrders f.resting = some m ∧ f.qty = m.quantity ∧
          mapFind (s.action line).2.activeOrders f.resting =
            some { m with quantity := 0, book_iter := none } ∧
          f.resting ∉ restingOn (s.action line).2 sym side.opposite) ∧
      (∀ pre f, placeFills s sym side q price = pre ++ [f] →
        f.resting ∈ restingOn (s.action line).2 sym side.opposite →
        mapFind (s.action line).2.activeOrders oid = some ⟨oid, sym, side, 0, price, none⟩ ∧
          oid ∉ restingOn (s.action line).2 sym side ∧
          ∃ m rest, mapFind s.activeOrders f.resting = some m ∧ f.qty < m.quantity ∧
            mapFind (s.action line).2.activeOrders f.resting =
              some { m with quantity := m.quantity - f.qty } ∧
            restingOn s sym side.opposite = pre.map Fill.resting ++ f.resting :: rest ∧
            restingOn (s.action line).2 sym side.opposite = f.resting :: rest) ∧
      (oid ∈ restingOn (s.action line).2 sym side →
        ∀ f ∈ placeFills s sym side q price,
          ∃ m, mapFind s.activeOrders f.resting = some m ∧ f.qty = m.quantity ∧
            mapFind (s.action line).2.activeOrders f.resting =
              some { m with quantity := 0, book_iter := none } ∧
            f.resting ∉ restingOn (s.action line).2 sym side.opposite) := by
  have hinv := reachable_inv s hs
  obtain ⟨_, hf⟩ := action_place_spec s hs line oid sym side q price hparse hfresh
  have hnd : ((placeFills s sym side q price).map Fill.resting).Nodup :=
    matchList_nodup _ _ _ _ _ (restingOn_nodup s hinv sym side.opposite)
  have hnot := restingOn_ne_of_fresh s hinv sym side oid hfresh
  have hall : 0 < placeRemaining s sym side q price →
      ∀ f ∈ placeFills s sym side q price,
        ∃ m, mapFind s.activeOrders f.resting = some m ∧ f.qty = m.quantity ∧
          mapFind (s.action line).2.activeOrders f.resting =
            some { m with quantity := 0, book_iter := none } ∧
          f.resting ∉ restingOn (s.action line).2 sym side.opposite := by
    intro hrem f hmem
    obtain ⟨m, hm, hfull⟩ := matchList_all_full s.activeOrders side price
      (restingOn s sym side.opposite) q hrem f hmem
    exact ⟨m, hm, hfull, hf.complete_fill hinv hfresh f hmem m hm hfull⟩
  refine ⟨?_, ?_, ?_⟩
  · intro pre f g post hsplit
    obtain ⟨m, hm, hfull⟩ := matchList_full s.activeOrders side price
      (restingOn s sym side.opposite) q pre f g post hsplit
    have hmem : f ∈ placeFills s sym side q price := by
      rw [hsplit]; simp
    exact ⟨m, hm, hfull, hf.complete_fill hinv hfresh f hmem m hm hfull⟩
  · intro pre f hsplit hstay
    have hmem : f ∈ placeFills s sym side q price := by
      rw [hsplit]; simp
    have hrem : placeRemaining s sym side q price = 0 := by
      by_contra hcon
      obtain ⟨_, _, _, _, hout⟩ := hall (Nat.pos_of_ne_zero hcon) f hmem
      exact hout hstay
    have hfill := fillFor_of_mem _ hnd f hmem
    have hopp : f.resting ∈ restingOn s sym side.opposite :=
      fillFor_matchList_mem _ _ _ _ _ _ _ hfill
    obtain ⟨m, hm, _⟩ := restingOn_entry s hinv sym side.opposite f.resting hopp
    obtain ⟨hne, hfind⟩ := hf.find_old hfresh f.resting m hm
    have hold := hf.find_oid
    rw [hrem] at hold
    have hown := hf.restingOn_own
    rw [hrem] at hown
    simp only [Nat.lt_irrefl, if_false] at hold hown
    have hlt : f.qty < m.quantity := by
      have hstay' := hstay
      rw [hf.restingOn_opp] at hstay'
      rcases placeFills_cases s hinv sym side q price f.resting m hopp hm with
        ⟨_, h | ⟨f', h1, h2⟩⟩ | ⟨h, _⟩
      · rw [hfill] at h
        exact Option.noConfusion h
      · rw [hfill] at h1
        cases h1
        exact h2
      · exact absurd hstay' h
    refine ⟨hold, by rw [hown]; exact hnot, m, ?_⟩
    obtain ⟨rest, hrest, hcase⟩ := bookAfter_eq s.activeOrders side price
      (restingOn s sym side.opposite) q
    have hsplit' : matchList s.activeOrders side price q (restingOn s sym side.opposite) =
        pre ++ [f] := hsplit
    rw [hsplit'] at hrest hcase
    have hnd0 := restingOn_nodup s hinv sym side.opposite
    rcases hcase with h | ⟨pre', f', h1, h2⟩
    · exfalso
      have hin : f.resting ∈ rest := by
        rw [hf.restingOn_opp, h] at hstay
        exact hstay
      rw [hrest, List.nodup_append] at hnd0
      exact List.disjoint_left.1 hnd0.2.2 (by simp) hin
    · obtain ⟨_, hff⟩ := List.append_inj' h1 rfl
      cases hff
      refine ⟨rest, hm, hlt, ?_, ?_, ?_⟩
      · rw [hfind]
        have hneq : ¬ m.quantity = f.qty := by omega
        simp only [orderAfter, hne, if_false, hfill, Order.afterFill, hneq]
      · rw [hrest]
        simp
      · rw [hf.restingOn_opp]
        exact h2
  · intro hrest
    apply hall
    by_contra hcon
    rw [hf.restingOn_own] at hrest
    simp only [hcon, if_false] at hrest
    exact hnot hrest


theorem place_single_partial_fill_witness :
    Reachable (runLines sessionB) ∧
      parseLine "O 10010 IBM B 13 102.00000" = .place 10010 "IBM" .Buy 13 ⟨102, 0⟩ ∧
      mapFind (runLines sessionB).activeOrders 10010 = none ∧
      placeFills (runLines sessionB) "IBM" .Buy 13 ⟨102, 0⟩ =
        [⟨10007, 10, ⟨101, 0⟩⟩] ++ [⟨10008, 3, ⟨102, 0⟩⟩] ∧
      restingOn ((runLines sessionB).action "O 10010 IBM B 13 102.00000").2 "IBM" .Sell =
        [10008, 10009] ∧
      quantityOf ((runLines sessionB).action "O 10010 IBM B 13 102.00000").2 10008 = 7 ∧
      mapFind ((runLines sessionB).action "O 10010 IBM B 13 102.00000").2.activeOrders 10010 =
        some ⟨10010, "IBM", .Buy, 0, ⟨102, 0⟩, none⟩ :=
  ⟨⟨sessionB, rfl⟩, by decide, by decide, by decide, by decide, by decide,
    ((place_single_partial_fill (runLines sessionB) ⟨sessionB, rfl⟩
      "O 10010 IBM B 13 102.00000" 10010 "IBM" .Buy 13 ⟨102, 0⟩ (by decide) (by decide)).2.1
      [⟨10007, 10, ⟨101, 0⟩⟩] ⟨10008, 3, ⟨102, 0⟩⟩ (by decide) (by decide)).1⟩


end Cross
